import Mathlib

/-!
# libmc: table generator and Transvoxel transition cells

A shallow embedding of `src/mc/algorithms/simple/generate_table.c` and
`src/mc/algorithms/transvoxel/transvoxel.c`, followed by the properties proved
about them.

The C arrays become lists, `int` values become `Int`, `unsigned int` values
become `Nat`, and the functions of the cube topology engine, whose code is kept
in another translation unit (`mc/algorithms/common/cube.h`), are the fields of
a structure the generator is parametrised by.
-/

namespace MC

/-! ## Cube topology engine -/

/-- Modelled from the spec: `MC_CUBE_NUM_EDGES` of `mc/algorithms/common/cube.h`,
the number of edges of a cube ("12 edges"); `printEdgeTable` prints the twelve
slots `edges[0]` to `edges[11]` of a row. -/
def MC_CUBE_NUM_EDGES : Nat := 12

/-- Modelled from the spec: `MC_SIMPLE_MAX_TRIANGLES` of
`mc/algorithms/simple/common.h` ("up to 4 triangles");
`printTriangulationTable` prints the four slots `triangles[0]` to
`triangles[3]`. -/
def MC_SIMPLE_MAX_TRIANGLES : Nat := 4

/-- Modelled from the spec: the Cube Topology Engine declared in
`mc/algorithms/common/cube.h`, which the table generator calls and whose
definitions are in another translation unit. Each field is one function (or the
family of the fifteen enumeration constants `MC_CUBE_CANONICAL_ORIENTATION_k`)
the generator uses; the generator is parametrised by them.

* `mcCube_edgeVertices edge` gives the two endpoint vertices of `edge`;
* `mcCube_vertexValue vertex cube` gives the bit of `vertex` in `cube`;
* `mcCube_canonicalOrientation cube` gives the canonical class of `cube`, as
  one of the constants `MC_CUBE_CANONICAL_ORIENTATION k`;
* `mcCube_canonicalRotation cube` gives the rotation word: byte 0 counts the
  rotations about z, byte 1 those about x, byte 2 those about y;
* `mcCube_rotateEdgeX`, `Y`, `Z` remap an edge id under one 90 degree
  rotation, and the `Reverse` functions undo them. -/
structure CubeEngine where
  mcCube_edgeVertices : Nat → Nat × Nat
  mcCube_vertexValue : Nat → Nat → Nat
  mcCube_canonicalOrientation : Nat → Nat
  mcCube_canonicalRotation : Nat → Nat
  MC_CUBE_CANONICAL_ORIENTATION : Nat → Nat
  mcCube_rotateEdgeX : Int → Int
  mcCube_rotateEdgeY : Int → Int
  mcCube_rotateEdgeZ : Int → Int
  mcCube_rotateEdgeReverseX : Int → Int
  mcCube_rotateEdgeReverseY : Int → Int
  mcCube_rotateEdgeReverseZ : Int → Int

/-! ## generate_table.c -/

/-- The macro `get_byte(num, byte)`:
`(((num) & (0xff << (8 * byte))) >> (8 * byte))`. -/
def get_byte (num byte : Nat) : Nat :=
  (num &&& (0xff <<< (8 * byte))) >>> (8 * byte)

/-- The row `edgeList->edges` together with the local `listIndex`. -/
structure EdgeListState where
  edges : List Int
  listIndex : Nat
deriving DecidableEq, Repr

/-- One iteration of the loop of `computeEdgeList`: when the vertex values of
the two endpoints of `edge` disagree, `edgeList->edges[listIndex++] = edge`. -/
def computeEdgeList_step (E : CubeEngine) (cube : Nat) (st : EdgeListState)
    (edge : Nat) : EdgeListState :=
  let vertices := E.mcCube_edgeVertices edge
  if E.mcCube_vertexValue vertices.1 cube ≠ E.mcCube_vertexValue vertices.2 cube then
    { edges := st.edges.set st.listIndex (edge : Int), listIndex := st.listIndex + 1 }
  else
    st

/-- The loop of `computeEdgeList` over `edge = 0, ..., MC_CUBE_NUM_EDGES - 1`,
started on the row `edgeList` with `listIndex = 0`. -/
def computeEdgeList_loop (E : CubeEngine) (cube : Nat) (edgeList : List Int) :
    EdgeListState :=
  (List.range MC_CUBE_NUM_EDGES).foldl (computeEdgeList_step E cube)
    { edges := edgeList, listIndex := 0 }

/-- The function `computeEdgeList(cube, edgeList)`: the row after the call. -/
def computeEdgeList (E : CubeEngine) (cube : Nat) (edgeList : List Int) : List Int :=
  (computeEdgeList_loop E cube edgeList).edges

/-- A row of the edge table as `main` prepares it:
`memset(edgeTable, -1, ...)` fills the twelve slots with the sentinel. -/
def sentinelEdgeList : List Int := List.replicate MC_CUBE_NUM_EDGES (-1)

/-- The row `edgeTable[cube]` of `main`: `computeEdgeList` run on the
sentinel-filled row. -/
def edgeTableRow (E : CubeEngine) (cube : Nat) : List Int :=
  computeEdgeList E cube sentinelEdgeList

/-- The struct `mcSimpleTriangle`: three edge ids, or the sentinel `-1`. -/
structure mcSimpleTriangle where
  e0 : Int
  e1 : Int
  e2 : Int
deriving DecidableEq, Repr

/-- The triangle every slot holds after `memset(triangleList, -1, ...)`. -/
def sentinelTriangle : mcSimpleTriangle := ⟨-1, -1, -1⟩

/-- The array `triangleList->triangles` together with the local
`numTriangles`. -/
structure TriangleListState where
  triangles : List mcSimpleTriangle
  numTriangles : Nat
deriving DecidableEq, Repr

/-- The macro `make_triangle(a, b, c)`: writes the three edges into
`triangleList->triangles[numTriangles++]`. -/
def make_triangle (st : TriangleListState) (a b c : Int) : TriangleListState :=
  { triangles := st.triangles.set st.numTriangles ⟨a, b, c⟩,
    numTriangles := st.numTriangles + 1 }

/-- The body of `case MC_CUBE_CANONICAL_ORIENTATION_k:` of the `switch` in
`computeTriangleList`, for `k = 0, ..., 14`; any other index leaves the state
as it is. -/
def canonicalCase (st : TriangleListState) : Nat → TriangleListState
  | 0 => st
  | 1 => make_triangle st 0 8 3
  | 2 => make_triangle (make_triangle st 1 8 3) 1 9 8
  | 3 => make_triangle (make_triangle st 0 8 3) 1 2 11
  | 4 => make_triangle (make_triangle (make_triangle st 2 11 3) 3 11 8) 8 11 9
  | 5 => make_triangle (make_triangle st 8 10 11) 8 11 9
  | 6 => make_triangle (make_triangle st 1 2 11) 4 7 8
  | 7 => make_triangle (make_triangle (make_triangle st 0 4 3) 3 4 7) 1 2 11
  | 8 => make_triangle (make_triangle (make_triangle (make_triangle st
      2 11 9) 2 7 3) 4 7 9) 2 9 7
  | 9 => make_triangle (make_triangle (make_triangle st 1 9 0) 2 3 10) 4 7 8
  | 10 => make_triangle (make_triangle (make_triangle (make_triangle st
      2 7 10) 1 9 2) 4 7 9) 2 9 7
  | 11 => make_triangle (make_triangle (make_triangle (make_triangle st
      7 10 11) 0 11 1) 0 4 7) 0 7 11
  | 12 => make_triangle (make_triangle (make_triangle (make_triangle st
      4 7 8) 0 3 10) 0 10 9) 9 10 11
  | 13 => make_triangle (make_triangle (make_triangle (make_triangle st
      3 10 11) 1 3 11) 5 7 8) 5 8 9
  | 14 => make_triangle (make_triangle (make_triangle (make_triangle st
      0 1 9) 2 3 10) 4 7 8) 5 11 6
  | _ => st

/-- The `case` label the `switch (canonical)` jumps to: the index `k` with
`canonical == MC_CUBE_CANONICAL_ORIENTATION_k`, if there is one (the labels of a
C `switch` are pairwise distinct, so at most one matches). -/
def switchCase (E : CubeEngine) (canonical : Nat) : Option Nat :=
  (List.range 15).find? (fun k => E.MC_CUBE_CANONICAL_ORIENTATION k == canonical)

/-- The first half of `computeTriangleList`: the `memset` to `-1`,
`numTriangles = 0`, and the `switch` on the canonical orientation. -/
def canonicalTriangleList (E : CubeEngine) (cube : Nat) : TriangleListState :=
  let st : TriangleListState :=
    { triangles := List.replicate MC_SIMPLE_MAX_TRIANGLES sentinelTriangle,
      numTriangles := 0 }
  match switchCase E (E.mcCube_canonicalOrientation cube) with
  | some k => canonicalCase st k
  | none => st

/-- The three inner loops of `computeTriangleList` on one edge slot:
`get_byte(rotation, 2)` reverse rotations about y, then `get_byte(rotation, 1)`
about x, then `get_byte(rotation, 0)` about z. -/
def rotateEdgeBack (E : CubeEngine) (rotation : Nat) (edge : Int) : Int :=
  E.mcCube_rotateEdgeReverseZ^[get_byte rotation 0]
    (E.mcCube_rotateEdgeReverseX^[get_byte rotation 1]
      (E.mcCube_rotateEdgeReverseY^[get_byte rotation 2] edge))

/-- The loop `for (int j = 0; j < 3; ++j)` on one triangle. -/
def rotateTriangleBack (E : CubeEngine) (rotation : Nat) (t : mcSimpleTriangle) :
    mcSimpleTriangle :=
  ⟨rotateEdgeBack E rotation t.e0, rotateEdgeBack E rotation t.e1,
    rotateEdgeBack E rotation t.e2⟩

/-- The loop `for (int i = 0; i < MC_SIMPLE_MAX_TRIANGLES; ++i)` that rotates
the canonical triangles back: it stops at the first slot whose `edges[0]` is
`-1` and leaves that slot and the later ones as they are. -/
def rotateTrianglesBack (E : CubeEngine) (rotation : Nat) :
    List mcSimpleTriangle → List mcSimpleTriangle
  | [] => []
  | t :: ts =>
    if t.e0 = -1 then t :: ts
    else rotateTriangleBack E rotation t :: rotateTrianglesBack E rotation ts

/-- The function `computeTriangleList(cube, triangleList)`: the four slots of
`triangleList->triangles` after the call. -/
def computeTriangleList (E : CubeEngine) (cube : Nat) : List mcSimpleTriangle :=
  rotateTrianglesBack E (E.mcCube_canonicalRotation cube)
    (canonicalTriangleList E cube).triangles

/-- The sentinel-terminated scan of a triangle row, as in the consistency check
of `main` (`if (triangle->edges[0] == -1) break;`): the triangles before the
first slot whose `edges[0]` is `-1`. -/
def scanTriangles (row : List mcSimpleTriangle) : List mcSimpleTriangle :=
  row.takeWhile (fun t => decide (t.e0 ≠ -1))

/-- The three edge ids of a triangle. -/
def mcSimpleTriangle.edgeIds (t : mcSimpleTriangle) : List Int := [t.e0, t.e1, t.e2]

/-! ## A cube topology engine modelled from the specification -/

namespace Spec

/-- Modelled from the spec: the positions of the eight cube vertices, absent
from the sources ("canonical positions at unit-cube corners"). Vertex 0 is the
origin, vertices 0, 1, 2, 3 run around the face `z = 0` and vertex `v + 4` lies
above vertex `v`. -/
def vertexPosition : Nat → Nat × Nat × Nat
  | 0 => (0, 0, 0)
  | 1 => (1, 0, 0)
  | 2 => (1, 1, 0)
  | 3 => (0, 1, 0)
  | 4 => (0, 0, 1)
  | 5 => (1, 0, 1)
  | 6 => (1, 1, 1)
  | _ => (0, 1, 1)

/-- Modelled from the spec: `mcCube_edgeVertices`, absent from the sources
("`edgeVertices(edge) → (v0, v1)`"). Edges 0 to 3 run around the face `z = 0`,
edges 4 to 7 around the face `z = 1`, edges 8 to 11 join the two faces; it is
the numbering under which each hand-authored triangle set of
`computeTriangleList` names exactly the edges cut by one configuration. -/
def edgeVertices : Nat → Nat × Nat
  | 0 => (0, 1)
  | 1 => (1, 2)
  | 2 => (2, 3)
  | 3 => (3, 0)
  | 4 => (4, 5)
  | 5 => (5, 6)
  | 6 => (6, 7)
  | 7 => (7, 4)
  | 8 => (0, 4)
  | 9 => (1, 5)
  | 10 => (3, 7)
  | 11 => (2, 6)
  | _ => (0, 0)

/-- Modelled from the spec: `mcCube_vertexValue`, absent from the sources
("`vertexValue(vertex, config) → bit`", "bit i set means vertex i of the cube is
on the inside"). -/
def vertexValue (vertex cube : Nat) : Nat := (cube >>> vertex) &&& 1

/-- Modelled from the spec: the 90 degree rotation of the cube about the x
axis, as a map of vertices: the vertex at `(x, y, z)` goes to the vertex at
`(x, 1 - z, y)`. -/
def rotateVertexX : Nat → Nat
  | 0 => 3
  | 1 => 2
  | 2 => 6
  | 3 => 7
  | 4 => 0
  | 5 => 1
  | 6 => 5
  | 7 => 4
  | v => v

/-- Modelled from the spec: the 90 degree rotation of the cube about the y
axis, as a map of vertices: the vertex at `(x, y, z)` goes to the vertex at
`(z, y, 1 - x)`. -/
def rotateVertexY : Nat → Nat
  | 0 => 4
  | 1 => 0
  | 2 => 3
  | 3 => 7
  | 4 => 5
  | 5 => 1
  | 6 => 2
  | 7 => 6
  | v => v

/-- Modelled from the spec: the 90 degree rotation of the cube about the z
axis, as a map of vertices: the vertex at `(x, y, z)` goes to the vertex at
`(1 - y, x, z)`. -/
def rotateVertexZ : Nat → Nat
  | 0 => 1
  | 1 => 2
  | 2 => 3
  | 3 => 0
  | 4 => 5
  | 5 => 6
  | 6 => 7
  | 7 => 4
  | v => v

/-- The configuration after the vertices are moved by `f`: bit `f v` of the
result is bit `v` of `cube`. -/
def rotateCube (f : Nat → Nat) (cube : Nat) : Nat :=
  (List.range 8).foldl
    (fun acc v => if vertexValue v cube = 1 then acc ||| (1 <<< f v) else acc) 0

/-- Modelled from the spec: the edge remap of the rotation about the x axis
("giving the edge id that results from rotating the cube 90° about that axis"):
the edge between two vertices goes to the edge between their images under
`rotateVertexX`; values that are not edge ids are left as they are. -/
def rotateEdgeX : Int → Int
  | 0 => 2
  | 1 => 11
  | 2 => 6
  | 3 => 10
  | 4 => 0
  | 5 => 9
  | 6 => 4
  | 7 => 8
  | 8 => 3
  | 9 => 1
  | 10 => 7
  | 11 => 5
  | e => e

/-- Modelled from the spec: the edge remap of the rotation about the y axis,
induced by `rotateVertexY`. -/
def rotateEdgeY : Int → Int
  | 0 => 8
  | 1 => 3
  | 2 => 10
  | 3 => 7
  | 4 => 9
  | 5 => 1
  | 6 => 11
  | 7 => 5
  | 8 => 4
  | 9 => 0
  | 10 => 6
  | 11 => 2
  | e => e

/-- Modelled from the spec: the edge remap of the rotation about the z axis,
induced by `rotateVertexZ`. -/
def rotateEdgeZ : Int → Int
  | 0 => 1
  | 1 => 2
  | 2 => 3
  | 3 => 0
  | 4 => 5
  | 5 => 6
  | 6 => 7
  | 7 => 4
  | 8 => 9
  | 9 => 11
  | 10 => 8
  | 11 => 10
  | e => e

/-- Modelled from the spec: the reverse edge remap about the x axis, which
undoes `rotateEdgeX`. -/
def rotateEdgeReverseX : Int → Int
  | 0 => 4
  | 1 => 9
  | 2 => 0
  | 3 => 8
  | 4 => 6
  | 5 => 11
  | 6 => 2
  | 7 => 10
  | 8 => 7
  | 9 => 5
  | 10 => 3
  | 11 => 1
  | e => e

/-- Modelled from the spec: the reverse edge remap about the y axis, which
undoes `rotateEdgeY`. -/
def rotateEdgeReverseY : Int → Int
  | 0 => 9
  | 1 => 5
  | 2 => 11
  | 3 => 1
  | 4 => 8
  | 5 => 7
  | 6 => 10
  | 7 => 3
  | 8 => 0
  | 9 => 4
  | 10 => 2
  | 11 => 6
  | e => e

/-- Modelled from the spec: the reverse edge remap about the z axis, which
undoes `rotateEdgeZ`. -/
def rotateEdgeReverseZ : Int → Int
  | 0 => 3
  | 1 => 0
  | 2 => 1
  | 3 => 2
  | 4 => 7
  | 5 => 4
  | 6 => 5
  | 7 => 6
  | 8 => 10
  | 9 => 8
  | 10 => 11
  | 11 => 9
  | e => e

/-- The rotation word with `nz` rotations about z in byte 0, `nx` about x in
byte 1 and `ny` about y in byte 2. -/
def rotationWord (nz nx ny : Nat) : Nat := nz ||| (nx <<< 8) ||| (ny <<< 16)

/-- Modelled from the spec: the rotation sequences tried when a configuration
is classified (the 24 elements of the rotation group): one of the six
sequences of rotations about x and y that bring each face of the cube to the
top, after zero to three rotations about z. -/
def rotationWords : List Nat :=
  [(0, 0), (1, 0), (2, 0), (3, 0), (0, 1), (0, 3)].flatMap
    (fun xy => (List.range 4).map (fun nz => rotationWord nz xy.1 xy.2))

/-- Modelled from the spec: a rotation word applied to a configuration: the
rotations about z first, then those about x, then those about y, the sequence
whose inverse `computeTriangleList` applies. -/
def applyRotation (word cube : Nat) : Nat :=
  (rotateCube rotateVertexY)^[get_byte word 2]
    ((rotateCube rotateVertexX)^[get_byte word 1]
      ((rotateCube rotateVertexZ)^[get_byte word 0] cube))

/-- The lower of the bit patterns of a configuration and of its inverse; a
cube and its inverse cut the same edges and share a class ("class 0 = fully
inside/outside"). -/
def bitPattern (cube : Nat) : Nat := min cube (cube ^^^ 0xff)

/-- Modelled from the spec: the classification of a configuration, absent from
the sources: the 24 elements of the rotation group are applied to `config`
and, "by a fixed deterministic tie-break (lowest resulting bit pattern), the
representative orientation" is picked; "the rotation recorded is the one that
produced that representative". The result is the representative and the
rotation word. -/
def classify (cube : Nat) : Nat × Nat :=
  rotationWords.foldl
    (fun best word =>
      if bitPattern (applyRotation word cube) < best.1 then
        (bitPattern (applyRotation word cube), word)
      else best)
    (bitPattern cube, 0)

/-- Modelled from the spec: the constants `MC_CUBE_CANONICAL_ORIENTATION_k`,
absent from the sources: the representative bit pattern of class `k`, the
configuration whose cut edges the hand-authored triangles of `case k` name. -/
def canonicalOrientationLabel : Nat → Nat
  | 0 => 0x00
  | 1 => 0x01
  | 2 => 0x03
  | 3 => 0x05
  | 4 => 0x07
  | 5 => 0x0f
  | 6 => 0x14
  | 7 => 0x15
  | 8 => 0x17
  | 9 => 0x1a
  | 10 => 0x1b
  | 11 => 0x1d
  | 12 => 0x1e
  | 13 => 0x3c
  | 14 => 0x5a
  | _ => 0x100

end Spec

/-- Modelled from the spec: a cube topology engine that meets the contract of
the specification (section 4.1), standing for `mc/algorithms/common/cube.c`,
which is absent from the sources. -/
def specEngine : CubeEngine where
  mcCube_edgeVertices := Spec.edgeVertices
  mcCube_vertexValue := Spec.vertexValue
  mcCube_canonicalOrientation := fun cube => (Spec.classify cube).1
  mcCube_canonicalRotation := fun cube => (Spec.classify cube).2
  MC_CUBE_CANONICAL_ORIENTATION := Spec.canonicalOrientationLabel
  mcCube_rotateEdgeX := Spec.rotateEdgeX
  mcCube_rotateEdgeY := Spec.rotateEdgeY
  mcCube_rotateEdgeZ := Spec.rotateEdgeZ
  mcCube_rotateEdgeReverseX := Spec.rotateEdgeReverseX
  mcCube_rotateEdgeReverseY := Spec.rotateEdgeReverseY
  mcCube_rotateEdgeReverseZ := Spec.rotateEdgeReverseZ

/-! ## transvoxel.c

The `float` values of the C code are modelled by rational numbers: sums,
products and quotients are exact, and a quotient with denominator zero, which
is an infinity or a NaN in C, has the value `0` here. To keep track of the
quotients and of the field evaluations the code performs, the state of the
extraction carries two traces next to the mesh. -/

/-- The struct `mcVec3` of `mc/vector.h`. -/
structure mcVec3 where
  x : ℚ
  y : ℚ
  z : ℚ
deriving DecidableEq

/-- The struct `mcVertex` of `mc/mesh.h`; the extraction sets `pos` only (the
normal is left uncomputed). -/
structure mcVertex where
  pos : mcVec3
deriving DecidableEq

/-- The struct `mcFace` of `mc/mesh.h` after `mcFace_init(&triangle, 3)`: the
vertex indices of a face. -/
structure mcFace where
  indices : List Int
deriving DecidableEq

/-- The struct `mcMesh` of `mc/mesh.h`: a growable sequence of vertices and a
growable sequence of faces. -/
structure mcMesh where
  vertices : List mcVertex
  faces : List mcFace
deriving DecidableEq

/-- The mesh a caller creates before an extraction call: no vertex, no face. -/
def emptyMesh : mcMesh := ⟨[], []⟩

/-- Modelled from the spec: `mcMesh_addVertex` of `mc/mesh.h`, absent from the
sources ("Appending a vertex returns its index for reuse"): the vertex is
appended and its index, the number of vertices before the call, is returned. -/
def mcMesh_addVertex (mesh : mcMesh) (vertex : mcVertex) : mcMesh × Int :=
  ({ mesh with vertices := mesh.vertices ++ [vertex] }, (mesh.vertices.length : Int))

/-- Modelled from the spec: `mcMesh_addFace` of `mc/mesh.h`, absent from the
sources: the face is appended to the sequence of faces. -/
def mcMesh_addFace (mesh : mcMesh) (face : mcFace) : mcMesh :=
  { mesh with faces := mesh.faces ++ [face] }

/-- Modelled from the spec: `mcVec3_lerp` of `mc/vector.h`, absent from the
sources (linear interpolation between the two lattice endpoints of the edge): the
point `a + t (b - a)`. -/
def mcVec3_lerp (a b : mcVec3) (t : ℚ) : mcVec3 :=
  ⟨a.x + t * (b.x - a.x), a.y + t * (b.y - a.y), a.z + t * (b.z - a.z)⟩

/-- The struct `mcTransvoxel_Triangle`: the three `edgeIntersections` of a
triangle of a transition cell, or the sentinel `-1`. -/
structure mcTransvoxel_Triangle where
  edgeIntersections0 : Int
  edgeIntersections1 : Int
  edgeIntersections2 : Int
deriving DecidableEq, Repr

/-- Modelled from the spec: `MC_TRANSVOXEL_NUM_TRANSITION_CELL_SAMPLES`, absent
from the sources ("9-bit ..., one bit per sample in a 3×3 lattice"); the test
`cell == 0x1ff` of the code is the test that all nine bits are set. -/
def MC_TRANSVOXEL_NUM_TRANSITION_CELL_SAMPLES : Nat := 9

/-- Modelled from the spec: the tables and helpers of the Transvoxel engine
declared in `mc/algorithms/transvoxel/edges.h`, `transform.h` and
`triangles.h`, absent from the sources; the extraction is parametrised by
them.

* `MC_TRANSVOXEL_NUM_TRANSITION_CELL_EDGES` and
  `MC_TRANSVOXEL_MAX_TRANSITION_CELL_TRIANGLES` are the two array bounds;
* `mcTransvoxel_transitionCellSampleRelativePosition sampleIndex` gives the
  first two coordinates written to `pos`;
* `mcTransvoxel_transitionCellEdgeSamples edge` gives the two sample indices of
  an edge;
* `mcTransvoxel_transitionCellEdgeIntersectionTable cell` is the row
  `.edges` of the edge table;
* `mcTransvoxel_transitionCellTriangulationTable cell` is the row
  `.triangles` of the triangulation table. -/
structure TransitionTables where
  MC_TRANSVOXEL_NUM_TRANSITION_CELL_EDGES : Nat
  MC_TRANSVOXEL_MAX_TRANSITION_CELL_TRIANGLES : Nat
  mcTransvoxel_transitionCellSampleRelativePosition : Nat → Int × Int
  mcTransvoxel_transitionCellEdgeSamples : Nat → Nat × Nat
  mcTransvoxel_transitionCellEdgeIntersectionTable : Nat → List Int
  mcTransvoxel_transitionCellTriangulationTable : Nat → List mcTransvoxel_Triangle

/-- The type `mcScalarFieldWithArgs`, with the `args` of the caller fixed. -/
abbrev ScalarField := ℚ → ℚ → ℚ → ℚ

/-- The state of an extraction: the mesh, and two traces kept for the proofs:
the points at which the scalar field was evaluated, and the operands
`(values[0], values[1])` of every quotient
`values[0] / (values[0] - values[1])` that was evaluated, in order. -/
structure Extraction where
  mesh : mcMesh
  fieldCalls : List mcVec3
  quotients : List (ℚ × ℚ)
deriving DecidableEq

/-- The value of `x_res - 1` in `unsigned int` arithmetic, the bound of the
loops over the cells. -/
def cellCount (res : Nat) : Nat := (res + 2 ^ 32 - 1) % 2 ^ 32

/-- The spacing `fabs(max - min) / (float)(res - 1)` of the lattice along one
axis. -/
def latticeDelta (lo hi : ℚ) (res : Nat) : ℚ := abs (hi - lo) / (cellCount res : ℚ)

/-- The point at which sample `sampleIndex` of cell `(x, y)` is evaluated when
the cell is classified (the arguments of `sf` at lines 63 to 66). -/
def classificationPoint (T : TransitionTables) (min : mcVec3) (delta_x delta_y : ℚ)
    (x y : Nat) (sampleIndex : Nat) : mcVec3 :=
  let pos := T.mcTransvoxel_transitionCellSampleRelativePosition sampleIndex
  ⟨min.x + (((x : Int) + pos.1 : Int) : ℚ) * delta_x * (1 / 2),
   min.x + (((y : Int) + pos.2 : Int) : ℚ) * delta_y * (1 / 2),
   min.z⟩

/-- The loop that determines the configuration of cell `(x, y)`:
`cell |= (sample >= 0.0f ? 0 : 1) << sampleIndex` for every sample. The result
is the configuration and the points at which the field was evaluated. -/
def cellConfiguration (T : TransitionTables) (sf : ScalarField) (min : mcVec3)
    (delta_x delta_y : ℚ) (x y : Nat) : Nat × List mcVec3 :=
  (List.range MC_TRANSVOXEL_NUM_TRANSITION_CELL_SAMPLES).foldl
    (fun acc sampleIndex =>
      let p := classificationPoint T min delta_x delta_y x y sampleIndex
      let sample := sf p.x p.y p.z
      (acc.1 ||| ((if sample ≥ 0 then 0 else 1) <<< sampleIndex), acc.2 ++ [p]))
    (0, [])

/-- The lattice position `latticePos[i]` of a sample of an edge of cell
`(x, y)`, in mesh space (lines 98 to 113). -/
def latticePosition (T : TransitionTables) (delta_x delta_y : ℚ) (x y : Nat)
    (edge : Nat) (sampleIndex : Nat) : mcVec3 :=
  let rel := T.mcTransvoxel_transitionCellSampleRelativePosition sampleIndex
  ⟨(((x : Int) + rel.1 : Int) : ℚ) * delta_x * (1 / 2),
   (((y : Int) + rel.2 : Int) : ℚ) * delta_y * (1 / 2),
   if edge > 3 then 0 else 1⟩

/-- The point at which the field is evaluated for `values[i]` (the arguments of
`sf` at lines 115 to 119). -/
def valuePoint (min latticePos : mcVec3) : mcVec3 :=
  ⟨min.x + latticePos.x, min.y + latticePos.y, min.z⟩

/-- The interpolation weight `fabs(values[0] / (values[0] - values[1]))`. -/
def interpolationWeight (values0 values1 : ℚ) : ℚ :=
  abs (values0 / (values0 - values1))

/-- The vertex of an intersected edge (lines 122 to 126): the lattice positions
of the two samples interpolated with the weight of the two values. -/
def edgeVertex (latticePos0 latticePos1 : mcVec3) (values0 values1 : ℚ) : mcVertex :=
  ⟨mcVec3_lerp latticePos0 latticePos1 (interpolationWeight values0 values1)⟩

/-- The state of the loop over the edges of a cell: the extraction state, the
array `vertexIndices` and the index `edgeIntersectionsIndex`. -/
structure EdgeLoopState where
  ext : Extraction
  vertexIndices : List Int
  edgeIntersectionsIndex : Nat
deriving DecidableEq

/-- One iteration of the loop over the edges of cell `(x, y)` (lines 85 to
145). `edgeIntersections` is the row of the edge table; a read past its end
gives the sentinel. -/
def edgeLoopStep (T : TransitionTables) (sf : ScalarField) (min : mcVec3)
    (delta_x delta_y : ℚ) (x y : Nat) (edgeIntersections : List Int)
    (st : EdgeLoopState) (edge : Nat) : EdgeLoopState :=
  let vertexIndices := st.vertexIndices.set edge (-1)
  let edgeIntersection := edgeIntersections.getD st.edgeIntersectionsIndex (-1)
  if (edge : Int) = edgeIntersection then
    if vertexIndices.getD edge (-1) = -1 then
      let sampleIndices := T.mcTransvoxel_transitionCellEdgeSamples edge
      let latticePos0 := latticePosition T delta_x delta_y x y edge sampleIndices.1
      let latticePos1 := latticePosition T delta_x delta_y x y edge sampleIndices.2
      let p0 := valuePoint min latticePos0
      let p1 := valuePoint min latticePos1
      let values0 := sf p0.x p0.y p0.z
      let values1 := sf p1.x p1.y p1.z
      let vertex := edgeVertex latticePos0 latticePos1 values0 values1
      let added := mcMesh_addVertex st.ext.mesh vertex
      { ext :=
          { mesh := added.1,
            fieldCalls := st.ext.fieldCalls ++ [p0, p1],
            quotients := st.ext.quotients ++ [(values0, values1)] },
        vertexIndices := vertexIndices.set edge added.2,
        edgeIntersectionsIndex := st.edgeIntersectionsIndex + 1 }
    else
      { ext := st.ext, vertexIndices := vertexIndices,
        edgeIntersectionsIndex := st.edgeIntersectionsIndex + 1 }
  else
    { ext := st.ext, vertexIndices := vertexIndices,
      edgeIntersectionsIndex := st.edgeIntersectionsIndex }

/-- The loop over the edges of cell `(x, y)` (lines 78 to 148). -/
def edgeLoop (T : TransitionTables) (sf : ScalarField) (min : mcVec3)
    (delta_x delta_y : ℚ) (x y : Nat) (cell : Nat) (ext : Extraction) : EdgeLoopState :=
  (List.range T.MC_TRANSVOXEL_NUM_TRANSITION_CELL_EDGES).foldl
    (edgeLoopStep T sf min delta_x delta_y x y
      (T.mcTransvoxel_transitionCellEdgeIntersectionTable cell))
    { ext := ext,
      vertexIndices := List.replicate T.MC_TRANSVOXEL_NUM_TRANSITION_CELL_EDGES (-1),
      edgeIntersectionsIndex := 0 }

/-- The read `vertexIndices[t->edgeIntersections[j]]`. An index outside the
array is undefined behaviour in C; the model answers the sentinel, so that the
assertion that follows the read fails. -/
def vertexIndexOf (vertexIndices : List Int) (edgeIntersection : Int) : Int :=
  if 0 ≤ edgeIntersection then vertexIndices.getD edgeIntersection.toNat (-1) else -1

/-- The loop over the triangles of a cell (lines 156 to 197), on the slots of
the row of the triangulation table: it stops at the first slot whose
`edgeIntersections[0]` is `-1`; `none` is a failed assertion
`triangle.indices[j] != -1`. -/
def triangleLoop (vertexIndices : List Int) :
    List mcTransvoxel_Triangle → mcMesh → Option mcMesh
  | [], mesh => some mesh
  | t :: ts, mesh =>
    if t.edgeIntersections0 = -1 then some mesh
    else
      let indices0 := vertexIndexOf vertexIndices t.edgeIntersections0
      let indices1 := vertexIndexOf vertexIndices t.edgeIntersections1
      let indices2 := vertexIndexOf vertexIndices t.edgeIntersections2
      if indices0 = -1 ∨ indices1 = -1 ∨ indices2 = -1 then none
      else triangleLoop vertexIndices ts
        (mcMesh_addFace mesh ⟨[indices0, indices1, indices2]⟩)

/-- The body of the loops over the cells (lines 54 to 197) for cell `(x, y)`;
`none` is a failed assertion. -/
def processCell (T : TransitionTables) (sf : ScalarField) (min : mcVec3)
    (delta_x delta_y : ℚ) (x y : Nat) (ext : Extraction) : Option Extraction :=
  let classified := cellConfiguration T sf min delta_x delta_y x y
  let cell := classified.1
  let ext : Extraction := { ext with fieldCalls := ext.fieldCalls ++ classified.2 }
  if cell = 0 ∨ cell = 0x1ff then some ext
  else
    let st := edgeLoop T sf min delta_x delta_y x y cell ext
    match triangleLoop st.vertexIndices
        ((T.mcTransvoxel_transitionCellTriangulationTable cell).take
          T.MC_TRANSVOXEL_MAX_TRANSITION_CELL_TRIANGLES) st.ext.mesh with
    | some mesh => some { st.ext with mesh := mesh }
    | none => none

/-- The cells in the order the two loops visit them: `y` outside, `x`
inside. -/
def cellOrder (x_res y_res : Nat) : List (Nat × Nat) :=
  (List.range (cellCount y_res)).flatMap
    (fun y => (List.range (cellCount x_res)).map (fun x => (x, y)))

/-- The function `mcTransvoxel_transitionMeshFromField` with the traces: the
extraction state after all cells, or `none` when an assertion fails. -/
def transitionExtraction (T : TransitionTables) (sf : ScalarField)
    (x_res y_res : Nat) (min max : mcVec3) (mesh : mcMesh) : Option Extraction :=
  let delta_x := latticeDelta min.x max.x x_res
  let delta_y := latticeDelta min.y max.y y_res
  (cellOrder x_res y_res).foldl
    (fun acc cell => acc.bind (processCell T sf min delta_x delta_y cell.1 cell.2))
    (some { mesh := mesh, fieldCalls := [], quotients := [] })

/-- The function `mcTransvoxel_transitionMeshFromField`: the mesh after the
call, or `none` when an assertion fails. -/
def mcTransvoxel_transitionMeshFromField (T : TransitionTables) (sf : ScalarField)
    (x_res y_res : Nat) (min max : mcVec3) (mesh : mcMesh) : Option mcMesh :=
  (transitionExtraction T sf x_res y_res min max mesh).map (fun ext => ext.mesh)

/-- The struct `mcTransvoxel_Params` of `transvoxel.h`; `transitionFace` is an
`unsigned int`. -/
structure mcTransvoxel_Params where
  transitionFace : Nat
  transitionScale : ℚ
deriving DecidableEq

/-- The global `mcTransvoxel_defaultParams`: `.transitionFace = -1` stored in
an `unsigned int`, and `.transitionScale = 0.67`. -/
def mcTransvoxel_defaultParams : mcTransvoxel_Params :=
  { transitionFace := 2 ^ 32 - 1, transitionScale := 67 / 100 }

/-- The function `mcTransvoxel_isosurfaceFromField`: `params` is `none` for a
`NULL` pointer; the three nested loops over the cells have an empty body, and
the only other statement writes a diagnostic. The result is the mesh after the
call. -/
def mcTransvoxel_isosurfaceFromField (_sf : ScalarField) (x_res y_res z_res : Nat)
    (min max : mcVec3) (params : Option mcTransvoxel_Params) (mesh : mcMesh) : mcMesh :=
  let _params := params.getD mcTransvoxel_defaultParams
  let _delta_x := latticeDelta min.x max.x x_res
  let _delta_y := latticeDelta min.y max.y y_res
  let _delta_z := latticeDelta min.z max.z z_res
  (List.range (cellCount z_res)).foldl
    (fun mesh _z => (List.range (cellCount y_res)).foldl
      (fun mesh _y => (List.range (cellCount x_res)).foldl
        (fun mesh _x => mesh) mesh) mesh) mesh

/-! ## Transition tables modelled from the specification -/

namespace Spec

/-- Modelled from the spec: `mcTransvoxel_transitionCellSampleRelativePosition`,
absent from the sources ("the 3×3 sub-lattice"): sample `i` lies in column
`i % 3` and row `i / 3` of the lattice of nine samples. -/
def sampleRelativePosition (sampleIndex : Nat) : Int × Int :=
  (((sampleIndex % 3 : Nat) : Int), ((sampleIndex / 3 : Nat) : Int))

/-- Modelled from the spec: `mcTransvoxel_transitionCellEdgeSamples`, absent
from the sources ("find its two defining samples"): the twelve edges between
neighbouring samples of the 3×3 lattice; edges 0 to 5 join neighbours in a row,
edges 6 to 11 neighbours in a column. -/
def transitionEdgeSamples (edge : Nat) : Nat × Nat :=
  if edge < 6 then (3 * (edge / 2) + edge % 2, 3 * (edge / 2) + edge % 2 + 1)
  else (edge - 6, edge - 6 + 3)

/-- The edges of a transition cell whose two samples have different bits in
`cell`, in ascending order. -/
def transitionCutEdges (cell : Nat) : List Nat :=
  (List.range 12).filter (fun e =>
    (cell >>> (transitionEdgeSamples e).1) &&& 1
      != (cell >>> (transitionEdgeSamples e).2) &&& 1)

/-- Modelled from the spec: a row of `mcTransvoxel_transitionCellEdgeIntersectionTable`,
absent from the sources ("same shape" as the edge table: ascending edge ids,
unused entries sentinel; "an edge appears iff its two endpoint vertices
disagree in sign"). -/
def transitionEdgeRow (cell : Nat) : List Int :=
  (transitionCutEdges cell).map (fun e : Nat => (e : Int))
    ++ List.replicate (12 - (transitionCutEdges cell).length) (-1)

/-- Modelled from the spec: a row of `mcTransvoxel_transitionCellTriangulationTable`,
absent from the sources ("every edge id referenced by a triangle for
configuration c must appear in `EdgeTable[c]`"): a fan of triangles over the
cut edges of the row, followed by sentinels, ten slots in all. -/
def transitionTriangleRow (cell : Nat) : List mcTransvoxel_Triangle :=
  match (transitionCutEdges cell).map (fun e : Nat => (e : Int)) with
  | [] => List.replicate 10 ⟨-1, -1, -1⟩
  | a :: rest =>
    List.zipWith (fun b c => (⟨a, b, c⟩ : mcTransvoxel_Triangle)) rest rest.tail
      ++ List.replicate (10 - (List.zipWith (fun b c =>
          (⟨a, b, c⟩ : mcTransvoxel_Triangle)) rest rest.tail).length) ⟨-1, -1, -1⟩

end Spec

/-- Modelled from the spec: a set of transition tables that meets what the
specification says of them (sections 3 and 4.4), standing for the tables of
`mc/algorithms/transvoxel`, which are absent from the sources. -/
def specTransition : TransitionTables where
  MC_TRANSVOXEL_NUM_TRANSITION_CELL_EDGES := 12
  MC_TRANSVOXEL_MAX_TRANSITION_CELL_TRIANGLES := 10
  mcTransvoxel_transitionCellSampleRelativePosition := Spec.sampleRelativePosition
  mcTransvoxel_transitionCellEdgeSamples := Spec.transitionEdgeSamples
  mcTransvoxel_transitionCellEdgeIntersectionTable := Spec.transitionEdgeRow
  mcTransvoxel_transitionCellTriangulationTable := Spec.transitionTriangleRow

/-! ## Notions used in the statements -/

/-- The test of `computeEdgeList` on an edge: the vertex values of its two
endpoints disagree. -/
def edgeIntersected (E : CubeEngine) (cube edge : Nat) : Prop :=
  E.mcCube_vertexValue (E.mcCube_edgeVertices edge).1 cube
    ≠ E.mcCube_vertexValue (E.mcCube_edgeVertices edge).2 cube

instance (E : CubeEngine) (cube edge : Nat) : Decidable (edgeIntersected E cube edge) := by
  unfold edgeIntersected; infer_instance

/-- An `int` that is an edge id of the cube: a value in `[0, 11]`. -/
def IsEdgeId (e : Int) : Prop := 0 ≤ e ∧ e < 12

instance (e : Int) : Decidable (IsEdgeId e) := by
  unfold IsEdgeId; infer_instance

/-- Modelled from the spec: what the specification says of the reverse edge
remaps ("each giving the edge id that results from rotating the cube"): each
sends edge ids to edge ids. -/
def CubeEngine.ReverseRemapsEdgeIds (E : CubeEngine) : Prop :=
  ∀ e : Fin 12,
    IsEdgeId (E.mcCube_rotateEdgeReverseX (e : Nat)) ∧
    IsEdgeId (E.mcCube_rotateEdgeReverseY (e : Nat)) ∧
    IsEdgeId (E.mcCube_rotateEdgeReverseZ (e : Nat))

instance (E : CubeEngine) : Decidable E.ReverseRemapsEdgeIds := by
  unfold CubeEngine.ReverseRemapsEdgeIds; infer_instance

/-- Modelled from the spec: what the specification says of the edge remaps
("used both forward, to build the canonical mapping, and in reverse, to undo
it"): each forward remap sends edge ids to edge ids and the reverse remap of
the same axis undoes it. -/
def CubeEngine.ReverseUndoesForward (E : CubeEngine) : Prop :=
  ∀ e : Fin 12,
    (IsEdgeId (E.mcCube_rotateEdgeX (e : Nat)) ∧
      E.mcCube_rotateEdgeReverseX (E.mcCube_rotateEdgeX (e : Nat)) = (e : Nat)) ∧
    (IsEdgeId (E.mcCube_rotateEdgeY (e : Nat)) ∧
      E.mcCube_rotateEdgeReverseY (E.mcCube_rotateEdgeY (e : Nat)) = (e : Nat)) ∧
    (IsEdgeId (E.mcCube_rotateEdgeZ (e : Nat)) ∧
      E.mcCube_rotateEdgeReverseZ (E.mcCube_rotateEdgeZ (e : Nat)) = (e : Nat))

instance (E : CubeEngine) : Decidable E.ReverseUndoesForward := by
  unfold CubeEngine.ReverseUndoesForward; infer_instance

/-- Modelled from the spec: the rotation sequence that brings a cube to its
canonical orientation, applied to an edge id; its code is absent from the
sources ("inverting this sequence maps canonical-orientation triangles back to
the real configuration"): byte 0 many rotations about z, then byte 1 many about
x, then byte 2 many about y, the sequence of which the loops of
`computeTriangleList` (reverse y, then reverse x, then reverse z) are the
inverse. -/
def rotateEdgeForward (E : CubeEngine) (rotation : Nat) (edge : Int) : Int :=
  E.mcCube_rotateEdgeY^[get_byte rotation 2]
    (E.mcCube_rotateEdgeX^[get_byte rotation 1]
      (E.mcCube_rotateEdgeZ^[get_byte rotation 0] edge))

/-- The hand-authored triangles of `case MC_CUBE_CANONICAL_ORIENTATION_k`: the
slots the `make_triangle` calls of the case write, starting from an array
filled with the sentinel. -/
def canonicalTriangles (k : Nat) : List mcSimpleTriangle :=
  (canonicalCase ⟨List.replicate MC_SIMPLE_MAX_TRIANGLES sentinelTriangle, 0⟩ k).triangles.take
    (canonicalCase ⟨List.replicate MC_SIMPLE_MAX_TRIANGLES sentinelTriangle, 0⟩ k).numTriangles

/-- The scalar field `f(x, y, z) = z`. -/
def heightField : ScalarField := fun _ _ z => z

/-- A scalar field that is `-1` below the plane `y = 1/4` and `1` from it
on. -/
def stepField : ScalarField := fun _ y _ => if y < 1 / 4 then -1 else 1


/-- The consistency check of `main` (lines 360 to 380) for one configuration:
every edge of every triangle before the first sentinel slot is looked for among
the twelve slots of the row of the edge table; the result is `true` when no
`assert(found)` fails. The C code compares the two `int` values as
`unsigned int`, which agrees with the comparison of the integers. -/
def tablesAgree (E : CubeEngine) (cube : Nat) : Bool :=
  (scanTriangles (computeTriangleList E cube)).all
    (fun t => t.edgeIds.all (fun edge => (edgeTableRow E cube).any (fun slot => slot == edge)))

/-- The `switch` of `computeTriangleList` finds a `case` for the canonical
orientation of the configuration. -/
def hasCase (E : CubeEngine) (cube : Nat) : Bool :=
  (switchCase E (E.mcCube_canonicalOrientation cube)).isSome

/-- The two values `values[0]` and `values[1]` sampled for an edge of cell
`(x, y)`: the field at the value points of the two samples of the edge. -/
def edgeValues (T : TransitionTables) (sf : ScalarField) (min : mcVec3)
    (delta_x delta_y : ℚ) (x y : Nat) (edge : Nat) : ℚ × ℚ :=
  let sampleIndices := T.mcTransvoxel_transitionCellEdgeSamples edge
  let p0 := valuePoint min (latticePosition T delta_x delta_y x y edge sampleIndices.1)
  let p1 := valuePoint min (latticePosition T delta_x delta_y x y edge sampleIndices.2)
  (sf p0.x p0.y p0.z, sf p1.x p1.y p1.z)

/-- The state in which the loop over the edges of a cell starts, for the tables
modelled from the specification and an empty mesh. -/
def initialEdgeLoopState : EdgeLoopState :=
  { ext := { mesh := emptyMesh, fieldCalls := [], quotients := [] },
    vertexIndices := List.replicate 12 (-1),
    edgeIntersectionsIndex := 0 }

/-! ## Notions used in the statements on transition cells -/

/-- The point the claim on the classification names for sample `sampleIndex` of
cell `(x, y)`, in the words of the specification: the cell origin
`min + (x * delta_x, y * delta_y)` plus half a lattice spacing per step of the
relative position. -/
def claimedClassificationPoint (T : TransitionTables) (min : mcVec3) (delta_x delta_y : ℚ)
    (x y : Nat) (sampleIndex : Nat) : mcVec3 :=
  let pos := T.mcTransvoxel_transitionCellSampleRelativePosition sampleIndex
  ⟨min.x + (x : ℚ) * delta_x + (pos.1 : ℚ) * delta_x / 2,
   min.y + (y : ℚ) * delta_y + (pos.2 : ℚ) * delta_y / 2,
   min.z⟩

/-- The interpolation weight in the words of the specification:
`|v0| / (|v0| - |v1|)`. -/
def claimedWeight (v0 v1 : ℚ) : ℚ := abs v0 / (abs v0 - abs v1)

/-- The test `params->transitionFace & (1 << face)` of
`mcTransvoxel_isosurfaceFromField` (line 216, where `face` is
`MC_CUBE_FACE_BOTTOM`), after `params` was replaced by the defaults when it is
`NULL`: `true` when the value is not zero. -/
def transitionFaceSelected (params : Option mcTransvoxel_Params) (face : Nat) : Bool :=
  ((params.getD mcTransvoxel_defaultParams).transitionFace &&& (1 <<< face)) != 0

/-- The edges a row of the transition edge table lists: its entries before the
first sentinel. -/
def listedEdges (row : List Int) : List Nat :=
  (row.takeWhile (fun e => decide (e ≠ -1))).map Int.toNat

/-- A row of the transition edge table that is a strictly ascending list of
edge ids (below `numEdges`) followed only by sentinels. -/
def RowAscending (numEdges : Nat) (row : List Int) : Prop :=
  (listedEdges row).Pairwise (· < ·) ∧ (∀ e ∈ listedEdges row, e < numEdges) ∧
    row = (listedEdges row).map (fun e : Nat => (e : Int)) ++
      List.replicate (row.length - (listedEdges row).length) (-1)

instance (numEdges : Nat) (row : List Int) : Decidable (RowAscending numEdges row) := by
  unfold RowAscending; infer_instance

/-- The triangles of a row of the triangulation table the loop over the
triangles visits: those of the first `maxTriangles` slots that precede the
first slot whose `edgeIntersections[0]` is `-1`. -/
def scanTransitionTriangles (maxTriangles : Nat) (row : List mcTransvoxel_Triangle) :
    List mcTransvoxel_Triangle :=
  (row.take maxTriangles).takeWhile (fun t => decide (t.edgeIntersections0 ≠ -1))

/-- Every edge id the triangles reference is listed in the row of the edge
table. -/
def TrianglesListed (edgeRow : List Int) (triangles : List mcTransvoxel_Triangle) : Prop :=
  ∀ t ∈ triangles,
    t.edgeIntersections0 ∈ (listedEdges edgeRow).map (fun e : Nat => (e : Int)) ∧
    t.edgeIntersections1 ∈ (listedEdges edgeRow).map (fun e : Nat => (e : Int)) ∧
    t.edgeIntersections2 ∈ (listedEdges edgeRow).map (fun e : Nat => (e : Int))

instance (edgeRow : List Int) (triangles : List mcTransvoxel_Triangle) :
    Decidable (TrianglesListed edgeRow triangles) := by
  unfold TrianglesListed; infer_instance

/-- Modelled from the spec: what the specification says of the transition
tables, which are absent from the sources ("same shape" as the cube tables:
"ascending edge id, ... unused entries sentinel", and "every edge id referenced
by a triangle for configuration c must appear in `EdgeTable[c]`"), for each of
the 512 configurations. -/
def TransitionTables.Consistent (T : TransitionTables) : Prop :=
  ∀ cell : Fin 512,
    RowAscending T.MC_TRANSVOXEL_NUM_TRANSITION_CELL_EDGES
        (T.mcTransvoxel_transitionCellEdgeIntersectionTable cell) ∧
      TrianglesListed (T.mcTransvoxel_transitionCellEdgeIntersectionTable cell)
        (scanTransitionTriangles T.MC_TRANSVOXEL_MAX_TRANSITION_CELL_TRIANGLES
          (T.mcTransvoxel_transitionCellTriangulationTable cell))

instance (T : TransitionTables) : Decidable T.Consistent := by
  unfold TransitionTables.Consistent; infer_instance

/-- The vertex the extraction appends for an intersected edge of cell
`(x, y)`: the lattice positions of the two samples of the edge interpolated
with the weight of the two sampled values (lines 91 to 126). -/
def cellEdgeVertex (T : TransitionTables) (sf : ScalarField) (min : mcVec3)
    (delta_x delta_y : ℚ) (x y : Nat) (edge : Nat) : mcVertex :=
  edgeVertex
    (latticePosition T delta_x delta_y x y edge
      (T.mcTransvoxel_transitionCellEdgeSamples edge).1)
    (latticePosition T delta_x delta_y x y edge
      (T.mcTransvoxel_transitionCellEdgeSamples edge).2)
    (edgeValues T sf min delta_x delta_y x y edge).1
    (edgeValues T sf min delta_x delta_y x y edge).2

/-- The index of the mesh vertex of a listed edge of a cell: the number of
vertices the mesh had before the cell plus the position of the edge in the
list. -/
def listedVertexIndex (base : Nat) (listed : List Nat) (edgeIntersection : Int) : Int :=
  ((base + listed.indexOf edgeIntersection.toNat : Nat) : Int)

/-- The face the loop over the triangles builds for a triangle (lines 166 to
168). -/
def triangleFace (vertexIndices : List Int) (t : mcTransvoxel_Triangle) : mcFace :=
  ⟨[vertexIndexOf vertexIndices t.edgeIntersections0,
    vertexIndexOf vertexIndices t.edgeIntersections1,
    vertexIndexOf vertexIndices t.edgeIntersections2]⟩

/-! ## Notions used in the statements on inversion and on degenerate triangles -/

/-- Two endpoint values classified on opposite sides of the isosurface by the
test `sample >= 0.0f` of the classification (lines 67 and 68): one is `< 0` and
the other is `>= 0`. -/
def OppositeSides (v0 v1 : ℚ) : Prop := (v0 < 0 ∧ 0 ≤ v1) ∨ (v1 < 0 ∧ 0 ≤ v0)

instance (v0 v1 : ℚ) : Decidable (OppositeSides v0 v1) := by
  unfold OppositeSides; infer_instance

/-- The point of the segment from `a` to `b` at the parameter `t`:
`(1 - t) a + t b`, which runs over the segment as `t` runs over `[0, 1]`. -/
def segmentPoint (a b : mcVec3) (t : ℚ) : mcVec3 :=
  ⟨(1 - t) * a.x + t * b.x, (1 - t) * a.y + t * b.y, (1 - t) * a.z + t * b.z⟩

/-- Modelled from the spec: what the specification says of
`mcCube_vertexValue` and `mcCube_edgeVertices`, whose code is absent from the
sources ("`vertexValue(vertex, config) → bit`", "bit i set means vertex i of the
cube is on the inside", "8 vertices"): the vertex value is the bit of the vertex
in the configuration, and the endpoints of the twelve edges are vertices of the
cube. -/
def CubeEngine.VertexValueIsBit (E : CubeEngine) : Prop :=
  (∀ vertex cube : Nat, E.mcCube_vertexValue vertex cube = (cube >>> vertex) &&& 1) ∧
    ∀ e : Fin 12, (E.mcCube_edgeVertices e).1 < 8 ∧ (E.mcCube_edgeVertices e).2 < 8

/-- The proviso of the claim on degenerate triangles: each reverse edge remap is
a permutation of the edge ids `0` to `11`, that is, it sends edge ids to edge
ids and different edge ids to different edge ids. -/
def CubeEngine.ReversePermutesEdgeIds (E : CubeEngine) : Prop :=
  E.ReverseRemapsEdgeIds ∧
    ∀ a : Fin 12, ∀ b : Fin 12,
      (E.mcCube_rotateEdgeReverseX (a : Nat) = E.mcCube_rotateEdgeReverseX (b : Nat) → a = b) ∧
      (E.mcCube_rotateEdgeReverseY (a : Nat) = E.mcCube_rotateEdgeReverseY (b : Nat) → a = b) ∧
      (E.mcCube_rotateEdgeReverseZ (a : Nat) = E.mcCube_rotateEdgeReverseZ (b : Nat) → a = b)

instance (E : CubeEngine) : Decidable E.ReversePermutesEdgeIds := by
  unfold CubeEngine.ReversePermutesEdgeIds; infer_instance

/-- A triangle that is not degenerate: its three entries are edge ids and are
pairwise distinct. -/
def mcSimpleTriangle.Nondegenerate (t : mcSimpleTriangle) : Prop :=
  IsEdgeId t.e0 ∧ IsEdgeId t.e1 ∧ IsEdgeId t.e2 ∧ t.e0 ≠ t.e1 ∧ t.e0 ≠ t.e2 ∧ t.e1 ≠ t.e2

instance (t : mcSimpleTriangle) : Decidable t.Nondegenerate := by
  unfold mcSimpleTriangle.Nondegenerate; infer_instance

/-! ## Field values that are not finite

The extraction above takes the scalar field to return finite values. A C
callback may also return an infinity or a NaN. The two expressions of the code
on which such a value acts, the comparison `sample >= 0.0f` of the
classification and the quotient of the interpolation weight, are embedded here
a second time over values that include them. Finite values are rational numbers
and their arithmetic is exact: rounding, overflow and the sign of a zero are
not modelled. -/

/-- A value of the C type `float`: a finite number, an infinity or a NaN. -/
inductive CFloat where
  | finite (value : ℚ)
  | posInf
  | negInf
  | nan
deriving DecidableEq

/-- The comparison `a >= b` of two `float` values; it is false when either is
a NaN. -/
def CFloat.ge : CFloat → CFloat → Bool
  | .nan, _ => false
  | _, .nan => false
  | _, .negInf => true
  | .posInf, _ => true
  | .negInf, _ => false
  | .finite _, .posInf => false
  | .finite a, .finite b => decide (b ≤ a)

/-- The comparison `a < b` of two `float` values; it is false when either is a
NaN. -/
def CFloat.lt : CFloat → CFloat → Bool
  | .nan, _ => false
  | _, .nan => false
  | .posInf, _ => false
  | _, .negInf => false
  | .negInf, _ => true
  | .finite _, .posInf => true
  | .finite a, .finite b => decide (a < b)

/-- The difference `a - b` of two `float` values: a NaN when either is a NaN or
when both are the same infinity. -/
def CFloat.sub : CFloat → CFloat → CFloat
  | .nan, _ => .nan
  | _, .nan => .nan
  | .posInf, .posInf => .nan
  | .negInf, .negInf => .nan
  | .posInf, _ => .posInf
  | .negInf, _ => .negInf
  | .finite _, .posInf => .negInf
  | .finite _, .negInf => .posInf
  | .finite a, .finite b => .finite (a - b)

/-- The quotient `a / b` of two `float` values: a NaN when either is a NaN, for
`0 / 0` and for an infinity divided by an infinity; an infinity for a nonzero
value divided by zero and for an infinity divided by a finite value; zero for a
finite value divided by an infinity. A zero divisor is taken to be `+0`. -/
def CFloat.div : CFloat → CFloat → CFloat
  | .nan, _ => .nan
  | _, .nan => .nan
  | .finite a, .finite b =>
    if b = 0 then
      if a = 0 then .nan else if 0 < a then .posInf else .negInf
    else .finite (a / b)
  | .finite _, .posInf => .finite 0
  | .finite _, .negInf => .finite 0
  | .posInf, .finite b => if 0 ≤ b then .posInf else .negInf
  | .negInf, .finite b => if 0 ≤ b then .negInf else .posInf
  | .posInf, .posInf => .nan
  | .posInf, .negInf => .nan
  | .negInf, .posInf => .nan
  | .negInf, .negInf => .nan

/-- The function `fabs` on a `float` value. -/
def CFloat.fabs : CFloat → CFloat
  | .finite a => .finite (abs a)
  | .posInf => .posInf
  | .negInf => .posInf
  | .nan => .nan

/-- The type `mcScalarFieldWithArgs`, with the `args` of the caller fixed, for
a callback whose result may be an infinity or a NaN. -/
abbrev FloatScalarField := ℚ → ℚ → ℚ → CFloat

/-- The loop that determines the configuration of cell `(x, y)` (lines 55 to
69), for a field whose values may be infinities or NaNs:
`cell |= (sample >= 0.0f ? 0 : 1) << sampleIndex` for every sample. The result
is the configuration and the points at which the field was evaluated. -/
def cellConfigurationFloat (T : TransitionTables) (sf : FloatScalarField) (min : mcVec3)
    (delta_x delta_y : ℚ) (x y : Nat) : Nat × List mcVec3 :=
  (List.range MC_TRANSVOXEL_NUM_TRANSITION_CELL_SAMPLES).foldl
    (fun acc sampleIndex =>
      let p := classificationPoint T min delta_x delta_y x y sampleIndex
      let sample := sf p.x p.y p.z
      (acc.1 ||| ((if CFloat.ge sample (.finite 0) then 0 else 1) <<< sampleIndex),
        acc.2 ++ [p]))
    (0, [])

/-- The interpolation weight `fabs(values[0] / (values[0] - values[1]))` (line
122) on `float` values. -/
def interpolationWeightFloat (values0 values1 : CFloat) : CFloat :=
  CFloat.fabs (CFloat.div values0 (CFloat.sub values0 values1))

/-- The vertex of an intersected edge (lines 122 to 126) on `float` values: the
two lattice positions interpolated with the weight. With a weight that is an
infinity or a NaN every coordinate `a + t (b - a)` of the interpolation is an
infinity or a NaN, so the vertex is no point of space: the result is `none`. -/
def edgeVertexFloat (latticePos0 latticePos1 : mcVec3) (values0 values1 : CFloat) :
    Option mcVertex :=
  match interpolationWeightFloat values0 values1 with
  | .finite weight => some ⟨mcVec3_lerp latticePos0 latticePos1 weight⟩
  | _ => none

/-- Two `float` endpoint values classified on opposite sides of the isosurface
by the comparisons of C: one is `< 0` and the other is `>= 0`. -/
def OppositeSidesFloat (v0 v1 : CFloat) : Prop :=
  (CFloat.lt v0 (.finite 0) = true ∧ CFloat.ge v1 (.finite 0) = true) ∨
    (CFloat.lt v1 (.finite 0) = true ∧ CFloat.ge v0 (.finite 0) = true)

instance (v0 v1 : CFloat) : Decidable (OppositeSidesFloat v0 v1) := by
  unfold OppositeSidesFloat; infer_instance

/-- A scalar field whose value is a NaN at every point. -/
def nanField : FloatScalarField := fun _ _ _ => .nan

/-- Transition tables with the edge rows of `specTransition`, ascending lists of
edge ids followed only by sentinels, in which the first triangle of every row
names the edges 6, 7 and 0 and the other slots hold the sentinel: for a
configuration that does not cut edge 0 the triangle references an edge the edge
row does not list. -/
def unlistedTransition : TransitionTables :=
  { specTransition with
    mcTransvoxel_transitionCellTriangulationTable := fun _ =>
      ⟨6, 7, 0⟩ :: List.replicate 9 ⟨-1, -1, -1⟩ }

/-! ## The edge list -/

/-- The edges `computeEdgeList` finds intersected among the first `n` edges, in
the order the loop visits them. -/
theorem intersectedBelow_succ (E : CubeEngine) (cube n : Nat) :
    (List.range (n + 1)).filter (fun e => decide (edgeIntersected E cube e)) =
      (List.range n).filter (fun e => decide (edgeIntersected E cube e)) ++
        (if edgeIntersected E cube n then [n] else []) := by
  rw [List.range_succ, List.filter_append]
  by_cases h : edgeIntersected E cube n <;> simp [h]

/-- Writing at the first slot after a prefix: the prefix grows by the written
value and the rest of the row is unchanged. -/
theorem set_written_slot (written row : List Int) (v : Int)
    (h : written.length < row.length) :
    (written ++ row.drop written.length).set written.length v =
      (written ++ [v]) ++ row.drop (written.length + 1) := by
  have hd : row.drop written.length = row[written.length] :: row.drop (written.length + 1) :=
    List.drop_eq_getElem_cons h
  rw [List.set_append]
  simp only [lt_self_iff_false, if_false, Nat.sub_self]
  rw [hd, List.set_cons_zero, List.append_assoc]
  rfl

/-- The state of the loop of `computeEdgeList` after the first `n` edges: the
intersected edges among them fill a prefix of the row, `listIndex` is their
number, and the slots after the prefix are those of the initial row. -/
theorem computeEdgeList_foldl (E : CubeEngine) (cube : Nat) (row : List Int) (n : Nat)
    (hn : n ≤ row.length) :
    (List.range n).foldl (computeEdgeList_step E cube) ⟨row, 0⟩ =
      ⟨((List.range n).filter (fun e => decide (edgeIntersected E cube e))).map
          (fun e : Nat => (e : Int)) ++
        row.drop ((List.range n).filter (fun e => decide (edgeIntersected E cube e))).length,
       ((List.range n).filter (fun e => decide (edgeIntersected E cube e))).length⟩ := by
  induction n with
  | zero => simp
  | succ n ih =>
    have hlen : ((List.range n).filter
        (fun e => decide (edgeIntersected E cube e))).length ≤ n := by
      have := List.length_filter_le (fun e => decide (edgeIntersected E cube e)) (List.range n)
      simpa using this
    rw [List.range_succ, List.foldl_append, ih (by omega), ← List.range_succ,
      intersectedBelow_succ]
    by_cases h : edgeIntersected E cube n
    · have h' : E.mcCube_vertexValue (E.mcCube_edgeVertices n).1 cube
          ≠ E.mcCube_vertexValue (E.mcCube_edgeVertices n).2 cube := h
      have hs := set_written_slot
        (((List.range n).filter (fun e => decide (edgeIntersected E cube e))).map
          (fun e : Nat => (e : Int))) row (n : Int) (by simp; omega)
      simp only [List.length_map] at hs
      simp [computeEdgeList_step, h, h', hs]
    · have h' : ¬ E.mcCube_vertexValue (E.mcCube_edgeVertices n).1 cube
          ≠ E.mcCube_vertexValue (E.mcCube_edgeVertices n).2 cube := h
      simp only [computeEdgeList_step, List.foldl_cons, List.foldl_nil]
      rw [if_neg h']
      simp [h]

/-- The intersected edges of a configuration, in ascending order. -/
theorem intersected_sorted (E : CubeEngine) (cube n : Nat) :
    ((List.range n).filter (fun e => decide (edgeIntersected E cube e))).Sorted (· < ·) := by
  apply List.Pairwise.sublist (List.filter_sublist _)
  exact List.pairwise_lt_range n

/-- The row `edgeTable[cube]`: the intersected edges in ascending order, then
the sentinel in every other slot. -/
theorem edgeTableRow_eq (E : CubeEngine) (cube : Nat) :
    edgeTableRow E cube =
      ((List.range 12).filter (fun e => decide (edgeIntersected E cube e))).map
          (fun e : Nat => (e : Int)) ++
        List.replicate
          (12 - ((List.range 12).filter (fun e => decide (edgeIntersected E cube e))).length)
          (-1) := by
  unfold edgeTableRow computeEdgeList computeEdgeList_loop
  rw [show MC_CUBE_NUM_EDGES = 12 from rfl,
    computeEdgeList_foldl E cube sentinelEdgeList 12 (by simp [sentinelEdgeList, MC_CUBE_NUM_EDGES])]
  simp only [sentinelEdgeList, MC_CUBE_NUM_EDGES, List.drop_replicate]

/-- The value of `listIndex` when `computeEdgeList` returns: the number of
intersected edges. -/
theorem computeEdgeList_listIndex (E : CubeEngine) (cube : Nat) :
    (computeEdgeList_loop E cube sentinelEdgeList).listIndex =
      ((List.range 12).filter (fun e => decide (edgeIntersected E cube e))).length := by
  unfold computeEdgeList_loop
  rw [show MC_CUBE_NUM_EDGES = 12 from rfl,
    computeEdgeList_foldl E cube sentinelEdgeList 12 (by simp [sentinelEdgeList, MC_CUBE_NUM_EDGES])]


/-- The entries `computeEdgeList` writes are the first `listIndex` slots, on
every row of twelve slots: they are the intersected edges. -/
theorem computeEdgeList_written (E : CubeEngine) (cube : Nat) (row : List Int)
    (hrow : row.length = 12) :
    (computeEdgeList E cube row).take (computeEdgeList_loop E cube row).listIndex =
      ((List.range 12).filter (fun e => decide (edgeIntersected E cube e))).map
        (fun e : Nat => (e : Int)) := by
  unfold computeEdgeList computeEdgeList_loop
  rw [show MC_CUBE_NUM_EDGES = 12 from rfl,
    computeEdgeList_foldl E cube row 12 (by omega)]
  simp only
  rw [List.take_append_eq_append_take]
  simp

/-- Membership of an edge id in the list of intersected edges. -/
theorem mem_intersected_iff (E : CubeEngine) (cube edge : Nat) (h : edge < 12) :
    (edge : Int) ∈ ((List.range 12).filter (fun e => decide (edgeIntersected E cube e))).map
        (fun e : Nat => (e : Int)) ↔ edgeIntersected E cube edge := by
  simp only [List.mem_map, List.mem_filter, List.mem_range, decide_eq_true_eq]
  constructor
  · rintro ⟨a, ⟨_, ha⟩, hae⟩
    have : a = edge := by exact_mod_cast hae
    exact this ▸ ha
  · intro hi
    exact ⟨edge, ⟨h, hi⟩, rfl⟩

/-- C2: for every cube configuration and every edge `e` in `[0, 11]`, `e` is an
entry of the edge list written by `computeEdgeList` if and only if the two
endpoint vertices of `e` (`mcCube_edgeVertices`) have different vertex values in
the configuration (`mcCube_vertexValue`). This holds for the slots the function
writes, on any row of twelve slots, and for the whole row `edgeTable[cube]` that
`main` fills with the sentinel beforehand. -/
theorem computeEdgeList_mem_iff (E : CubeEngine) (cube edge : Nat) (row : List Int)
    (hedge : edge < 12) (hrow : row.length = 12) :
    ((edge : Int) ∈ (computeEdgeList E cube row).take
        (computeEdgeList_loop E cube row).listIndex ↔
      E.mcCube_vertexValue (E.mcCube_edgeVertices edge).1 cube
        ≠ E.mcCube_vertexValue (E.mcCube_edgeVertices edge).2 cube) ∧
    ((edge : Int) ∈ edgeTableRow E cube ↔
      E.mcCube_vertexValue (E.mcCube_edgeVertices edge).1 cube
        ≠ E.mcCube_vertexValue (E.mcCube_edgeVertices edge).2 cube) := by
  constructor
  · rw [computeEdgeList_written E cube row hrow]
    exact mem_intersected_iff E cube edge hedge
  · rw [edgeTableRow_eq, List.mem_append]
    constructor
    · rintro (h | h)
      · exact (mem_intersected_iff E cube edge hedge).1 h
      · have := (List.mem_replicate.1 h).2
        omega
    · intro h
      exact Or.inl ((mem_intersected_iff E cube edge hedge).2 h)

/-- The statement of C2 at the configuration `0x01`, the edge 0 and the
sentinel-filled row, for the cube engine modelled from the specification. -/
theorem computeEdgeList_mem_iff_witness :
    (0 : Nat) < 12 ∧ sentinelEdgeList.length = 12 ∧
    ((((0 : Nat) : Int) ∈ (computeEdgeList specEngine 1 sentinelEdgeList).take
        (computeEdgeList_loop specEngine 1 sentinelEdgeList).listIndex ↔
      specEngine.mcCube_vertexValue (specEngine.mcCube_edgeVertices 0).1 1
        ≠ specEngine.mcCube_vertexValue (specEngine.mcCube_edgeVertices 0).2 1) ∧
    (((0 : Nat) : Int) ∈ edgeTableRow specEngine 1 ↔
      specEngine.mcCube_vertexValue (specEngine.mcCube_edgeVertices 0).1 1
        ≠ specEngine.mcCube_vertexValue (specEngine.mcCube_edgeVertices 0).2 1)) :=
  ⟨by decide, by decide,
    computeEdgeList_mem_iff specEngine 1 0 sentinelEdgeList (by decide) (by decide)⟩

/-- C3: for every cube configuration, the entries written by `computeEdgeList`
are strictly ascending edge ids with no duplicates, they occupy a prefix of the
row of twelve slots (`listIndex` is their number), and on the row `main`
prepares, filled with the sentinel `-1`, every slot after that prefix still
holds the sentinel. -/
theorem computeEdgeList_ascending (E : CubeEngine) (cube : Nat) :
    ∃ written : List Nat,
      written.Sorted (· < ·) ∧ written.Nodup ∧ (∀ e ∈ written, e < 12) ∧
      written.length ≤ 12 ∧
      (computeEdgeList_loop E cube sentinelEdgeList).listIndex = written.length ∧
      edgeTableRow E cube =
        written.map (fun e : Nat => (e : Int)) ++
          List.replicate (12 - written.length) (-1) := by
  refine ⟨(List.range 12).filter (fun e => decide (edgeIntersected E cube e)),
    intersected_sorted E cube 12, ?_, ?_, ?_, computeEdgeList_listIndex E cube,
    edgeTableRow_eq E cube⟩
  · exact (intersected_sorted E cube 12).nodup
  · intro e he
    exact List.mem_range.1 (List.mem_filter.1 he).1
  · have := List.length_filter_le (fun e => decide (edgeIntersected E cube e)) (List.range 12)
    simpa using this


/-! ## The triangle list -/

/-- The array of four sentinel triangles and `numTriangles = 0`, the state
before the `switch` of `computeTriangleList`. -/
theorem canonicalCase_shape (k : Nat) (hk : k < 16) :
    (canonicalCase ⟨List.replicate MC_SIMPLE_MAX_TRIANGLES sentinelTriangle, 0⟩ k).triangles =
        canonicalTriangles k ++
          List.replicate (4 - (canonicalTriangles k).length) sentinelTriangle ∧
      (canonicalTriangles k).length ≤ 4 ∧
      ∀ t ∈ canonicalTriangles k, IsEdgeId t.e0 ∧ IsEdgeId t.e1 ∧ IsEdgeId t.e2 := by
  interval_cases k <;> decide

/-- The label the `switch` jumps to is one of the fifteen cases, and its
constant is the value switched on. -/
theorem switchCase_some (E : CubeEngine) (canonical k : Nat)
    (h : switchCase E canonical = some k) :
    k < 15 ∧ E.MC_CUBE_CANONICAL_ORIENTATION k = canonical := by
  unfold switchCase at h
  have hm := List.mem_of_find?_eq_some h
  have hp := List.find?_some h
  exact ⟨List.mem_range.1 hm, by simpa using hp⟩

/-- The case of the `switch` a configuration takes: the index of its label, or
15 when no label matches (no case is executed). -/
theorem canonicalTriangleList_eq (E : CubeEngine) (cube : Nat) :
    ∃ k, k < 16 ∧
      (switchCase E (E.mcCube_canonicalOrientation cube) = some k ∨
        (switchCase E (E.mcCube_canonicalOrientation cube) = none ∧ k = 15)) ∧
      (canonicalTriangleList E cube).triangles =
        canonicalTriangles k ++
          List.replicate (4 - (canonicalTriangles k).length) sentinelTriangle := by
  unfold canonicalTriangleList
  cases h : switchCase E (E.mcCube_canonicalOrientation cube) with
  | none => exact ⟨15, by omega, Or.inr ⟨rfl, rfl⟩, by decide⟩
  | some k =>
    have hk := (switchCase_some E _ k h).1
    exact ⟨k, by omega, Or.inl rfl, (canonicalCase_shape k (by omega)).1⟩

/-- The loop that rotates the triangles back maps every triangle before the
first sentinel slot and leaves the sentinel slots as they are. -/
theorem rotateTrianglesBack_append (E : CubeEngine) (rotation : Nat)
    (ts : List mcSimpleTriangle) (n : Nat) (h : ∀ t ∈ ts, t.e0 ≠ -1) :
    rotateTrianglesBack E rotation (ts ++ List.replicate n sentinelTriangle) =
      ts.map (rotateTriangleBack E rotation) ++ List.replicate n sentinelTriangle := by
  induction ts with
  | nil =>
    cases n with
    | zero => rfl
    | succ n => simp [rotateTrianglesBack, List.replicate_succ, sentinelTriangle]
  | cons t ts ih =>
    have ht : t.e0 ≠ -1 := h t (List.mem_cons_self _ _)
    have hts : ∀ t ∈ ts, t.e0 ≠ -1 := fun u hu => h u (List.mem_cons_of_mem _ hu)
    simp [rotateTrianglesBack, ht, ih hts]

/-- The result of `computeTriangleList`: the hand-authored triangles of the
case taken, each rotated back, then sentinel triangles. -/
theorem computeTriangleList_eq (E : CubeEngine) (cube : Nat) :
    ∃ k, k < 16 ∧
      (switchCase E (E.mcCube_canonicalOrientation cube) = some k ∨
        (switchCase E (E.mcCube_canonicalOrientation cube) = none ∧ k = 15)) ∧
      computeTriangleList E cube =
        (canonicalTriangles k).map (rotateTriangleBack E (E.mcCube_canonicalRotation cube)) ++
          List.replicate (4 - (canonicalTriangles k).length) sentinelTriangle := by
  obtain ⟨k, hk, hsw, hshape⟩ := canonicalTriangleList_eq E cube
  refine ⟨k, hk, hsw, ?_⟩
  unfold computeTriangleList
  rw [hshape]
  apply rotateTrianglesBack_append
  intro t ht
  have := ((canonicalCase_shape k hk).2.2 t ht).1.1
  omega

/-- An edge id is the cast of a number below twelve. -/
theorem IsEdgeId.exists_fin {e : Int} (h : IsEdgeId e) : ∃ i : Fin 12, ((i : Nat) : Int) = e := by
  obtain ⟨h0, h12⟩ := h
  refine ⟨⟨e.toNat, by omega⟩, ?_⟩
  simp only
  omega

/-- A map that sends edge ids to edge ids does so however often it is
applied. -/
theorem isEdgeId_iterate (f : Int → Int) (hf : ∀ e, IsEdgeId e → IsEdgeId (f e))
    (n : Nat) (e : Int) (he : IsEdgeId e) : IsEdgeId (f^[n] e) := by
  induction n generalizing e with
  | zero => simpa using he
  | succ n ih =>
    rw [Function.iterate_succ_apply]
    exact ih (f e) (hf e he)

/-- Rotating an edge id back gives an edge id when the reverse remaps send edge
ids to edge ids. -/
theorem isEdgeId_rotateEdgeBack (E : CubeEngine) (hE : E.ReverseRemapsEdgeIds)
    (rotation : Nat) (e : Int) (he : IsEdgeId e) : IsEdgeId (rotateEdgeBack E rotation e) := by
  have hx : ∀ e, IsEdgeId e → IsEdgeId (E.mcCube_rotateEdgeReverseX e) := by
    intro e he
    obtain ⟨i, rfl⟩ := he.exists_fin
    exact (hE i).1
  have hy : ∀ e, IsEdgeId e → IsEdgeId (E.mcCube_rotateEdgeReverseY e) := by
    intro e he
    obtain ⟨i, rfl⟩ := he.exists_fin
    exact (hE i).2.1
  have hz : ∀ e, IsEdgeId e → IsEdgeId (E.mcCube_rotateEdgeReverseZ e) := by
    intro e he
    obtain ⟨i, rfl⟩ := he.exists_fin
    exact (hE i).2.2
  unfold rotateEdgeBack
  exact isEdgeId_iterate _ hz _ _ (isEdgeId_iterate _ hx _ _ (isEdgeId_iterate _ hy _ _ he))

/-- The sentinel-terminated scan of a row that consists of triangles whose
first edge is not the sentinel, followed by sentinel triangles, sees exactly
those triangles. -/
theorem scanTriangles_append (ts : List mcSimpleTriangle) (n : Nat)
    (h : ∀ t ∈ ts, t.e0 ≠ -1) :
    scanTriangles (ts ++ List.replicate n sentinelTriangle) = ts := by
  unfold scanTriangles
  induction ts with
  | nil =>
    cases n with
    | zero => rfl
    | succ n => simp [List.replicate_succ, sentinelTriangle]
  | cons t ts ih =>
    have ht : t.e0 ≠ -1 := h t (List.mem_cons_self _ _)
    have hts : ∀ t ∈ ts, t.e0 ≠ -1 := fun u hu => h u (List.mem_cons_of_mem _ hu)
    rw [List.cons_append, List.takeWhile_cons_of_pos (by simpa using ht), ih hts]

/-- C4: for the cube configurations `0x00` and `0xFF`, `computeTriangleList`
yields an empty triangle list: all four triangle slots hold the sentinel `-1`
in all three edge fields; and this holds, for every cube engine, for every
configuration whose canonical orientation is class 0. The first part is stated
for the cube engine modelled from the specification, whose classifier puts
`0x00` and `0xFF` in class 0. -/
theorem computeTriangleList_class_zero :
    (computeTriangleList specEngine 0x00 = List.replicate 4 ⟨-1, -1, -1⟩ ∧
      computeTriangleList specEngine 0xFF = List.replicate 4 ⟨-1, -1, -1⟩) ∧
    ∀ (E : CubeEngine) (cube : Nat),
      E.mcCube_canonicalOrientation cube = E.MC_CUBE_CANONICAL_ORIENTATION 0 →
        computeTriangleList E cube = List.replicate 4 ⟨-1, -1, -1⟩ := by
  have general : ∀ (E : CubeEngine) (cube : Nat),
      E.mcCube_canonicalOrientation cube = E.MC_CUBE_CANONICAL_ORIENTATION 0 →
        computeTriangleList E cube = List.replicate 4 ⟨-1, -1, -1⟩ := by
    intro E cube h
    have hsw : switchCase E (E.mcCube_canonicalOrientation cube) = some 0 := by
      unfold switchCase
      rw [h]
      simp [List.range_succ_eq_map, List.find?_cons]
    obtain ⟨k, _, hk, hres⟩ := computeTriangleList_eq E cube
    rcases hk with hk | ⟨hk, _⟩
    · rw [hsw] at hk
      obtain rfl : 0 = k := by simpa using hk
      rw [hres]
      rfl
    · rw [hsw] at hk
      exact absurd hk (by simp)
  exact ⟨⟨general specEngine 0x00 (by decide!), general specEngine 0xFF (by decide!)⟩, general⟩

/-- The statement of C4 at the configuration `0xFF` of the cube engine modelled
from the specification: its canonical orientation is class 0 and its triangle
list is empty. -/
theorem computeTriangleList_class_zero_witness :
    specEngine.mcCube_canonicalOrientation 0xFF = specEngine.MC_CUBE_CANONICAL_ORIENTATION 0 ∧
      computeTriangleList specEngine 0xFF = List.replicate 4 ⟨-1, -1, -1⟩ :=
  ⟨by decide!, computeTriangleList_class_zero.2 specEngine 0xFF (by decide!)⟩

/-- C5: for every cube configuration, `computeTriangleList` produces at most 4
triangles, each naming 3 edge ids; the `k` triangles produced occupy slots
`0` to `k - 1` and every remaining slot holds the sentinel `-1`, so the
sentinel-terminated scan used by consumers sees exactly those `k` triangles.
The reverse edge remaps of the cube engine are taken to send edge ids to edge
ids. -/
theorem computeTriangleList_at_most_four (E : CubeEngine) (hE : E.ReverseRemapsEdgeIds)
    (cube : Nat) :
    ∃ produced : List mcSimpleTriangle,
      produced.length ≤ 4 ∧
      (∀ t ∈ produced, IsEdgeId t.e0 ∧ IsEdgeId t.e1 ∧ IsEdgeId t.e2) ∧
      computeTriangleList E cube =
        produced ++ List.replicate (4 - produced.length) sentinelTriangle ∧
      scanTriangles (computeTriangleList E cube) = produced := by
  obtain ⟨k, hk, _, hres⟩ := computeTriangleList_eq E cube
  obtain ⟨_, hlen, hids⟩ := canonicalCase_shape k hk
  have hprod : ∀ t ∈ (canonicalTriangles k).map
      (rotateTriangleBack E (E.mcCube_canonicalRotation cube)),
      IsEdgeId t.e0 ∧ IsEdgeId t.e1 ∧ IsEdgeId t.e2 := by
    intro t ht
    obtain ⟨u, hu, rfl⟩ := List.mem_map.1 ht
    obtain ⟨h0, h1, h2⟩ := hids u hu
    exact ⟨isEdgeId_rotateEdgeBack E hE _ _ h0, isEdgeId_rotateEdgeBack E hE _ _ h1,
      isEdgeId_rotateEdgeBack E hE _ _ h2⟩
  refine ⟨(canonicalTriangles k).map (rotateTriangleBack E (E.mcCube_canonicalRotation cube)),
    by simpa using hlen, hprod, by simpa using hres, ?_⟩
  rw [hres]
  apply scanTriangles_append
  intro t ht
  have := (hprod t ht).1.1
  omega

/-- The statement of C5 at the configuration `0x32` of the cube engine modelled
from the specification, whose reverse remaps send edge ids to edge ids. -/
theorem computeTriangleList_at_most_four_witness :
    specEngine.ReverseRemapsEdgeIds ∧
    ∃ produced : List mcSimpleTriangle,
      produced.length ≤ 4 ∧
      (∀ t ∈ produced, IsEdgeId t.e0 ∧ IsEdgeId t.e1 ∧ IsEdgeId t.e2) ∧
      computeTriangleList specEngine 0x32 =
        produced ++ List.replicate (4 - produced.length) sentinelTriangle ∧
      scanTriangles (computeTriangleList specEngine 0x32) = produced :=
  ⟨by decide!, computeTriangleList_at_most_four specEngine (by decide!) 0x32⟩


/-! ## The cube engine modelled from the specification -/

/-- The vertex maps of the modelled engine are the three 90 degree rotations of
the unit cube. -/
theorem Spec.rotateVertex_position :
    ∀ v : Fin 8,
      Spec.vertexPosition (Spec.rotateVertexX v) =
        ((Spec.vertexPosition v).1, 1 - (Spec.vertexPosition v).2.2,
          (Spec.vertexPosition v).2.1) ∧
      Spec.vertexPosition (Spec.rotateVertexY v) =
        ((Spec.vertexPosition v).2.2, (Spec.vertexPosition v).2.1,
          1 - (Spec.vertexPosition v).1) ∧
      Spec.vertexPosition (Spec.rotateVertexZ v) =
        (1 - (Spec.vertexPosition v).2.1, (Spec.vertexPosition v).1,
          (Spec.vertexPosition v).2.2) := by
  decide

/-- The edge remaps of the modelled engine are induced by its vertex maps: the
endpoints of the image of an edge are the images of its endpoints. -/
theorem Spec.rotateEdge_vertices :
    ∀ e : Fin 12,
      (Spec.edgeVertices (Spec.rotateEdgeX (e : Nat)).toNat ∈
        [(Spec.rotateVertexX (Spec.edgeVertices e).1, Spec.rotateVertexX (Spec.edgeVertices e).2),
         (Spec.rotateVertexX (Spec.edgeVertices e).2, Spec.rotateVertexX (Spec.edgeVertices e).1)]) ∧
      (Spec.edgeVertices (Spec.rotateEdgeY (e : Nat)).toNat ∈
        [(Spec.rotateVertexY (Spec.edgeVertices e).1, Spec.rotateVertexY (Spec.edgeVertices e).2),
         (Spec.rotateVertexY (Spec.edgeVertices e).2, Spec.rotateVertexY (Spec.edgeVertices e).1)]) ∧
      (Spec.edgeVertices (Spec.rotateEdgeZ (e : Nat)).toNat ∈
        [(Spec.rotateVertexZ (Spec.edgeVertices e).1, Spec.rotateVertexZ (Spec.edgeVertices e).2),
         (Spec.rotateVertexZ (Spec.edgeVertices e).2, Spec.rotateVertexZ (Spec.edgeVertices e).1)]) := by
  decide

/-- A Boolean test that holds at every number of a block of consecutive
numbers holds at each of them. -/
theorem all_range_shift (p : Nat → Bool) (a n : Nat)
    (h : (List.range n).all (fun c => p (c + a)) = true) (c : Nat) (h1 : a ≤ c)
    (h2 : c < a + n) : p c = true := by
  have := List.all_eq_true.1 h (c - a) (List.mem_range.2 (by omega))
  simpa [Nat.sub_add_cancel h1] using this

set_option maxRecDepth 1000000 in
/-- The configurations 0 to 63 have a case in the `switch` and pass the
consistency check of `main`. -/
theorem tablesAgree_block0 :
    (List.range 64).all
      (fun c => tablesAgree specEngine (c + 0) && hasCase specEngine (c + 0)) = true := by
  decide!

set_option maxRecDepth 1000000 in
/-- The configurations 64 to 127 have a case in the `switch` and pass the
consistency check of `main`. -/
theorem tablesAgree_block1 :
    (List.range 64).all
      (fun c => tablesAgree specEngine (c + 64) && hasCase specEngine (c + 64)) = true := by
  decide!

set_option maxRecDepth 1000000 in
/-- The configurations 128 to 191 have a case in the `switch` and pass the
consistency check of `main`. -/
theorem tablesAgree_block2 :
    (List.range 64).all
      (fun c => tablesAgree specEngine (c + 128) && hasCase specEngine (c + 128)) = true := by
  decide!

set_option maxRecDepth 1000000 in
/-- The configurations 192 to 255 have a case in the `switch` and pass the
consistency check of `main`. -/
theorem tablesAgree_block3 :
    (List.range 64).all
      (fun c => tablesAgree specEngine (c + 192) && hasCase specEngine (c + 192)) = true := by
  decide!

/-- Every configuration in `[0, 255]` has a case in the `switch` and passes the
consistency check of `main`, on the cube engine modelled from the
specification. -/
theorem specEngine_checks (cube : Nat) (hcube : cube < 256) :
    tablesAgree specEngine cube = true ∧ hasCase specEngine cube = true := by
  have key : (tablesAgree specEngine cube && hasCase specEngine cube) = true := by
    rcases Nat.lt_or_ge cube 64 with h | h
    · exact all_range_shift
        (fun c => tablesAgree specEngine c && hasCase specEngine c) 0 64
        tablesAgree_block0 cube (by omega) (by omega)
    rcases Nat.lt_or_ge cube 128 with hb | hb
    · exact all_range_shift
        (fun c => tablesAgree specEngine c && hasCase specEngine c) 64 64
        tablesAgree_block1 cube (by omega) (by omega)
    rcases Nat.lt_or_ge cube 192 with hc | hc
    · exact all_range_shift
        (fun c => tablesAgree specEngine c && hasCase specEngine c) 128 64
        tablesAgree_block2 cube (by omega) (by omega)
    · exact all_range_shift
        (fun c => tablesAgree specEngine c && hasCase specEngine c) 192 64
        tablesAgree_block3 cube (by omega) (by omega)
  simpa using key

/-- The classifier of the modelled engine is total ("totally defined over all
256 inputs"): the canonical orientation of every configuration in `[0, 255]` is
one of the fifteen constants `MC_CUBE_CANONICAL_ORIENTATION_k`. -/
theorem specEngine_classifies (cube : Nat) (hcube : cube < 256) :
    ∃ k, k < 15 ∧
      specEngine.MC_CUBE_CANONICAL_ORIENTATION k = specEngine.mcCube_canonicalOrientation cube := by
  have h := (specEngine_checks cube hcube).2
  unfold hasCase at h
  obtain ⟨k, hk⟩ := Option.isSome_iff_exists.1 h
  exact ⟨k, switchCase_some specEngine _ k hk⟩

/-- The hand-authored triangles of each of the fifteen cases name exactly the
edges that are intersected in the configuration the constant of the case
stands for, on the cube engine modelled from the specification. -/
theorem Spec.canonicalTriangles_edges :
    ∀ k : Fin 15, ∀ e : Fin 12,
      ((e : Nat) : Int) ∈ (canonicalTriangles k).flatMap mcSimpleTriangle.edgeIds ↔
        edgeIntersected specEngine (specEngine.MC_CUBE_CANONICAL_ORIENTATION k) e := by
  decide

/-- C1: for every cube configuration in `[0, 255]`, every edge id that appears
in a triangle of the triangle list generated by `computeTriangleList` also
appears in the edge list generated by `computeEdgeList`: the check of the main
loop of the generator passes (no `assert(found)` fails). The cube engine is the
one modelled from the specification. -/
theorem triangle_edges_in_edge_list (cube : Nat) (hcube : cube < 256) :
    tablesAgree specEngine cube = true ∧
    ∀ t ∈ scanTriangles (computeTriangleList specEngine cube),
      ∀ edge ∈ t.edgeIds, edge ∈ edgeTableRow specEngine cube := by
  have hagree : tablesAgree specEngine cube = true := (specEngine_checks cube hcube).1
  refine ⟨hagree, ?_⟩
  intro t ht edge hedge
  unfold tablesAgree at hagree
  have h1 := List.all_eq_true.1 hagree t ht
  have h2 := List.all_eq_true.1 h1 edge hedge
  obtain ⟨slot, hslot, heq⟩ := List.any_eq_true.1 h2
  have : slot = edge := by simpa using heq
  exact this ▸ hslot

set_option maxRecDepth 100000 in
/-- The statement of C1 at the configuration `0x32`, the second triangle of its
triangle list and the edge 7. -/
theorem triangle_edges_in_edge_list_witness :
    (0x32 : Nat) < 256 ∧
    (⟨8, 1, 7⟩ : mcSimpleTriangle) ∈ scanTriangles (computeTriangleList specEngine 0x32) ∧
    (7 : Int) ∈ (⟨8, 1, 7⟩ : mcSimpleTriangle).edgeIds ∧
    (7 : Int) ∈ edgeTableRow specEngine 0x32 :=
  ⟨by decide, by decide!, by decide,
    (triangle_edges_in_edge_list 0x32 (by decide)).2 ⟨8, 1, 7⟩ (by decide!) 7 (by decide)⟩

/-! ## Symmetry closure -/

/-- A remap `g` that undoes a remap `f` of the edge ids undoes it however often
both are applied. -/
theorem iterate_undo (f g : Int → Int)
    (h : ∀ e, IsEdgeId e → IsEdgeId (f e) ∧ g (f e) = e) (n : Nat) (e : Int)
    (he : IsEdgeId e) : IsEdgeId (f^[n] e) ∧ g^[n] (f^[n] e) = e := by
  induction n with
  | zero => exact ⟨by simpa using he, by simp⟩
  | succ n ih =>
    rw [Function.iterate_succ_apply' f, Function.iterate_succ_apply g]
    exact ⟨(h _ ih.1).1, by rw [(h _ ih.1).2]; exact ih.2⟩

/-- C6: for every cube configuration and every edge id `e` in `[0, 11]`,
applying the rotation sequence that brings the configuration to its canonical
orientation and then the inverse applied by `computeTriangleList` (byte 2 many
reverse-Y, then byte 1 many reverse-X, then byte 0 many reverse-Z remaps)
returns `e` to itself. The forward sequence is the one modelled from the
specification (rotations about z, then x, then y), and the reverse remaps of the
engine are taken to undo its forward remaps. -/
theorem rotateEdgeBack_rotateEdgeForward (E : CubeEngine) (hE : E.ReverseUndoesForward)
    (cube : Nat) (e : Int) (he : IsEdgeId e) :
    rotateEdgeBack E (E.mcCube_canonicalRotation cube)
      (rotateEdgeForward E (E.mcCube_canonicalRotation cube) e) = e := by
  have hx : ∀ e, IsEdgeId e →
      IsEdgeId (E.mcCube_rotateEdgeX e) ∧ E.mcCube_rotateEdgeReverseX (E.mcCube_rotateEdgeX e) = e := by
    intro e he
    obtain ⟨i, rfl⟩ := he.exists_fin
    exact (hE i).1
  have hy : ∀ e, IsEdgeId e →
      IsEdgeId (E.mcCube_rotateEdgeY e) ∧ E.mcCube_rotateEdgeReverseY (E.mcCube_rotateEdgeY e) = e := by
    intro e he
    obtain ⟨i, rfl⟩ := he.exists_fin
    exact (hE i).2.1
  have hz : ∀ e, IsEdgeId e →
      IsEdgeId (E.mcCube_rotateEdgeZ e) ∧ E.mcCube_rotateEdgeReverseZ (E.mcCube_rotateEdgeZ e) = e := by
    intro e he
    obtain ⟨i, rfl⟩ := he.exists_fin
    exact (hE i).2.2
  unfold rotateEdgeBack rotateEdgeForward
  have h0 := iterate_undo _ _ hz (get_byte (E.mcCube_canonicalRotation cube) 0) e he
  have h1 := iterate_undo _ _ hx (get_byte (E.mcCube_canonicalRotation cube) 1) _ h0.1
  have h2 := iterate_undo _ _ hy (get_byte (E.mcCube_canonicalRotation cube) 2) _ h1.1
  rw [h2.2, h1.2, h0.2]

/-- The statement of C6 at the configuration `0x32` and the edge 5 of the cube
engine modelled from the specification, whose reverse remaps undo its forward
remaps. -/
theorem rotateEdgeBack_rotateEdgeForward_witness :
    specEngine.ReverseUndoesForward ∧ IsEdgeId 5 ∧
    rotateEdgeBack specEngine (specEngine.mcCube_canonicalRotation 0x32)
      (rotateEdgeForward specEngine (specEngine.mcCube_canonicalRotation 0x32) 5) = 5 :=
  ⟨by decide!, by decide,
    rotateEdgeBack_rotateEdgeForward specEngine (by decide!) 0x32 5 (by decide)⟩


/-! ## Full-volume extraction -/

/-- A loop whose body leaves the state as it is leaves the state as it is. -/
theorem foldl_unchanged {α β : Type} (f : β → α → β) (h : ∀ b a, f b a = b) (l : List α)
    (b : β) : l.foldl f b = b := by
  induction l with
  | nil => rfl
  | cons a l ih => rw [List.foldl_cons, h, ih]

/-- The function `mcTransvoxel_isosurfaceFromField` returns the mesh it is
given: its loops over the lattice have empty bodies. -/
theorem isosurfaceFromField_unchanged (sf : ScalarField) (x_res y_res z_res : Nat)
    (min max : mcVec3) (params : Option mcTransvoxel_Params) (mesh : mcMesh) :
    mcTransvoxel_isosurfaceFromField sf x_res y_res z_res min max params mesh = mesh := by
  unfold mcTransvoxel_isosurfaceFromField
  simp only
  apply foldl_unchanged
  intro b _
  apply foldl_unchanged
  intro b _
  apply foldl_unchanged
  intro b _
  rfl

/-- C7, as the claim states it, fails: the full-volume extraction of the field
`f(x, y, z) = z` on the 2x2x2 lattice from `(-1, -1, -1)` to `(1, 1, 1)` into an
empty mesh does not produce 2 triangles over 4 vertices. -/
theorem isosurfaceFromField_heightField_no_quad :
    ¬ ((mcTransvoxel_isosurfaceFromField heightField 2 2 2 ⟨-1, -1, -1⟩ ⟨1, 1, 1⟩ none
          emptyMesh).faces.length = 2 ∧
        (mcTransvoxel_isosurfaceFromField heightField 2 2 2 ⟨-1, -1, -1⟩ ⟨1, 1, 1⟩ none
          emptyMesh).vertices.length = 4 ∧
        ∀ v ∈ (mcTransvoxel_isosurfaceFromField heightField 2 2 2 ⟨-1, -1, -1⟩ ⟨1, 1, 1⟩ none
          emptyMesh).vertices, v.pos.z = 0) := by
  rw [isosurfaceFromField_unchanged]
  simp [emptyMesh]

/-- C7, amended: the full-volume extraction `mcTransvoxel_isosurfaceFromField`
of the field `f(x, y, z) = z` on the 2x2x2 lattice from `(-1, -1, -1)` to
`(1, 1, 1)` into an empty mesh leaves the mesh empty, with no vertex and no
face; the function returns every mesh unchanged, for every field, resolution,
bounding box and parameters. -/
theorem isosurfaceFromField_heightField_empty :
    (mcTransvoxel_isosurfaceFromField heightField 2 2 2 ⟨-1, -1, -1⟩ ⟨1, 1, 1⟩ none
        emptyMesh).vertices.length = 0 ∧
      (mcTransvoxel_isosurfaceFromField heightField 2 2 2 ⟨-1, -1, -1⟩ ⟨1, 1, 1⟩ none
        emptyMesh).faces.length = 0 ∧
      ∀ (sf : ScalarField) (x_res y_res z_res : Nat) (min max : mcVec3)
        (params : Option mcTransvoxel_Params) (mesh : mcMesh),
        mcTransvoxel_isosurfaceFromField sf x_res y_res z_res min max params mesh = mesh := by
  refine ⟨?_, ?_, isosurfaceFromField_unchanged⟩
  · rw [isosurfaceFromField_unchanged]; rfl
  · rw [isosurfaceFromField_unchanged]; rfl

/-! ## Transition cells -/

/-- The configuration of a cell all of whose samples are `>= 0` is `0`. -/
theorem cellConfiguration_nonneg (T : TransitionTables) (sf : ScalarField)
    (hsf : ∀ a b c, 0 ≤ sf a b c) (min : mcVec3) (delta_x delta_y : ℚ) (x y : Nat) :
    (cellConfiguration T sf min delta_x delta_y x y).1 = 0 := by
  unfold cellConfiguration
  generalize List.range MC_TRANSVOXEL_NUM_TRANSITION_CELL_SAMPLES = l
  have key : ∀ (l : List Nat) (acc : Nat × List mcVec3), acc.1 = 0 →
      (l.foldl
        (fun acc sampleIndex =>
          let p := classificationPoint T min delta_x delta_y x y sampleIndex
          let sample := sf p.x p.y p.z
          (acc.1 ||| ((if sample ≥ 0 then 0 else 1) <<< sampleIndex), acc.2 ++ [p]))
        acc).1 = 0 := by
    intro l
    induction l with
    | nil => intro acc h; simpa using h
    | cons a l ih =>
      intro acc h
      rw [List.foldl_cons]
      apply ih
      simp [h, hsf]
  exact key l (0, []) rfl

/-- A cell whose configuration is `0` or `0x1ff` is skipped: the mesh and the
trace of quotients stay as they are. -/
theorem processCell_trivial (T : TransitionTables) (sf : ScalarField) (min : mcVec3)
    (delta_x delta_y : ℚ) (x y : Nat) (ext : Extraction)
    (h : (cellConfiguration T sf min delta_x delta_y x y).1 = 0 ∨
      (cellConfiguration T sf min delta_x delta_y x y).1 = 0x1ff) :
    ∃ ext1, processCell T sf min delta_x delta_y x y ext = some ext1 ∧
      ext1.mesh = ext.mesh ∧ ext1.quotients = ext.quotients := by
  unfold processCell
  simp only
  rw [if_pos h]
  exact ⟨_, rfl, rfl, rfl⟩

/-- A run of the loops over the cells in which every cell is skipped leaves the
mesh as it is. -/
theorem foldl_processCell_trivial (T : TransitionTables) (sf : ScalarField) (min : mcVec3)
    (delta_x delta_y : ℚ)
    (h : ∀ x y, (cellConfiguration T sf min delta_x delta_y x y).1 = 0 ∨
      (cellConfiguration T sf min delta_x delta_y x y).1 = 0x1ff)
    (cells : List (Nat × Nat)) (ext : Extraction) :
    ∃ ext1, cells.foldl
        (fun acc cell => acc.bind (processCell T sf min delta_x delta_y cell.1 cell.2))
        (some ext) = some ext1 ∧
      ext1.mesh = ext.mesh ∧ ext1.quotients = ext.quotients := by
  induction cells generalizing ext with
  | nil => exact ⟨ext, rfl, rfl, rfl⟩
  | cons c cells ih =>
    obtain ⟨e1, h1, hm1, hq1⟩ := processCell_trivial T sf min delta_x delta_y c.1 c.2 ext
      (h c.1 c.2)
    obtain ⟨e2, h2, hm2, hq2⟩ := ih e1
    refine ⟨e2, ?_, hm2.trans hm1, hq2.trans hq1⟩
    rw [List.foldl_cons, Option.some_bind, h1]
    exact h2

/-- C8: for a scalar field that is a positive constant, for every lattice
resolution (each axis at least 2) and every bounding box, both extraction entry
points (`mcTransvoxel_isosurfaceFromField` and
`mcTransvoxel_transitionMeshFromField`) applied to an empty mesh leave it with
zero vertices and zero faces; no assertion fails. -/
theorem constant_positive_field_empty (T : TransitionTables) (c : ℚ) (hc : 0 < c)
    (x_res y_res z_res : Nat) (_hx : 2 ≤ x_res) (_hy : 2 ≤ y_res) (_hz : 2 ≤ z_res)
    (min max : mcVec3) (params : Option mcTransvoxel_Params) :
    mcTransvoxel_isosurfaceFromField (fun _ _ _ => c) x_res y_res z_res min max params
        emptyMesh = ⟨[], []⟩ ∧
      mcTransvoxel_transitionMeshFromField T (fun _ _ _ => c) x_res y_res min max
        emptyMesh = some ⟨[], []⟩ := by
  refine ⟨isosurfaceFromField_unchanged _ _ _ _ _ _ _ _, ?_⟩
  unfold mcTransvoxel_transitionMeshFromField transitionExtraction
  obtain ⟨ext, hext, hmesh, _⟩ := foldl_processCell_trivial T (fun _ _ _ => c) min
    (latticeDelta min.x max.x x_res) (latticeDelta min.y max.y y_res)
    (fun x y => Or.inl (cellConfiguration_nonneg T _ (fun _ _ _ => le_of_lt hc) _ _ _ x y))
    (cellOrder x_res y_res) { mesh := emptyMesh, fieldCalls := [], quotients := [] }
  simp only
  rw [hext, Option.map_some', hmesh]
  rfl

/-- The statement of C8 at the constant field `1`, the resolution 3x3x3, the box
from `(0, 0, 0)` to `(1, 1, 1)` and the transition tables modelled from the
specification. -/
theorem constant_positive_field_empty_witness :
    (0 : ℚ) < 1 ∧ 2 ≤ 3 ∧
    mcTransvoxel_isosurfaceFromField (fun _ _ _ => 1) 3 3 3 ⟨0, 0, 0⟩ ⟨1, 1, 1⟩ none
        emptyMesh = ⟨[], []⟩ ∧
      mcTransvoxel_transitionMeshFromField specTransition (fun _ _ _ => 1) 3 3
        ⟨0, 0, 0⟩ ⟨1, 1, 1⟩ emptyMesh = some ⟨[], []⟩ :=
  ⟨by norm_num, by norm_num,
    constant_positive_field_empty specTransition 1 (by norm_num) 3 3 3 (by norm_num)
      (by norm_num) (by norm_num) ⟨0, 0, 0⟩ ⟨1, 1, 1⟩ none⟩

/-! ## Interpolation -/

/-- C9: the edge-crossing vertex computed by the extraction code (weight
`|v0 / (v0 - v1)|`, position `lerp(p0, p1, w)`) is the exact midpoint of the
edge when the endpoint values are `+1` and `-1`, and lies at 25% of the edge
from the positive endpoint when the values are `+1` and `-3`, in either order
of the two endpoints. -/
theorem edgeVertex_interpolation (p0 p1 : mcVec3) :
    (interpolationWeight 1 (-1) = 1 / 2 ∧ interpolationWeight (-1) 1 = 1 / 2 ∧
      interpolationWeight 1 (-3) = 1 / 4 ∧ interpolationWeight (-3) 1 = 3 / 4) ∧
    (edgeVertex p0 p1 1 (-1)).pos =
      ⟨(p0.x + p1.x) / 2, (p0.y + p1.y) / 2, (p0.z + p1.z) / 2⟩ ∧
    (edgeVertex p0 p1 (-1) 1).pos =
      ⟨(p0.x + p1.x) / 2, (p0.y + p1.y) / 2, (p0.z + p1.z) / 2⟩ ∧
    (edgeVertex p0 p1 1 (-3)).pos =
      ⟨p0.x + (p1.x - p0.x) / 4, p0.y + (p1.y - p0.y) / 4, p0.z + (p1.z - p0.z) / 4⟩ ∧
    (edgeVertex p0 p1 (-3) 1).pos =
      ⟨p1.x + (p0.x - p1.x) / 4, p1.y + (p0.y - p1.y) / 4, p1.z + (p0.z - p1.z) / 4⟩ := by
  have w1 : interpolationWeight 1 (-1) = 1 / 2 := by
    unfold interpolationWeight; norm_num [abs_of_pos]
  have w2 : interpolationWeight (-1) 1 = 1 / 2 := by
    unfold interpolationWeight; norm_num [abs_of_pos]
  have w3 : interpolationWeight 1 (-3) = 1 / 4 := by
    unfold interpolationWeight; norm_num [abs_of_pos]
  have w4 : interpolationWeight (-3) 1 = 3 / 4 := by
    unfold interpolationWeight; norm_num [abs_of_pos]
  refine ⟨⟨w1, w2, w3, w4⟩, ?_, ?_, ?_, ?_⟩
  · simp only [edgeVertex, mcVec3_lerp, w1, mcVec3.mk.injEq]
    refine ⟨?_, ?_, ?_⟩ <;> ring
  · simp only [edgeVertex, mcVec3_lerp, w2, mcVec3.mk.injEq]
    refine ⟨?_, ?_, ?_⟩ <;> ring
  · simp only [edgeVertex, mcVec3_lerp, w3, mcVec3.mk.injEq]
    refine ⟨?_, ?_, ?_⟩ <;> ring
  · simp only [edgeVertex, mcVec3_lerp, w4, mcVec3.mk.injEq]
    refine ⟨?_, ?_, ?_⟩ <;> ring

/-! ## The quotient of the interpolation -/

/-- Reading the slot that was just written with the sentinel gives the
sentinel. -/
theorem getD_set_sentinel (l : List Int) (i : Nat) : (l.set i (-1)).getD i (-1) = -1 := by
  rw [List.getD_eq_getElem?_getD, List.getElem?_set]
  simp only [if_true]
  split <;> rfl

set_option maxRecDepth 100000 in
/-- C10, as the claim states it, fails: on the 2x2 lattice of the rectangle from
`(0, 10, 0)` to `(1, 11, 0)`, with the field that is `-1` below `y = 1/4` and
`1` from it on, the cell has three intersected edges, the two values sampled on
each of them are both `1`, and the quotient `values[0] / (values[0] - values[1])`
is evaluated for each of them, with denominator zero. -/
theorem transition_quotient_equal_values :
    (transitionExtraction specTransition stepField 2 2 ⟨0, 10, 0⟩ ⟨1, 11, 0⟩ emptyMesh).map
      (fun ext => ext.quotients) = some [(1, 1), (1, 1), (1, 1)] := by
  decide!

/-- C10, amended: `mcTransvoxel_transitionMeshFromField` evaluates the quotient
`values[0] / (values[0] - values[1])` for every intersected edge, with no test
of the two values: the iteration of the loop over the edges that finds `edge` in
the row of the edge table appends the two sampled values to the trace of
quotients whatever they are; the denominator is not zero whenever the two
values are classified on opposite sides of the isosurface (one `< 0`, the other
`>= 0`). -/
theorem edgeLoopStep_quotient (T : TransitionTables) (sf : ScalarField) (min : mcVec3)
    (delta_x delta_y : ℚ) (x y : Nat) (edgeIntersections : List Int) (st : EdgeLoopState)
    (edge : Nat)
    (h : (edge : Int) = edgeIntersections.getD st.edgeIntersectionsIndex (-1)) :
    (edgeLoopStep T sf min delta_x delta_y x y edgeIntersections st edge).ext.quotients =
        st.ext.quotients ++ [edgeValues T sf min delta_x delta_y x y edge] ∧
      (((edgeValues T sf min delta_x delta_y x y edge).1 < 0 ∧
          0 ≤ (edgeValues T sf min delta_x delta_y x y edge).2) ∨
        ((edgeValues T sf min delta_x delta_y x y edge).2 < 0 ∧
          0 ≤ (edgeValues T sf min delta_x delta_y x y edge).1) →
        (edgeValues T sf min delta_x delta_y x y edge).1
          - (edgeValues T sf min delta_x delta_y x y edge).2 ≠ 0) := by
  constructor
  · unfold edgeLoopStep
    simp only
    rw [if_pos h, if_pos (getD_set_sentinel _ _)]
    rfl
  · rintro (⟨h0, h1⟩ | ⟨h1, h0⟩) heq
    · linarith
    · linarith

set_option maxRecDepth 100000 in
/-- The statement of the amended C10 at the first intersected edge (edge 6) of
the only cell of the 2x2 lattice of the unit square, for the field that is `-1`
below `y = 1/4` and `1` from it on: the quotient is evaluated with the values
`-1` and `1`, and its denominator is not zero. -/
theorem edgeLoopStep_quotient_witness :
    ((6 : Nat) : Int) = (Spec.transitionEdgeRow 7).getD
        initialEdgeLoopState.edgeIntersectionsIndex (-1) ∧
    (edgeLoopStep specTransition stepField ⟨0, 0, 0⟩ 1 1 0 0 (Spec.transitionEdgeRow 7)
        initialEdgeLoopState 6).ext.quotients =
      initialEdgeLoopState.ext.quotients ++
        [edgeValues specTransition stepField ⟨0, 0, 0⟩ 1 1 0 0 6] ∧
    edgeValues specTransition stepField ⟨0, 0, 0⟩ 1 1 0 0 6 = (-1, 1) ∧
    (edgeValues specTransition stepField ⟨0, 0, 0⟩ 1 1 0 0 6).1
      - (edgeValues specTransition stepField ⟨0, 0, 0⟩ 1 1 0 0 6).2 ≠ 0 :=
  ⟨by decide!,
    (edgeLoopStep_quotient specTransition stepField ⟨0, 0, 0⟩ 1 1 0 0
      (Spec.transitionEdgeRow 7) initialEdgeLoopState 6 (by decide!)).1,
    by decide!,
    (edgeLoopStep_quotient specTransition stepField ⟨0, 0, 0⟩ 1 1 0 0
      (Spec.transitionEdgeRow 7) initialEdgeLoopState 6 (by decide!)).2
      (Or.inl ⟨by decide!, by decide!⟩)⟩

/-! ## The configuration of a transition cell -/

/-- A loop that sets bit `i` of a number to `b i` for `i = 0, ..., n - 1` and
records a value per step: the result is below `2 ^ n`, its bit `i` is `b i` for
`i < n`, and the record lists the values in order. -/
theorem foldl_bits {α : Type} (b : Nat → Nat) (hb : ∀ i, b i ≤ 1) (p : Nat → α) (n : Nat) :
    ((List.range n).foldl
        (fun (acc : Nat × List α) i => (acc.1 ||| (b i <<< i), acc.2 ++ [p i])) (0, [])).2 =
        (List.range n).map p ∧
      ((List.range n).foldl
        (fun (acc : Nat × List α) i => (acc.1 ||| (b i <<< i), acc.2 ++ [p i])) (0, [])).1
        < 2 ^ n ∧
      ∀ i, ((List.range n).foldl
        (fun (acc : Nat × List α) i => (acc.1 ||| (b i <<< i), acc.2 ++ [p i])) (0, [])).1.testBit i
        = (decide (i < n) && decide (b i = 1)) := by
  induction n with
  | zero => simp
  | succ n ih =>
    obtain ⟨ih1, ih2, ih3⟩ := ih
    rw [List.range_succ, List.foldl_append]
    simp only [List.foldl_cons, List.foldl_nil, List.map_append, List.map_cons, List.map_nil]
    refine ⟨by rw [ih1], ?_, ?_⟩
    · apply Nat.or_lt_two_pow
      · exact lt_trans ih2 (Nat.pow_lt_pow_right (by norm_num) (Nat.lt_succ_self n))
      · rw [Nat.shiftLeft_eq, Nat.pow_succ]
        have := hb n
        have h2 : 0 < 2 ^ n := Nat.two_pow_pos n
        nlinarith
    · intro i
      rw [Nat.testBit_or, ih3, Nat.testBit_shiftLeft]
      have hbn := hb n
      rcases Nat.lt_trichotomy i n with h | h | h
      · have h1 : ¬ i ≥ n := by omega
        have h2 : i < n + 1 := by omega
        simp [h, h1, h2]
      · subst h
        have hcases : b i = 0 ∨ b i = 1 := by omega
        rcases hcases with h0 | h1
        · simp [h0]
        · simp [h1]
      · have h1 : ¬ i < n := by omega
        have h2 : ¬ i < n + 1 := by omega
        have h3 : i ≥ n := by omega
        have hcases : b n = 0 ∨ b n = 1 := by omega
        rcases hcases with h0 | hb1
        · simp [h1, h2, h0]
        · obtain ⟨k, hk⟩ : ∃ k, i - n = k + 1 := ⟨i - n - 1, by omega⟩
          simp [h1, h2, h3, hb1, hk, Nat.testBit_succ]

/-- The configuration of a cell, in terms of the samples: the field is
evaluated at the classification points of the nine samples in order, the
configuration is below 512, and its bit `i` is set exactly when the value of
sample `i` is `< 0`. -/
theorem cellConfiguration_eq (T : TransitionTables) (sf : ScalarField) (min : mcVec3)
    (delta_x delta_y : ℚ) (x y : Nat) :
    (cellConfiguration T sf min delta_x delta_y x y).2 =
        (List.range 9).map (classificationPoint T min delta_x delta_y x y) ∧
      (cellConfiguration T sf min delta_x delta_y x y).1 < 512 ∧
      ∀ i, (cellConfiguration T sf min delta_x delta_y x y).1.testBit i =
        (decide (i < 9) && decide
          (sf (classificationPoint T min delta_x delta_y x y i).x
              (classificationPoint T min delta_x delta_y x y i).y
              (classificationPoint T min delta_x delta_y x y i).z < 0)) := by
  have h := foldl_bits
    (fun i => if sf (classificationPoint T min delta_x delta_y x y i).x
        (classificationPoint T min delta_x delta_y x y i).y
        (classificationPoint T min delta_x delta_y x y i).z ≥ 0 then 0 else 1)
    (by intro i; dsimp only; split <;> omega)
    (classificationPoint T min delta_x delta_y x y) 9
  obtain ⟨h1, h2, h3⟩ := h
  refine ⟨h1, h2, ?_⟩
  intro i
  have := h3 i
  unfold cellConfiguration
  rw [show MC_TRANSVOXEL_NUM_TRANSITION_CELL_SAMPLES = 9 from rfl]
  rw [this]
  congr 1
  by_cases hs : sf (classificationPoint T min delta_x delta_y x y i).x
        (classificationPoint T min delta_x delta_y x y i).y
        (classificationPoint T min delta_x delta_y x y i).z ≥ 0
  · simp [hs, not_lt.2 hs]
  · simp [hs, not_le.1 hs]

/-- For a field whose values are all finite, the configuration of a transition
cell is a 9-bit value in `[0, 511]` whose bit `i` is set if and only if the
field value taken for sample `i` (the field at the classification point of the
sample) is `< 0`; a value of exactly `0`, and any value `>= 0`, leaves the bit
clear. -/
theorem cellConfiguration_bits (T : TransitionTables) (sf : ScalarField) (min : mcVec3)
    (delta_x delta_y : ℚ) (x y : Nat) (i : Nat) (hi : i < 9) :
    (cellConfiguration T sf min delta_x delta_y x y).1 < 512 ∧
      ((cellConfiguration T sf min delta_x delta_y x y).1.testBit i = true ↔
        sf (classificationPoint T min delta_x delta_y x y i).x
            (classificationPoint T min delta_x delta_y x y i).y
            (classificationPoint T min delta_x delta_y x y i).z < 0) ∧
      (0 ≤ sf (classificationPoint T min delta_x delta_y x y i).x
            (classificationPoint T min delta_x delta_y x y i).y
            (classificationPoint T min delta_x delta_y x y i).z →
        (cellConfiguration T sf min delta_x delta_y x y).1.testBit i = false) := by
  obtain ⟨_, h2, h3⟩ := cellConfiguration_eq T sf min delta_x delta_y x y
  refine ⟨h2, ?_, ?_⟩
  · rw [h3 i]; simp [hi]
  · intro h0
    rw [h3 i]
    simp [not_lt.2 h0]

set_option maxRecDepth 100000 in
/-- The configuration of the only cell of the 2x2 lattice of the unit square for
the field that is `-1` below `y = 1/4` and `1` from it on, and its sample 1: the
configuration is 7, and bit 1 is set as the value of sample 1 is `-1`. -/
theorem cellConfiguration_bits_witness :
    (1 : Nat) < 9 ∧
    (cellConfiguration specTransition stepField ⟨0, 0, 0⟩ 1 1 0 0).1 = 7 ∧
    ((cellConfiguration specTransition stepField ⟨0, 0, 0⟩ 1 1 0 0).1.testBit 1 = true ↔
      stepField (classificationPoint specTransition ⟨0, 0, 0⟩ 1 1 0 0 1).x
        (classificationPoint specTransition ⟨0, 0, 0⟩ 1 1 0 0 1).y
        (classificationPoint specTransition ⟨0, 0, 0⟩ 1 1 0 0 1).z < 0) :=
  ⟨by decide, by decide!,
    (cellConfiguration_bits specTransition stepField ⟨0, 0, 0⟩ 1 1 0 0 1 (by decide)).2.1⟩

/-- The configuration of a cell for a field whose values may be infinities or
NaNs, in terms of the samples: the field is evaluated at the classification
points of the nine samples in order, the configuration is below 512, and its
bit `i` is set exactly when `sample >= 0.0f` is false for sample `i`. -/
theorem cellConfigurationFloat_eq (T : TransitionTables) (sf : FloatScalarField) (min : mcVec3)
    (delta_x delta_y : ℚ) (x y : Nat) :
    (cellConfigurationFloat T sf min delta_x delta_y x y).2 =
        (List.range 9).map (classificationPoint T min delta_x delta_y x y) ∧
      (cellConfigurationFloat T sf min delta_x delta_y x y).1 < 512 ∧
      ∀ i, (cellConfigurationFloat T sf min delta_x delta_y x y).1.testBit i =
        (decide (i < 9) && !CFloat.ge
          (sf (classificationPoint T min delta_x delta_y x y i).x
              (classificationPoint T min delta_x delta_y x y i).y
              (classificationPoint T min delta_x delta_y x y i).z) (.finite 0)) := by
  have h := foldl_bits
    (fun i => if CFloat.ge (sf (classificationPoint T min delta_x delta_y x y i).x
        (classificationPoint T min delta_x delta_y x y i).y
        (classificationPoint T min delta_x delta_y x y i).z) (.finite 0) then 0 else 1)
    (by intro i; dsimp only; split <;> omega)
    (classificationPoint T min delta_x delta_y x y) 9
  obtain ⟨h1, h2, h3⟩ := h
  refine ⟨h1, h2, ?_⟩
  intro i
  have := h3 i
  unfold cellConfigurationFloat
  rw [show MC_TRANSVOXEL_NUM_TRANSITION_CELL_SAMPLES = 9 from rfl]
  rw [this]
  congr 1
  cases CFloat.ge (sf (classificationPoint T min delta_x delta_y x y i).x
        (classificationPoint T min delta_x delta_y x y i).y
        (classificationPoint T min delta_x delta_y x y i).z) (.finite 0) <;> simp

/-- For a field whose values are all finite the configuration is the one of the
extraction over rational values. -/
theorem cellConfigurationFloat_finite (T : TransitionTables) (sf : ScalarField) (min : mcVec3)
    (delta_x delta_y : ℚ) (x y : Nat) :
    cellConfigurationFloat T (fun px py pz => .finite (sf px py pz)) min delta_x delta_y x y =
      cellConfiguration T sf min delta_x delta_y x y := by
  unfold cellConfigurationFloat cellConfiguration
  simp only [CFloat.ge, decide_eq_true_eq, ge_iff_le]

/-- A `float` value is `< 0`, `>= 0` or a NaN, and only one of the three. -/
theorem CFloat.ge_zero_eq_false_iff (v : CFloat) :
    CFloat.ge v (.finite 0) = false ↔ CFloat.lt v (.finite 0) = true ∨ v = .nan := by
  cases v with
  | finite a => simp [CFloat.ge, CFloat.lt]
  | posInf => simp [CFloat.ge, CFloat.lt]
  | negInf => simp [CFloat.ge, CFloat.lt]
  | nan => simp [CFloat.ge, CFloat.lt]

set_option maxRecDepth 100000 in
/-- C11, as the claim states it, fails: for the field that is a NaN everywhere
the configuration of the only cell of the 2x2 lattice of the unit square is
`0x1FF`: bit 0 is set, though the value taken for sample 0 is a NaN, which is
not `< 0`. -/
theorem cellConfiguration_nan_sample :
    (cellConfigurationFloat specTransition nanField ⟨0, 0, 0⟩ 1 1 0 0).1 = 0x1FF ∧
    (cellConfigurationFloat specTransition nanField ⟨0, 0, 0⟩ 1 1 0 0).1.testBit 0 = true ∧
    nanField (classificationPoint specTransition ⟨0, 0, 0⟩ 1 1 0 0 0).x
        (classificationPoint specTransition ⟨0, 0, 0⟩ 1 1 0 0 0).y
        (classificationPoint specTransition ⟨0, 0, 0⟩ 1 1 0 0 0).z = .nan ∧
    CFloat.lt
      (nanField (classificationPoint specTransition ⟨0, 0, 0⟩ 1 1 0 0 0).x
        (classificationPoint specTransition ⟨0, 0, 0⟩ 1 1 0 0 0).y
        (classificationPoint specTransition ⟨0, 0, 0⟩ 1 1 0 0 0).z) (.finite 0) = false := by
  refine ⟨by decide!, by decide!, rfl, rfl⟩

/-- C11, amended: for every transition cell, the configuration built by
`mcTransvoxel_transitionMeshFromField` is a 9-bit value in `[0, 511]` whose bit
`i` is set if and only if the comparison `sample >= 0.0f` is false for the
field value taken for sample `i` (the field at the classification point of the
sample), that is, if and only if that value is `< 0` or is a NaN; a value of
exactly `0`, and any value `>= 0`, leaves the bit clear. For a value that is not
a NaN the bit is set if and only if the value is `< 0`. -/
theorem cellConfigurationFloat_bits (T : TransitionTables) (sf : FloatScalarField)
    (min : mcVec3) (delta_x delta_y : ℚ) (x y : Nat) (i : Nat) (hi : i < 9) :
    (cellConfigurationFloat T sf min delta_x delta_y x y).1 < 512 ∧
      ((cellConfigurationFloat T sf min delta_x delta_y x y).1.testBit i = true ↔
        CFloat.ge (sf (classificationPoint T min delta_x delta_y x y i).x
            (classificationPoint T min delta_x delta_y x y i).y
            (classificationPoint T min delta_x delta_y x y i).z) (.finite 0) = false) ∧
      ((cellConfigurationFloat T sf min delta_x delta_y x y).1.testBit i = true ↔
        CFloat.lt (sf (classificationPoint T min delta_x delta_y x y i).x
            (classificationPoint T min delta_x delta_y x y i).y
            (classificationPoint T min delta_x delta_y x y i).z) (.finite 0) = true ∨
        sf (classificationPoint T min delta_x delta_y x y i).x
            (classificationPoint T min delta_x delta_y x y i).y
            (classificationPoint T min delta_x delta_y x y i).z = .nan) ∧
      (CFloat.ge (sf (classificationPoint T min delta_x delta_y x y i).x
            (classificationPoint T min delta_x delta_y x y i).y
            (classificationPoint T min delta_x delta_y x y i).z) (.finite 0) = true →
        (cellConfigurationFloat T sf min delta_x delta_y x y).1.testBit i = false) ∧
      (sf (classificationPoint T min delta_x delta_y x y i).x
            (classificationPoint T min delta_x delta_y x y i).y
            (classificationPoint T min delta_x delta_y x y i).z ≠ .nan →
        ((cellConfigurationFloat T sf min delta_x delta_y x y).1.testBit i = true ↔
          CFloat.lt (sf (classificationPoint T min delta_x delta_y x y i).x
            (classificationPoint T min delta_x delta_y x y i).y
            (classificationPoint T min delta_x delta_y x y i).z) (.finite 0) = true)) := by
  obtain ⟨_, h2, h3⟩ := cellConfigurationFloat_eq T sf min delta_x delta_y x y
  have hbit : (cellConfigurationFloat T sf min delta_x delta_y x y).1.testBit i = true ↔
      CFloat.ge (sf (classificationPoint T min delta_x delta_y x y i).x
          (classificationPoint T min delta_x delta_y x y i).y
          (classificationPoint T min delta_x delta_y x y i).z) (.finite 0) = false := by
    rw [h3 i]; simp [hi]
  refine ⟨h2, hbit, ?_, ?_, ?_⟩
  · rw [hbit, CFloat.ge_zero_eq_false_iff]
  · intro h0
    rw [h3 i]
    simp [h0]
  · intro hnan
    rw [hbit, CFloat.ge_zero_eq_false_iff]
    constructor
    · rintro (h | h)
      · exact h
      · exact absurd h hnan
    · exact Or.inl

set_option maxRecDepth 100000 in
/-- The statement of the amended C11 at the only cell of the 2x2 lattice of the
unit square, sample 1, and the field that is a NaN below `y = 1/4` and `1` from
it on: the configuration is 7, and bit 1 is set as `sample >= 0.0f` is false
for the NaN taken for sample 1. -/
theorem cellConfigurationFloat_bits_witness :
    (1 : Nat) < 9 ∧
    (cellConfigurationFloat specTransition
      (fun _ py _ => if py < 1 / 4 then .nan else .finite 1) ⟨0, 0, 0⟩ 1 1 0 0).1 = 7 ∧
    ((cellConfigurationFloat specTransition
        (fun _ py _ => if py < 1 / 4 then .nan else .finite 1) ⟨0, 0, 0⟩ 1 1 0 0).1.testBit 1
          = true ↔
      CFloat.ge ((fun _ py _ => if py < 1 / 4 then .nan else .finite 1 : FloatScalarField)
        (classificationPoint specTransition ⟨0, 0, 0⟩ 1 1 0 0 1).x
        (classificationPoint specTransition ⟨0, 0, 0⟩ 1 1 0 0 1).y
        (classificationPoint specTransition ⟨0, 0, 0⟩ 1 1 0 0 1).z) (.finite 0) = false) :=
  ⟨by decide, by decide!,
    (cellConfigurationFloat_bits specTransition
      (fun _ py _ => if py < 1 / 4 then .nan else .finite 1) ⟨0, 0, 0⟩ 1 1 0 0 1
      (by decide)).2.1⟩

/-- C12: a transition cell whose configuration is `0x000` or `0x1FF`
contributes no geometry: while processing such a cell
`mcTransvoxel_transitionMeshFromField` appends no vertex and no face and
evaluates no quotient, so the mesh after the cell equals the mesh before it;
no assertion fails. -/
theorem trivial_cell_no_geometry (T : TransitionTables) (sf : ScalarField) (min : mcVec3)
    (delta_x delta_y : ℚ) (x y : Nat) (ext : Extraction)
    (h : (cellConfiguration T sf min delta_x delta_y x y).1 = 0x000 ∨
      (cellConfiguration T sf min delta_x delta_y x y).1 = 0x1FF) :
    ∃ ext1, processCell T sf min delta_x delta_y x y ext = some ext1 ∧
      ext1.mesh = ext.mesh ∧ ext1.mesh.vertices = ext.mesh.vertices ∧
      ext1.mesh.faces = ext.mesh.faces ∧ ext1.quotients = ext.quotients := by
  obtain ⟨ext1, h1, h2, h3⟩ := processCell_trivial T sf min delta_x delta_y x y ext h
  exact ⟨ext1, h1, h2, by rw [h2], by rw [h2], h3⟩

set_option maxRecDepth 100000 in
/-- The statement of C12 at the only cell of the 2x2 lattice of the unit square
and the constant field `-1`, whose configuration is `0x1FF`. -/
theorem trivial_cell_no_geometry_witness :
    (cellConfiguration specTransition (fun _ _ _ => -1) ⟨0, 0, 0⟩ 1 1 0 0).1 = 0x1FF ∧
    ∃ ext1, processCell specTransition (fun _ _ _ => -1) ⟨0, 0, 0⟩ 1 1 0 0
        ⟨emptyMesh, [], []⟩ = some ext1 ∧
      ext1.mesh = emptyMesh ∧ ext1.mesh.vertices = [] ∧
      ext1.mesh.faces = [] ∧ ext1.quotients = [] :=
  ⟨by decide!,
    trivial_cell_no_geometry specTransition (fun _ _ _ => -1) ⟨0, 0, 0⟩ 1 1 0 0
      ⟨emptyMesh, [], []⟩ (Or.inr (by decide!))⟩


/-! ## The points at which a cell is classified -/

set_option maxRecDepth 100000 in
/-- C13: the claim puts the sample with relative position `(rx, ry)` of cell
`(x, y)` at `(min.x + x * delta_x + rx * delta_x / 2,
min.y + y * delta_y + ry * delta_y / 2, min.z)`, so that the samples of all
cells span the rectangle from `min` to `max`; the code does not. On the 3x3
lattice of the rectangle from `(0, 0, 0)` to `(2, 2, 0)` the spacing is 1 and
the claim puts sample 0 of cell `(1, 0)` at `(1, 0, 0)`, but the tenth
evaluation of the field, the one for that sample, is at `(1/2, 0, 0)`; and no
evaluation is at an `x` above `3/2`, so the samples do not reach `max.x = 2`. -/
theorem classification_point_not_claimed :
    claimedClassificationPoint specTransition ⟨0, 0, 0⟩ (latticeDelta 0 2 3) (latticeDelta 0 2 3)
        1 0 0 = ⟨1, 0, 0⟩ ∧
    (transitionExtraction specTransition heightField 3 3 ⟨0, 0, 0⟩ ⟨2, 2, 0⟩ emptyMesh).map
        (fun ext => ext.fieldCalls.get? 9) = some (some ⟨1 / 2, 0, 0⟩) ∧
    (transitionExtraction specTransition heightField 3 3 ⟨0, 0, 0⟩ ⟨2, 2, 0⟩ emptyMesh).map
        (fun ext => ext.fieldCalls.all (fun p => decide (p.x ≤ 3 / 2))) = some true := by
  refine ⟨by decide!, by decide!, by decide!⟩

/-- The bound `x_res - 1` of the loop over the cells, for a resolution of at
least 1 that fits an `unsigned int`. -/
theorem cellCount_eq (res : Nat) (h1 : 1 ≤ res) (h2 : res < 2 ^ 32) :
    cellCount res = res - 1 := by
  unfold cellCount
  have : res + 2 ^ 32 - 1 = (res - 1) + 2 ^ 32 := by omega
  rw [this, Nat.add_mod_right, Nat.mod_eq_of_lt (by omega)]

/-- The point at which the code classifies a sample: for every face cell
`(x, y)` and every transition-cell sample with relative position `(rx, ry)`,
`mcTransvoxel_transitionMeshFromField` takes the field value at a point whose `x`
coordinate is
`min.x + (x + rx) * delta_x / 2` and whose `z` coordinate is `min.z`, where
`delta_x = |max.x - min.x| / (x_res - 1)`: consecutive cells are half a
lattice spacing apart. For `0 <= x < x_res - 1` and `rx` in `{0, 1, 2}` that
`x` coordinate lies between `min.x` and `min.x + x_res * delta_x / 2`, which
is `min.x + |max.x - min.x|` only for `x_res = 2` (when `max.x ≠ min.x`). -/
theorem classification_point_eq (T : TransitionTables) (sf : ScalarField) (min max : mcVec3)
    (x_res y_res : Nat) (x y : Nat) (i : Nat)
    (hres : 2 ≤ x_res) (hres32 : x_res < 2 ^ 32) (hx : x + 2 ≤ x_res)
    (hrel : 0 ≤ (T.mcTransvoxel_transitionCellSampleRelativePosition i).1 ∧
      (T.mcTransvoxel_transitionCellSampleRelativePosition i).1 ≤ 2) :
    (cellConfiguration T sf min (latticeDelta min.x max.x x_res)
        (latticeDelta min.y max.y y_res) x y).2 =
      (List.range 9).map (classificationPoint T min (latticeDelta min.x max.x x_res)
        (latticeDelta min.y max.y y_res) x y) ∧
    latticeDelta min.x max.x x_res = abs (max.x - min.x) / ((x_res : ℚ) - 1) ∧
    (classificationPoint T min (latticeDelta min.x max.x x_res)
        (latticeDelta min.y max.y y_res) x y i).x =
      min.x + ((x : ℚ) + ((T.mcTransvoxel_transitionCellSampleRelativePosition i).1 : ℚ))
        * latticeDelta min.x max.x x_res / 2 ∧
    (classificationPoint T min (latticeDelta min.x max.x x_res)
        (latticeDelta min.y max.y y_res) x y i).z = min.z ∧
    min.x ≤ (classificationPoint T min (latticeDelta min.x max.x x_res)
        (latticeDelta min.y max.y y_res) x y i).x ∧
    (classificationPoint T min (latticeDelta min.x max.x x_res)
        (latticeDelta min.y max.y y_res) x y i).x ≤
      min.x + (x_res : ℚ) * latticeDelta min.x max.x x_res / 2 ∧
    (max.x ≠ min.x →
      ((x_res : ℚ) * latticeDelta min.x max.x x_res / 2 = abs (max.x - min.x) ↔ x_res = 2)) := by
  have hdelta : latticeDelta min.x max.x x_res = abs (max.x - min.x) / ((x_res : ℚ) - 1) := by
    unfold latticeDelta
    rw [cellCount_eq x_res (by omega) hres32, Nat.cast_sub (by omega)]
    simp
  have hnonneg : 0 ≤ latticeDelta min.x max.x x_res := by
    unfold latticeDelta
    exact div_nonneg (abs_nonneg _) (Nat.cast_nonneg _)
  have hpx : (classificationPoint T min (latticeDelta min.x max.x x_res)
      (latticeDelta min.y max.y y_res) x y i).x =
      min.x + ((x : ℚ) + ((T.mcTransvoxel_transitionCellSampleRelativePosition i).1 : ℚ))
        * latticeDelta min.x max.x x_res / 2 := by
    simp only [classificationPoint]
    push_cast
    ring
  have hrel0 : (0 : ℚ) ≤ ((T.mcTransvoxel_transitionCellSampleRelativePosition i).1 : ℚ) := by
    exact_mod_cast hrel.1
  have hrel2 : ((T.mcTransvoxel_transitionCellSampleRelativePosition i).1 : ℚ) ≤ 2 := by
    exact_mod_cast hrel.2
  have hxq : (x : ℚ) + 2 ≤ (x_res : ℚ) := by exact_mod_cast hx
  have hx0 : (0 : ℚ) ≤ (x : ℚ) := Nat.cast_nonneg x
  refine ⟨(cellConfiguration_eq T sf min _ _ x y).1, hdelta, hpx, rfl, ?_, ?_, ?_⟩
  · rw [hpx]
    have : 0 ≤ ((x : ℚ) + ((T.mcTransvoxel_transitionCellSampleRelativePosition i).1 : ℚ))
        * latticeDelta min.x max.x x_res / 2 :=
      div_nonneg (mul_nonneg (by linarith) hnonneg) (by norm_num)
    linarith
  · rw [hpx]
    have : ((x : ℚ) + ((T.mcTransvoxel_transitionCellSampleRelativePosition i).1 : ℚ))
        * latticeDelta min.x max.x x_res ≤ (x_res : ℚ) * latticeDelta min.x max.x x_res :=
      mul_le_mul_of_nonneg_right (by linarith) hnonneg
    linarith
  · intro hne
    have hpos : 0 < abs (max.x - min.x) := abs_pos.2 (sub_ne_zero.2 hne)
    have hres2 : (2 : ℚ) ≤ (x_res : ℚ) := by exact_mod_cast hres
    have hden : (0 : ℚ) < (x_res : ℚ) - 1 := by linarith
    rw [hdelta]
    constructor
    · intro h
      have h1 : (x_res : ℚ) * abs (max.x - min.x) =
          2 * abs (max.x - min.x) * ((x_res : ℚ) - 1) := by
        field_simp at h
        linarith
      have h2 : ((x_res : ℚ) - 2) * abs (max.x - min.x) = 0 := by linarith
      have h3 : (x_res : ℚ) - 2 = 0 := by
        rcases mul_eq_zero.1 h2 with h | h
        · exact h
        · exact absurd h (ne_of_gt hpos)
      have h4 : (x_res : ℚ) = 2 := by linarith
      exact_mod_cast h4
    · intro h
      subst h
      norm_num

set_option maxRecDepth 100000 in
/-- The point at which the code classifies sample 0 of cell `(1, 0)` of the 3x3
lattice of the rectangle from `(0, 0, 0)` to `(2, 2, 0)`: its `x` coordinate is
`1/2`. -/
theorem classification_point_eq_witness :
    (2 ≤ 3 ∧ 3 < 2 ^ 32 ∧ 1 + 2 ≤ 3) ∧
    (0 ≤ (specTransition.mcTransvoxel_transitionCellSampleRelativePosition 0).1 ∧
      (specTransition.mcTransvoxel_transitionCellSampleRelativePosition 0).1 ≤ 2) ∧
    (classificationPoint specTransition ⟨0, 0, 0⟩ (latticeDelta 0 2 3) (latticeDelta 0 2 3)
        1 0 0).x =
      0 + (((1 : Nat) : ℚ)
          + ((specTransition.mcTransvoxel_transitionCellSampleRelativePosition 0).1 : ℚ))
        * latticeDelta 0 2 3 / 2 ∧
    (classificationPoint specTransition ⟨0, 0, 0⟩ (latticeDelta 0 2 3) (latticeDelta 0 2 3)
        1 0 0).x = 1 / 2 :=
  ⟨by decide, by decide,
    (classification_point_eq specTransition heightField ⟨0, 0, 0⟩ ⟨2, 2, 0⟩ 3 3 1 0 0
      (by decide) (by decide) (by decide) (by decide)).2.2.1,
    by decide!⟩

/-! ## Resolutions below 2 -/

/-- The cell that is skipped leaves the mesh and the quotients as they are and
records the nine evaluations of the field. -/
theorem processCell_trivial_calls (T : TransitionTables) (sf : ScalarField) (min : mcVec3)
    (delta_x delta_y : ℚ) (x y : Nat) (ext : Extraction)
    (h : (cellConfiguration T sf min delta_x delta_y x y).1 = 0 ∨
      (cellConfiguration T sf min delta_x delta_y x y).1 = 0x1ff) :
    ∃ ext1, processCell T sf min delta_x delta_y x y ext = some ext1 ∧
      ext1.mesh = ext.mesh ∧ ext1.fieldCalls.length = ext.fieldCalls.length + 9 := by
  unfold processCell
  simp only
  rw [if_pos h]
  refine ⟨_, rfl, rfl, ?_⟩
  simp [(cellConfiguration_eq T sf min delta_x delta_y x y).1]

/-- A run of the loops over the cells in which every cell is skipped evaluates
the field nine times per cell. -/
theorem foldl_processCell_calls (T : TransitionTables) (sf : ScalarField) (min : mcVec3)
    (delta_x delta_y : ℚ)
    (h : ∀ x y, (cellConfiguration T sf min delta_x delta_y x y).1 = 0 ∨
      (cellConfiguration T sf min delta_x delta_y x y).1 = 0x1ff)
    (cells : List (Nat × Nat)) (ext : Extraction) :
    ∃ ext1, cells.foldl
        (fun acc cell => acc.bind (processCell T sf min delta_x delta_y cell.1 cell.2))
        (some ext) = some ext1 ∧
      ext1.mesh = ext.mesh ∧
      ext1.fieldCalls.length = ext.fieldCalls.length + 9 * cells.length := by
  induction cells generalizing ext with
  | nil => exact ⟨ext, rfl, rfl, by simp⟩
  | cons c cells ih =>
    obtain ⟨e1, h1, hm1, hc1⟩ := processCell_trivial_calls T sf min delta_x delta_y c.1 c.2 ext
      (h c.1 c.2)
    obtain ⟨e2, h2, hm2, hc2⟩ := ih e1
    refine ⟨e2, ?_, hm2.trans hm1, ?_⟩
    · rw [List.foldl_cons, Option.some_bind, h1]
      exact h2
    · rw [hc2, hc1, List.length_cons]
      ring

/-- With a field that is nowhere negative every cell is skipped: the run
returns the mesh it was given and evaluates the field nine times per cell. -/
theorem transitionExtraction_nonneg_calls (T : TransitionTables) (sf : ScalarField)
    (hsf : ∀ a b c, 0 ≤ sf a b c) (x_res y_res : Nat) (min max : mcVec3) (mesh : mcMesh) :
    ∃ ext, transitionExtraction T sf x_res y_res min max mesh = some ext ∧
      ext.mesh = mesh ∧ ext.fieldCalls.length = 9 * (cellOrder x_res y_res).length := by
  unfold transitionExtraction
  obtain ⟨ext, hext, hmesh, hcalls⟩ := foldl_processCell_calls T sf min
    (latticeDelta min.x max.x x_res) (latticeDelta min.y max.y y_res)
    (fun x y => Or.inl (cellConfiguration_nonneg T sf hsf _ _ _ x y))
    (cellOrder x_res y_res) { mesh := mesh, fieldCalls := [], quotients := [] }
  exact ⟨ext, hext, hmesh, by simpa using hcalls⟩

/-- The first cell of a lattice with `x_res = 0` and `y_res = 2`: the bound of
the inner loop is not zero. -/
theorem cellOrder_zero_two_pos : 0 < (cellOrder 0 2).length := by
  have hmem : (0, 0) ∈ cellOrder 0 2 := by
    unfold cellOrder
    rw [List.mem_flatMap]
    refine ⟨0, List.mem_range.2 (by decide), ?_⟩
    rw [List.mem_map]
    exact ⟨0, List.mem_range.2 (by decide), rfl⟩
  exact List.length_pos_of_mem hmem

/-- C14, as the claim states it, fails: with `x_res = 0` the bound `x_res - 1`
of the inner loop wraps around to `2 ^ 32 - 1` in `unsigned int` arithmetic,
the cells are processed and the scalar field is evaluated (here a constant
field on a lattice with `y_res = 2`). -/
theorem transition_zero_resolution_calls_field :
    ∃ ext, transitionExtraction specTransition (fun _ _ _ => 1) 0 2 ⟨0, 0, 0⟩ ⟨1, 1, 0⟩
        emptyMesh = some ext ∧ ext.fieldCalls ≠ [] := by
  obtain ⟨ext, hext, _, hcalls⟩ := transitionExtraction_nonneg_calls specTransition
    (fun _ _ _ => 1) (fun _ _ _ => by norm_num) 0 2 ⟨0, 0, 0⟩ ⟨1, 1, 0⟩ emptyMesh
  refine ⟨ext, hext, ?_⟩
  intro hnil
  have hpos := cellOrder_zero_two_pos
  rw [hnil, List.length_nil] at hcalls
  omega

/-- C14, amended: when `x_res = 1` or `y_res = 1`,
`mcTransvoxel_transitionMeshFromField` processes no cell, never calls the
scalar-field callback and leaves the mesh unchanged: the bound `res - 1` of one
of its two loops is zero. The function has no check of its resolutions. -/
theorem transition_resolution_one (T : TransitionTables) (sf : ScalarField)
    (x_res y_res : Nat) (min max : mcVec3) (mesh : mcMesh) (h : x_res = 1 ∨ y_res = 1) :
    cellOrder x_res y_res = [] ∧
      transitionExtraction T sf x_res y_res min max mesh = some ⟨mesh, [], []⟩ ∧
      mcTransvoxel_transitionMeshFromField T sf x_res y_res min max mesh = some mesh := by
  have hcells : cellOrder x_res y_res = [] := by
    unfold cellOrder
    rcases h with h | h
    · subst h
      simp [cellCount]
    · subst h
      simp [cellCount]
  refine ⟨hcells, ?_, ?_⟩
  · unfold transitionExtraction
    simp only [hcells, List.foldl_nil]
  · unfold mcTransvoxel_transitionMeshFromField transitionExtraction
    simp only [hcells, List.foldl_nil, Option.map_some']

/-- The statement of the amended C14 at the resolution 1x5 and the field
`f(x, y, z) = z`. -/
theorem transition_resolution_one_witness :
    ((1 : Nat) = 1 ∨ (5 : Nat) = 1) ∧
    transitionExtraction specTransition heightField 1 5 ⟨0, 0, 0⟩ ⟨1, 1, 0⟩ emptyMesh =
      some ⟨emptyMesh, [], []⟩ :=
  ⟨Or.inl rfl,
    (transition_resolution_one specTransition heightField 1 5 ⟨0, 0, 0⟩ ⟨1, 1, 0⟩ emptyMesh
      (Or.inl rfl)).2.1⟩


/-! ## The default parameters -/

/-- C15, the code at `params == NULL`: the defaults are `transitionFace = -1`
stored in an `unsigned int`, which is `2 ^ 32 - 1` with all bits set, and
`transitionScale = 0.67`; the test `transitionFace & (1 << F)` is then not zero
for every face id `F` in `[0, 5]`, so every face, the bottom face included, is
taken for a transition face. -/
theorem defaultParams_select_every_face :
    mcTransvoxel_defaultParams.transitionFace = 2 ^ 32 - 1 ∧
      mcTransvoxel_defaultParams.transitionScale = 67 / 100 ∧
      ∀ F : Fin 6, transitionFaceSelected none F = true := by
  refine ⟨rfl, rfl, ?_⟩
  decide

/-! ## The interpolation weight -/

/-- C16, as the claim states it, fails: for the endpoint values `1` and `-3`
the weight the code uses is `1/4`, while `|v0| / (|v0| - |v1|)` is `-1/2`. -/
theorem interpolationWeight_not_claimed :
    interpolationWeight 1 (-3) = 1 / 4 ∧ claimedWeight 1 (-3) = -(1 / 2) ∧
      interpolationWeight 1 (-3) ≠ claimedWeight 1 (-3) := by
  refine ⟨by decide!, by decide!, by decide!⟩

/-- The iteration of the loop over the edges that finds its edge in the row of
the edge table: the state after it. -/
theorem edgeLoopStep_listed (T : TransitionTables) (sf : ScalarField) (min : mcVec3)
    (delta_x delta_y : ℚ) (x y : Nat) (edgeIntersections : List Int) (st : EdgeLoopState)
    (edge : Nat)
    (h : (edge : Int) = edgeIntersections.getD st.edgeIntersectionsIndex (-1)) :
    (edgeLoopStep T sf min delta_x delta_y x y edgeIntersections st edge).ext.mesh.vertices =
        st.ext.mesh.vertices ++ [cellEdgeVertex T sf min delta_x delta_y x y edge] ∧
      (edgeLoopStep T sf min delta_x delta_y x y edgeIntersections st edge).ext.mesh.faces =
        st.ext.mesh.faces ∧
      (edgeLoopStep T sf min delta_x delta_y x y edgeIntersections st edge).vertexIndices =
        st.vertexIndices.set edge (st.ext.mesh.vertices.length : Int) ∧
      (edgeLoopStep T sf min delta_x delta_y x y edgeIntersections st edge).edgeIntersectionsIndex =
        st.edgeIntersectionsIndex + 1 := by
  unfold edgeLoopStep
  simp only
  rw [if_pos h, if_pos (getD_set_sentinel _ _)]
  refine ⟨rfl, rfl, ?_, rfl⟩
  simp only [mcMesh_addVertex, List.set_set]

/-- The iteration of the loop over the edges that does not find its edge in the
row of the edge table: the state after it. -/
theorem edgeLoopStep_unlisted (T : TransitionTables) (sf : ScalarField) (min : mcVec3)
    (delta_x delta_y : ℚ) (x y : Nat) (edgeIntersections : List Int) (st : EdgeLoopState)
    (edge : Nat)
    (h : (edge : Int) ≠ edgeIntersections.getD st.edgeIntersectionsIndex (-1)) :
    edgeLoopStep T sf min delta_x delta_y x y edgeIntersections st edge =
      { ext := st.ext, vertexIndices := st.vertexIndices.set edge (-1),
        edgeIntersectionsIndex := st.edgeIntersectionsIndex } := by
  unfold edgeLoopStep
  simp only
  rw [if_neg h]

/-- C16, amended: for every intersected edge with endpoint sample values `v0`
and `v1`, the interpolation weight used to place the crossing vertex between
the two lattice endpoints of the edge equals `|v0 / (v0 - v1)|`, which for
values on opposite sides of the isosurface (one `< 0`, the other `>= 0`) is
`|v0| / (|v0| + |v1|)`. -/
theorem interpolationWeight_eq (T : TransitionTables) (sf : ScalarField) (min : mcVec3)
    (delta_x delta_y : ℚ) (x y : Nat) (edgeIntersections : List Int) (st : EdgeLoopState)
    (edge : Nat)
    (h : (edge : Int) = edgeIntersections.getD st.edgeIntersectionsIndex (-1)) :
    (edgeLoopStep T sf min delta_x delta_y x y edgeIntersections st edge).ext.mesh.vertices =
        st.ext.mesh.vertices ++
          [⟨mcVec3_lerp
            (latticePosition T delta_x delta_y x y edge
              (T.mcTransvoxel_transitionCellEdgeSamples edge).1)
            (latticePosition T delta_x delta_y x y edge
              (T.mcTransvoxel_transitionCellEdgeSamples edge).2)
            (abs ((edgeValues T sf min delta_x delta_y x y edge).1 /
              ((edgeValues T sf min delta_x delta_y x y edge).1
                - (edgeValues T sf min delta_x delta_y x y edge).2)))⟩] ∧
      ∀ v0 v1 : ℚ, (v0 < 0 ∧ 0 ≤ v1) ∨ (v1 < 0 ∧ 0 ≤ v0) →
        abs (v0 / (v0 - v1)) = abs v0 / (abs v0 + abs v1) := by
  refine ⟨(edgeLoopStep_listed T sf min delta_x delta_y x y edgeIntersections st edge h).1, ?_⟩
  rintro v0 v1 (⟨h0, h1⟩ | ⟨h1, h0⟩)
  · rw [abs_div, abs_of_neg h0, abs_of_nonneg h1, abs_of_neg (by linarith : v0 - v1 < 0)]
    congr 1
    ring
  · rw [abs_div, abs_of_nonneg h0, abs_of_neg h1, abs_of_pos (by linarith : 0 < v0 - v1)]
    congr 1
    ring

set_option maxRecDepth 100000 in
/-- The statement of the amended C16 at the first intersected edge (edge 6) of
the only cell of the 2x2 lattice of the unit square, for the field that is `-1`
below `y = 1/4` and `1` from it on: the values are `-1` and `1`, the weight is
`1/2` and the vertex is placed at `(0, 1/4, 0)`. -/
theorem interpolationWeight_eq_witness :
    ((6 : Nat) : Int) = (Spec.transitionEdgeRow 7).getD
        initialEdgeLoopState.edgeIntersectionsIndex (-1) ∧
    (edgeLoopStep specTransition stepField ⟨0, 0, 0⟩ 1 1 0 0 (Spec.transitionEdgeRow 7)
        initialEdgeLoopState 6).ext.mesh.vertices =
      initialEdgeLoopState.ext.mesh.vertices ++
        [⟨mcVec3_lerp
          (latticePosition specTransition 1 1 0 0 6
            (specTransition.mcTransvoxel_transitionCellEdgeSamples 6).1)
          (latticePosition specTransition 1 1 0 0 6
            (specTransition.mcTransvoxel_transitionCellEdgeSamples 6).2)
          (abs ((edgeValues specTransition stepField ⟨0, 0, 0⟩ 1 1 0 0 6).1 /
            ((edgeValues specTransition stepField ⟨0, 0, 0⟩ 1 1 0 0 6).1
              - (edgeValues specTransition stepField ⟨0, 0, 0⟩ 1 1 0 0 6).2)))⟩] ∧
    (edgeLoopStep specTransition stepField ⟨0, 0, 0⟩ 1 1 0 0 (Spec.transitionEdgeRow 7)
        initialEdgeLoopState 6).ext.mesh.vertices = [⟨⟨0, 1 / 4, 0⟩⟩] ∧
    abs ((-1 : ℚ) / (-1 - 1)) = abs (-1) / (abs (-1) + abs 1) :=
  ⟨by decide!,
    (interpolationWeight_eq specTransition stepField ⟨0, 0, 0⟩ 1 1 0 0
      (Spec.transitionEdgeRow 7) initialEdgeLoopState 6 (by decide!)).1,
    by decide!,
    (interpolationWeight_eq specTransition stepField ⟨0, 0, 0⟩ 1 1 0 0
      (Spec.transitionEdgeRow 7) initialEdgeLoopState 6 (by decide!)).2 (-1) 1
      (Or.inl ⟨by norm_num, by norm_num⟩)⟩

/-! ## The rotation of the canonical triangles -/

/-- The case the `switch` takes when its labels are pairwise distinct. -/
theorem switchCase_eq (E : CubeEngine) (canonical k : Nat) (hk : k < 15)
    (hclass : canonical = E.MC_CUBE_CANONICAL_ORIENTATION k)
    (hdistinct : ∀ i, i < 15 → ∀ j, j < 15 →
      E.MC_CUBE_CANONICAL_ORIENTATION i = E.MC_CUBE_CANONICAL_ORIENTATION j → i = j) :
    switchCase E canonical = some k := by
  cases h : switchCase E canonical with
  | none =>
    unfold switchCase at h
    have := List.find?_eq_none.1 h k (List.mem_range.2 hk)
    simp [hclass] at this
  | some j =>
    obtain ⟨hj, hlabel⟩ := switchCase_some E canonical j h
    rw [hdistinct j hj k hk (hlabel.trans hclass)]

/-- C17: for every cube configuration `c` with canonical class `k` and rotation
word `r`, triangle `i` of `computeTriangleList(c)` is obtained from triangle `i`
of the hand-authored canonical set of class `k` by replacing each edge id `e`
with `revZ^n0(revX^n1(revY^n2(e)))`, where `n2`, `n1`, `n0` are bytes 2, 1, 0
of `r`: the reverse remaps are applied in the order y, then x, then z, each the
recorded number of times, and neither the number nor the order of the triangles
or of their three edge slots changes; the slots after the triangles hold the
sentinel. The constants of the fifteen classes are pairwise distinct, as the
labels of a `switch` are. -/
theorem computeTriangleList_rotated (E : CubeEngine) (cube k : Nat) (hk : k < 15)
    (hclass : E.mcCube_canonicalOrientation cube = E.MC_CUBE_CANONICAL_ORIENTATION k)
    (hdistinct : ∀ i, i < 15 → ∀ j, j < 15 →
      E.MC_CUBE_CANONICAL_ORIENTATION i = E.MC_CUBE_CANONICAL_ORIENTATION j → i = j) :
    computeTriangleList E cube =
        (canonicalTriangles k).map (fun t =>
          (⟨E.mcCube_rotateEdgeReverseZ^[get_byte (E.mcCube_canonicalRotation cube) 0]
              (E.mcCube_rotateEdgeReverseX^[get_byte (E.mcCube_canonicalRotation cube) 1]
                (E.mcCube_rotateEdgeReverseY^[get_byte (E.mcCube_canonicalRotation cube) 2]
                  t.e0)),
            E.mcCube_rotateEdgeReverseZ^[get_byte (E.mcCube_canonicalRotation cube) 0]
              (E.mcCube_rotateEdgeReverseX^[get_byte (E.mcCube_canonicalRotation cube) 1]
                (E.mcCube_rotateEdgeReverseY^[get_byte (E.mcCube_canonicalRotation cube) 2]
                  t.e1)),
            E.mcCube_rotateEdgeReverseZ^[get_byte (E.mcCube_canonicalRotation cube) 0]
              (E.mcCube_rotateEdgeReverseX^[get_byte (E.mcCube_canonicalRotation cube) 1]
                (E.mcCube_rotateEdgeReverseY^[get_byte (E.mcCube_canonicalRotation cube) 2]
                  t.e2))⟩ : mcSimpleTriangle)) ++
          List.replicate (4 - (canonicalTriangles k).length) sentinelTriangle ∧
      (scanTriangles (computeTriangleList E cube)).length ≤ (canonicalTriangles k).length ∧
      ∀ i, i < (canonicalTriangles k).length →
        ((computeTriangleList E cube).get? i).map (fun t => t.e0) =
          ((canonicalTriangles k).get? i).map (fun t =>
            E.mcCube_rotateEdgeReverseZ^[get_byte (E.mcCube_canonicalRotation cube) 0]
              (E.mcCube_rotateEdgeReverseX^[get_byte (E.mcCube_canonicalRotation cube) 1]
                (E.mcCube_rotateEdgeReverseY^[get_byte (E.mcCube_canonicalRotation cube) 2]
                  t.e0))) := by
  have hsw := switchCase_eq E (E.mcCube_canonicalOrientation cube) k hk hclass hdistinct
  obtain ⟨j, _, hj, hres⟩ := computeTriangleList_eq E cube
  have hjk : j = k := by
    rcases hj with hj | ⟨hj, _⟩
    · rw [hsw] at hj
      exact (Option.some.inj hj).symm
    · rw [hsw] at hj
      exact absurd hj (by simp)
  subst hjk
  have hmain : computeTriangleList E cube =
      (canonicalTriangles j).map (rotateTriangleBack E (E.mcCube_canonicalRotation cube)) ++
        List.replicate (4 - (canonicalTriangles j).length) sentinelTriangle := hres
  refine ⟨hmain, ?_, ?_⟩
  · rw [hmain]
    unfold scanTriangles
    calc (List.takeWhile (fun t => decide (t.e0 ≠ -1))
            ((canonicalTriangles j).map (rotateTriangleBack E (E.mcCube_canonicalRotation cube)) ++
              List.replicate (4 - (canonicalTriangles j).length) sentinelTriangle)).length
        ≤ ((canonicalTriangles j).map
            (rotateTriangleBack E (E.mcCube_canonicalRotation cube))).length := by
          generalize (canonicalTriangles j).map
            (rotateTriangleBack E (E.mcCube_canonicalRotation cube)) = ts
          generalize 4 - (canonicalTriangles j).length = n
          induction ts with
          | nil =>
            cases n with
            | zero => simp
            | succ n => simp [List.replicate_succ, sentinelTriangle]
          | cons t ts ih =>
            rw [List.cons_append, List.takeWhile_cons]
            split
            · simpa using ih
            · simp
      _ = (canonicalTriangles j).length := by simp
  · intro i hi
    rw [hmain, List.get?_eq_getElem?, List.get?_eq_getElem?,
      List.getElem?_append_left (by simpa using hi), List.getElem?_map]
    cases (canonicalTriangles j)[i]? with
    | none => rfl
    | some t => rfl

set_option maxRecDepth 100000 in
/-- The statement of C17 at the configuration `0x32` of the cube engine
modelled from the specification: its class is 4 (three triangles), its rotation
word is `0x100` (one rotation about x), and its first triangle `(2, 11, 3)`
becomes `(0, 1, 8)`. -/
theorem computeTriangleList_rotated_witness :
    (4 < 15 ∧
      specEngine.mcCube_canonicalOrientation 0x32 = specEngine.MC_CUBE_CANONICAL_ORIENTATION 4 ∧
      ∀ i, i < 15 → ∀ j, j < 15 →
        specEngine.MC_CUBE_CANONICAL_ORIENTATION i = specEngine.MC_CUBE_CANONICAL_ORIENTATION j →
          i = j) ∧
    (0 < (canonicalTriangles 4).length ∧ specEngine.mcCube_canonicalRotation 0x32 = 0x100) ∧
    ((computeTriangleList specEngine 0x32).get? 0).map (fun t => t.e0) =
      ((canonicalTriangles 4).get? 0).map (fun t =>
        specEngine.mcCube_rotateEdgeReverseZ^[get_byte (specEngine.mcCube_canonicalRotation 0x32) 0]
          (specEngine.mcCube_rotateEdgeReverseX^[get_byte
              (specEngine.mcCube_canonicalRotation 0x32) 1]
            (specEngine.mcCube_rotateEdgeReverseY^[get_byte
                (specEngine.mcCube_canonicalRotation 0x32) 2]
              t.e0))) ∧
    computeTriangleList specEngine 0x32 = [⟨0, 1, 8⟩, ⟨8, 1, 7⟩, ⟨7, 1, 5⟩, ⟨-1, -1, -1⟩] :=
  ⟨⟨by decide, by decide!, by decide⟩, ⟨by decide, by decide!⟩,
    (computeTriangleList_rotated specEngine 0x32 4 (by decide) (by decide!) (by decide)).2.2 0
      (by decide),
    by decide!⟩

/-! ## The points of classification and of interpolation -/

/-- The point at which a sample is classified and the point at which its value
is taken for the interpolation have the same `x` and `z`; they are the same
point exactly when `min.x = min.y`. -/
theorem classificationPoint_eq_valuePoint_iff (T : TransitionTables) (min : mcVec3)
    (delta_x delta_y : ℚ) (x y : Nat) (edge sampleIndex : Nat) :
    (classificationPoint T min delta_x delta_y x y sampleIndex =
        valuePoint min (latticePosition T delta_x delta_y x y edge sampleIndex)) ↔
      min.x = min.y := by
  simp only [classificationPoint, valuePoint, latticePosition, mcVec3.mk.injEq, and_true,
    true_and]
  constructor
  · intro h; linarith
  · intro h; rw [h]

set_option maxRecDepth 100000 in
/-- C20, the code at a rectangle with `min.x ≠ min.y`: on the 2x2 lattice of the
rectangle from `(0, 10, 0)` to `(1, 11, 0)`, sample 0 of the only cell is
classified at `(0, 0, 0)` (line 64 adds the offset along y to `min->x`), while
its value for the interpolation of edge 6 is taken at `(0, 10, 0)` (line 117
adds it to `min->y`); for the field that is `-1` below `y = 1/4` and `1` from
it on, the bit of the sample is set by the value `-1` and the interpolation
uses the value `1`. -/
theorem classification_and_value_points_differ :
    classificationPoint specTransition ⟨0, 10, 0⟩ (latticeDelta 0 1 2) (latticeDelta 10 11 2)
        0 0 0 = ⟨0, 0, 0⟩ ∧
    valuePoint ⟨0, 10, 0⟩ (latticePosition specTransition (latticeDelta 0 1 2)
        (latticeDelta 10 11 2) 0 0 6 0) = ⟨0, 10, 0⟩ ∧
    (specTransition.mcTransvoxel_transitionCellEdgeSamples 6).1 = 0 ∧
    (transitionExtraction specTransition stepField 2 2 ⟨0, 10, 0⟩ ⟨1, 11, 0⟩ emptyMesh).map
        (fun ext => ext.fieldCalls.take 1 ++ (ext.fieldCalls.drop 9).take 1) =
      some [⟨0, 0, 0⟩, ⟨0, 10, 0⟩] ∧
    stepField 0 0 0 = -1 ∧ stepField 0 10 0 = 1 := by
  refine ⟨by decide!, by decide!, by decide!, by decide!, by decide!, by decide!⟩


/-! ## The scan of the edge row and of the triangle row of a cell -/

/-- Reading the slot that was just written gives the written value. -/
theorem getD_set_self (l : List Int) (i : Nat) (v : Int) (h : i < l.length) :
    (l.set i v).getD i (-1) = v := by
  rw [List.getD_eq_getElem?_getD, List.getElem?_set]
  simp [h]

/-- Reading another slot than the one that was written gives the former
value. -/
theorem getD_set_other (l : List Int) (i j : Nat) (v : Int) (h : i ≠ j) :
    (l.set i v).getD j (-1) = l.getD j (-1) := by
  rw [List.getD_eq_getElem?_getD, List.getD_eq_getElem?_getD, List.getElem?_set]
  simp [h]

/-- The entry of a row right after an initial part of it. -/
theorem getD_append_length (front rest : List Int) :
    (front ++ rest).getD front.length (-1) = rest.getD 0 (-1) := by
  rw [List.getD_eq_getElem?_getD, List.getD_eq_getElem?_getD,
    List.getElem?_append_right (le_refl _)]
  simp

/-- The loop over the edges `a, ..., a + m - 1` of a cell, started where the
part `front` of the row has been consumed and the rest of the row is the
ascending list `listed` of edges of that range followed by sentinels: one
vertex is appended for each listed edge, in order, no face is appended, the
slot of each listed edge holds the index of its vertex and the slot of each
other edge of the range holds the sentinel. -/
theorem edgeLoop_segment (T : TransitionTables) (sf : ScalarField) (min : mcVec3)
    (delta_x delta_y : ℚ) (x y : Nat) (row : List Int) :
    ∀ (m a : Nat) (listed : List Nat) (front : List Int) (s : Nat) (st : EdgeLoopState),
      listed.Pairwise (· < ·) → (∀ e ∈ listed, a ≤ e ∧ e < a + m) →
      st.edgeIntersectionsIndex = front.length →
      row = front ++ (listed.map (fun e : Nat => (e : Int)) ++ List.replicate s (-1)) →
      a + m ≤ st.vertexIndices.length →
      ((List.range' a m).foldl (edgeLoopStep T sf min delta_x delta_y x y row) st).ext.mesh.vertices
          = st.ext.mesh.vertices ++ listed.map (cellEdgeVertex T sf min delta_x delta_y x y) ∧
      ((List.range' a m).foldl (edgeLoopStep T sf min delta_x delta_y x y row) st).ext.mesh.faces
          = st.ext.mesh.faces ∧
      ((List.range' a m).foldl
          (edgeLoopStep T sf min delta_x delta_y x y row) st).vertexIndices.length
          = st.vertexIndices.length ∧
      (∀ e, a ≤ e → e < a + m →
        ((List.range' a m).foldl
            (edgeLoopStep T sf min delta_x delta_y x y row) st).vertexIndices.getD e (-1) =
          if e ∈ listed then ((st.ext.mesh.vertices.length + listed.indexOf e : Nat) : Int)
          else -1) ∧
      (∀ e, e < a →
        ((List.range' a m).foldl
            (edgeLoopStep T sf min delta_x delta_y x y row) st).vertexIndices.getD e (-1) =
          st.vertexIndices.getD e (-1)) := by
  intro m
  induction m with
  | zero =>
    intro a listed front s st _ hrange _ _ _
    have hnil : listed = [] := by
      cases listed with
      | nil => rfl
      | cons b rest =>
        have := hrange b (List.mem_cons_self _ _)
        omega
    subst hnil
    refine ⟨by simp, by simp, by simp, ?_, by simp⟩
    intro e h1 h2
    omega
  | succ m ih =>
    intro a listed front s st hsorted hrange hidx hrow hlen
    rw [List.range'_succ, List.foldl_cons]
    have hread : row.getD st.edgeIntersectionsIndex (-1) =
        (listed.map (fun e : Nat => (e : Int)) ++ List.replicate s (-1)).getD 0 (-1) := by
      rw [hidx, hrow, getD_append_length]
    by_cases hmatch : (a : Int) = row.getD st.edgeIntersectionsIndex (-1)
    · -- the edge is listed: it is the head of the list
      cases listed with
      | nil =>
        rw [hread] at hmatch
        cases s with
        | zero => simp at hmatch
        | succ s => simp [List.replicate_succ] at hmatch
      | cons b rest =>
        have hb : b = a := by
          rw [hread] at hmatch
          simp at hmatch
          omega
        subst hb
        obtain ⟨hv, hf, hvi, hix⟩ :=
          edgeLoopStep_listed T sf min delta_x delta_y x y row st b hmatch
        have hsorted1 : rest.Pairwise (· < ·) := (List.pairwise_cons.1 hsorted).2
        have hgt : ∀ e ∈ rest, b < e := (List.pairwise_cons.1 hsorted).1
        obtain ⟨r1, r2, r3, r4, r5⟩ := ih (b + 1) rest (front ++ [(b : Int)]) s
          (edgeLoopStep T sf min delta_x delta_y x y row st b) hsorted1
          (by
            intro e he
            have := hrange e (List.mem_cons_of_mem _ he)
            have := hgt e he
            omega)
          (by rw [hix, hidx]; simp)
          (by rw [hrow]; simp)
          (by rw [hvi, List.length_set]; omega)
        refine ⟨?_, ?_, ?_, ?_, ?_⟩
        · rw [r1, hv]; simp
        · rw [r2, hf]
        · rw [r3, hvi, List.length_set]
        · intro e h1 h2
          rcases Nat.eq_or_lt_of_le h1 with heq | hlt
          · subst heq
            rw [r5 b (by omega), hvi, getD_set_self _ _ _ (by omega)]
            simp
          · rw [r4 e (by omega) (by omega), hv]
            have hne : e ≠ b := by omega
            by_cases hmem : e ∈ rest
            · have hmem2 : e ∈ b :: rest := List.mem_cons_of_mem _ hmem
              rw [if_pos hmem, if_pos hmem2, List.indexOf_cons_ne _ (Ne.symm hne)]
              simp only [List.length_append, List.length_singleton]
              push_cast
              ring
            · have hmem2 : e ∉ b :: rest := by
                intro h
                rcases List.mem_cons.1 h with h | h
                · exact hne h
                · exact hmem h
              rw [if_neg hmem, if_neg hmem2]
        · intro e he
          rw [r5 e (by omega), hvi, getD_set_other _ _ _ _ (by omega)]
    · -- the edge is not listed: every listed edge is above it
      have hstep := edgeLoopStep_unlisted T sf min delta_x delta_y x y row st a hmatch
      have habove : ∀ e ∈ listed, a + 1 ≤ e := by
        cases listed with
        | nil => intro e he; exact absurd he (List.not_mem_nil _)
        | cons b rest =>
          have hba : b ≠ a := by
            intro h
            apply hmatch
            rw [hread, h]
            simp
          have hb := hrange b (List.mem_cons_self _ _)
          have hgt : ∀ e ∈ rest, b < e := (List.pairwise_cons.1 hsorted).1
          intro e he
          rcases List.mem_cons.1 he with h | h
          · omega
          · have := hgt e h
            omega
      have hnot : a ∉ listed := by
        intro h
        have := habove a h
        omega
      rw [hstep]
      obtain ⟨r1, r2, r3, r4, r5⟩ := ih (a + 1) listed front s
        { ext := st.ext, vertexIndices := st.vertexIndices.set a (-1),
          edgeIntersectionsIndex := st.edgeIntersectionsIndex } hsorted
        (by
          intro e he
          have := hrange e he
          have := habove e he
          omega)
        hidx
        hrow
        (by simp only [List.length_set]; omega)
      simp only [List.length_set] at r3
      refine ⟨r1, r2, r3, ?_, ?_⟩
      · intro e h1 h2
        rcases Nat.eq_or_lt_of_le h1 with heq | hlt
        · subst heq
          rw [r5 a (by omega), getD_set_self _ _ _ (by omega), if_neg hnot]
        · exact r4 e (by omega) (by omega)
      · intro e he
        rw [r5 e (by omega), getD_set_other _ _ _ _ (by omega)]

/-- The loop over the edges of a cell whose row of the edge table is an
ascending list of edge ids followed by sentinels: one vertex is appended for
each listed edge, in ascending order, no face is appended, and the slot of an
edge in `vertexIndices` holds the index of its vertex when the edge is listed
and the sentinel when it is not. -/
theorem edgeLoop_ascending (T : TransitionTables) (sf : ScalarField) (min : mcVec3)
    (delta_x delta_y : ℚ) (x y : Nat) (cell : Nat) (ext : Extraction)
    (hrow : RowAscending T.MC_TRANSVOXEL_NUM_TRANSITION_CELL_EDGES
      (T.mcTransvoxel_transitionCellEdgeIntersectionTable cell)) :
    (edgeLoop T sf min delta_x delta_y x y cell ext).ext.mesh.vertices =
        ext.mesh.vertices ++
          (listedEdges (T.mcTransvoxel_transitionCellEdgeIntersectionTable cell)).map
            (cellEdgeVertex T sf min delta_x delta_y x y) ∧
      (edgeLoop T sf min delta_x delta_y x y cell ext).ext.mesh.faces = ext.mesh.faces ∧
      ∀ e, e < T.MC_TRANSVOXEL_NUM_TRANSITION_CELL_EDGES →
        (edgeLoop T sf min delta_x delta_y x y cell ext).vertexIndices.getD e (-1) =
          if e ∈ listedEdges (T.mcTransvoxel_transitionCellEdgeIntersectionTable cell) then
            ((ext.mesh.vertices.length +
              (listedEdges (T.mcTransvoxel_transitionCellEdgeIntersectionTable cell)).indexOf e
                : Nat) : Int)
          else -1 := by
  obtain ⟨hsorted, hbound, hshape⟩ := hrow
  unfold edgeLoop
  rw [List.range_eq_range']
  obtain ⟨r1, r2, _, r4, _⟩ := edgeLoop_segment T sf min delta_x delta_y x y
    (T.mcTransvoxel_transitionCellEdgeIntersectionTable cell)
    T.MC_TRANSVOXEL_NUM_TRANSITION_CELL_EDGES 0
    (listedEdges (T.mcTransvoxel_transitionCellEdgeIntersectionTable cell)) []
    ((T.mcTransvoxel_transitionCellEdgeIntersectionTable cell).length -
      (listedEdges (T.mcTransvoxel_transitionCellEdgeIntersectionTable cell)).length)
    { ext := ext,
      vertexIndices := List.replicate T.MC_TRANSVOXEL_NUM_TRANSITION_CELL_EDGES (-1),
      edgeIntersectionsIndex := 0 }
    hsorted
    (by intro e he; exact ⟨Nat.zero_le _, by simpa using hbound e he⟩)
    rfl
    (by simpa using hshape)
    (by simp)
  refine ⟨r1, r2, ?_⟩
  intro e he
  exact r4 e (Nat.zero_le _) (by simpa using he)

/-- The loop over the triangles of a cell, when the vertex index of every edge
of every triangle before the first sentinel slot is not the sentinel: no
assertion fails and one face is appended for each of those triangles, in
order. -/
theorem triangleLoop_faces (vertexIndices : List Int) (ts : List mcTransvoxel_Triangle)
    (mesh : mcMesh)
    (h : ∀ t ∈ ts.takeWhile (fun t => decide (t.edgeIntersections0 ≠ -1)),
      vertexIndexOf vertexIndices t.edgeIntersections0 ≠ -1 ∧
      vertexIndexOf vertexIndices t.edgeIntersections1 ≠ -1 ∧
      vertexIndexOf vertexIndices t.edgeIntersections2 ≠ -1) :
    triangleLoop vertexIndices ts mesh =
      some { vertices := mesh.vertices,
             faces := mesh.faces ++
               (ts.takeWhile (fun t => decide (t.edgeIntersections0 ≠ -1))).map
                 (triangleFace vertexIndices) } := by
  induction ts generalizing mesh with
  | nil => simp [triangleLoop]
  | cons t ts ih =>
    unfold triangleLoop
    by_cases h0 : t.edgeIntersections0 = -1
    · simp [h0]
    · have htw : List.takeWhile (fun t => decide (t.edgeIntersections0 ≠ -1)) (t :: ts) =
          t :: List.takeWhile (fun t => decide (t.edgeIntersections0 ≠ -1)) ts := by
        rw [List.takeWhile_cons]
        simp [h0]
      rw [htw] at h ⊢
      obtain ⟨i0, i1, i2⟩ := h t (List.mem_cons_self _ _)
      rw [if_neg h0]
      simp only
      rw [if_neg (by simp [i0, i1, i2])]
      rw [ih (mcMesh_addFace mesh _) (fun u hu => h u (List.mem_cons_of_mem _ hu))]
      simp [mcMesh_addFace, triangleFace]

/-- The vertex index of an edge that is listed in the row of the edge table,
after the loop over the edges: the number of vertices before the cell plus the
position of the edge in the list. -/
theorem vertexIndexOf_listed (T : TransitionTables) (sf : ScalarField) (min : mcVec3)
    (delta_x delta_y : ℚ) (x y : Nat) (cell : Nat) (ext : Extraction)
    (hrow : RowAscending T.MC_TRANSVOXEL_NUM_TRANSITION_CELL_EDGES
      (T.mcTransvoxel_transitionCellEdgeIntersectionTable cell))
    (edgeIntersection : Int)
    (hlisted : edgeIntersection ∈
      (listedEdges (T.mcTransvoxel_transitionCellEdgeIntersectionTable cell)).map
        (fun e : Nat => (e : Int))) :
    vertexIndexOf (edgeLoop T sf min delta_x delta_y x y cell ext).vertexIndices
        edgeIntersection =
      listedVertexIndex ext.mesh.vertices.length
        (listedEdges (T.mcTransvoxel_transitionCellEdgeIntersectionTable cell))
        edgeIntersection ∧
    (ext.mesh.vertices.length : Int) ≤
      listedVertexIndex ext.mesh.vertices.length
        (listedEdges (T.mcTransvoxel_transitionCellEdgeIntersectionTable cell))
        edgeIntersection ∧
    listedVertexIndex ext.mesh.vertices.length
        (listedEdges (T.mcTransvoxel_transitionCellEdgeIntersectionTable cell))
        edgeIntersection <
      ((ext.mesh.vertices.length +
        (listedEdges (T.mcTransvoxel_transitionCellEdgeIntersectionTable cell)).length : Nat)
        : Int) := by
  obtain ⟨e, he, rfl⟩ := List.mem_map.1 hlisted
  have hbound := hrow.2.1 e he
  have hvi := (edgeLoop_ascending T sf min delta_x delta_y x y cell ext hrow).2.2 e hbound
  have hpos : (listedEdges (T.mcTransvoxel_transitionCellEdgeIntersectionTable cell)).indexOf e <
      (listedEdges (T.mcTransvoxel_transitionCellEdgeIntersectionTable cell)).length :=
    List.indexOf_lt_length.2 he
  refine ⟨?_, ?_, ?_⟩
  · unfold vertexIndexOf listedVertexIndex
    rw [if_pos (by omega), Int.toNat_ofNat, hvi, if_pos he]
  · unfold listedVertexIndex
    rw [Int.toNat_ofNat]
    omega
  · unfold listedVertexIndex
    rw [Int.toNat_ofNat]
    omega

/-- A non-trivial cell whose row of the edge table is an ascending list of edge
ids followed by sentinels, and all of whose triangles reference listed edges
only: no assertion fails, one vertex is appended for each listed edge, in
order, and one face for each triangle before the first sentinel slot, whose
indices are those of the vertices of its three edges. -/
theorem processCell_listed (T : TransitionTables) (sf : ScalarField) (min : mcVec3)
    (delta_x delta_y : ℚ) (x y : Nat) (ext : Extraction)
    (hcell : ¬ ((cellConfiguration T sf min delta_x delta_y x y).1 = 0 ∨
      (cellConfiguration T sf min delta_x delta_y x y).1 = 0x1ff))
    (hrow : RowAscending T.MC_TRANSVOXEL_NUM_TRANSITION_CELL_EDGES
      (T.mcTransvoxel_transitionCellEdgeIntersectionTable
        (cellConfiguration T sf min delta_x delta_y x y).1))
    (htri : TrianglesListed
      (T.mcTransvoxel_transitionCellEdgeIntersectionTable
        (cellConfiguration T sf min delta_x delta_y x y).1)
      (scanTransitionTriangles T.MC_TRANSVOXEL_MAX_TRANSITION_CELL_TRIANGLES
        (T.mcTransvoxel_transitionCellTriangulationTable
          (cellConfiguration T sf min delta_x delta_y x y).1))) :
    ∃ ext1, processCell T sf min delta_x delta_y x y ext = some ext1 ∧
      ext1.mesh.vertices = ext.mesh.vertices ++
        (listedEdges (T.mcTransvoxel_transitionCellEdgeIntersectionTable
          (cellConfiguration T sf min delta_x delta_y x y).1)).map
          (cellEdgeVertex T sf min delta_x delta_y x y) ∧
      ext1.mesh.faces = ext.mesh.faces ++
        (scanTransitionTriangles T.MC_TRANSVOXEL_MAX_TRANSITION_CELL_TRIANGLES
          (T.mcTransvoxel_transitionCellTriangulationTable
            (cellConfiguration T sf min delta_x delta_y x y).1)).map
          (fun t => (⟨[
            listedVertexIndex ext.mesh.vertices.length
              (listedEdges (T.mcTransvoxel_transitionCellEdgeIntersectionTable
                (cellConfiguration T sf min delta_x delta_y x y).1)) t.edgeIntersections0,
            listedVertexIndex ext.mesh.vertices.length
              (listedEdges (T.mcTransvoxel_transitionCellEdgeIntersectionTable
                (cellConfiguration T sf min delta_x delta_y x y).1)) t.edgeIntersections1,
            listedVertexIndex ext.mesh.vertices.length
              (listedEdges (T.mcTransvoxel_transitionCellEdgeIntersectionTable
                (cellConfiguration T sf min delta_x delta_y x y).1)) t.edgeIntersections2]⟩
            : mcFace)) := by
  generalize hc : (cellConfiguration T sf min delta_x delta_y x y).1 = cell at hcell hrow htri
  have hloop := edgeLoop_ascending T sf min delta_x delta_y x y cell
    { ext with fieldCalls := ext.fieldCalls ++ (cellConfiguration T sf min delta_x delta_y x y).2 }
    hrow
  have hidx : ∀ e, e ∈ (listedEdges (T.mcTransvoxel_transitionCellEdgeIntersectionTable cell)).map
      (fun e : Nat => (e : Int)) →
      vertexIndexOf (edgeLoop T sf min delta_x delta_y x y cell
        { ext with fieldCalls := ext.fieldCalls ++
          (cellConfiguration T sf min delta_x delta_y x y).2 }).vertexIndices e =
        listedVertexIndex ext.mesh.vertices.length
          (listedEdges (T.mcTransvoxel_transitionCellEdgeIntersectionTable cell)) e ∧
      vertexIndexOf (edgeLoop T sf min delta_x delta_y x y cell
        { ext with fieldCalls := ext.fieldCalls ++
          (cellConfiguration T sf min delta_x delta_y x y).2 }).vertexIndices e ≠ -1 := by
    intro e he
    obtain ⟨h1, h2, _⟩ := vertexIndexOf_listed T sf min delta_x delta_y x y cell
      { ext with fieldCalls := ext.fieldCalls ++
        (cellConfiguration T sf min delta_x delta_y x y).2 } hrow e he
    refine ⟨h1, ?_⟩
    rw [h1]
    have h2b : (ext.mesh.vertices.length : Int) ≤ listedVertexIndex ext.mesh.vertices.length
        (listedEdges (T.mcTransvoxel_transitionCellEdgeIntersectionTable cell)) e := h2
    have : (0 : Int) ≤ (ext.mesh.vertices.length : Int) := Int.natCast_nonneg _
    omega
  have hfaces := triangleLoop_faces
    (edgeLoop T sf min delta_x delta_y x y cell
      { ext with fieldCalls := ext.fieldCalls ++
        (cellConfiguration T sf min delta_x delta_y x y).2 }).vertexIndices
    ((T.mcTransvoxel_transitionCellTriangulationTable cell).take
      T.MC_TRANSVOXEL_MAX_TRANSITION_CELL_TRIANGLES)
    (edgeLoop T sf min delta_x delta_y x y cell
      { ext with fieldCalls := ext.fieldCalls ++
        (cellConfiguration T sf min delta_x delta_y x y).2 }).ext.mesh
    (by
      intro t ht
      obtain ⟨t0, t1, t2⟩ := htri t ht
      exact ⟨(hidx _ t0).2, (hidx _ t1).2, (hidx _ t2).2⟩)
  unfold processCell
  simp only
  rw [hc, if_neg hcell, hfaces]
  refine ⟨_, rfl, hloop.1, ?_⟩
  simp only
  rw [hloop.2.1]
  congr 1
  unfold scanTransitionTriangles at htri ⊢
  apply List.map_congr_left
  intro t ht
  obtain ⟨t0, t1, t2⟩ := htri t ht
  unfold triangleFace
  rw [(hidx _ t0).1, (hidx _ t1).1, (hidx _ t2).1]


set_option maxRecDepth 100000 in
/-- C18, as the claim states it, fails: for the tables whose edge rows are
ascending and whose triangle rows start with the triangle of the edges 6, 7 and
0, the only cell of the 2x2 lattice of the unit square has, for the field that
is `-1` below `y = 1/4` and `1` from it on, the configuration 7 and the edge row
6, 7, 8 followed by sentinels; the loop over the edges appends three vertices,
one triangle precedes the first sentinel of the triangle row, and no face is
appended: the read `vertexIndices[0]` gives `-1` and the assertion
`triangle.indices[2] != -1` stops the call. -/
theorem nontrivial_cell_unlisted_edge :
    (cellConfiguration unlistedTransition stepField ⟨0, 0, 0⟩ 1 1 0 0).1 = 7 ∧
    unlistedTransition.mcTransvoxel_transitionCellEdgeIntersectionTable 7 =
      [6, 7, 8, -1, -1, -1, -1, -1, -1, -1, -1, -1] ∧
    RowAscending unlistedTransition.MC_TRANSVOXEL_NUM_TRANSITION_CELL_EDGES
      (unlistedTransition.mcTransvoxel_transitionCellEdgeIntersectionTable 7) ∧
    scanTransitionTriangles unlistedTransition.MC_TRANSVOXEL_MAX_TRANSITION_CELL_TRIANGLES
      (unlistedTransition.mcTransvoxel_transitionCellTriangulationTable 7) = [⟨6, 7, 0⟩] ∧
    (edgeLoop unlistedTransition stepField ⟨0, 0, 0⟩ 1 1 0 0 7
      ⟨emptyMesh, [], []⟩).ext.mesh.vertices.length = 3 ∧
    (edgeLoop unlistedTransition stepField ⟨0, 0, 0⟩ 1 1 0 0 7
      ⟨emptyMesh, [], []⟩).vertexIndices = [-1, -1, -1, -1, -1, -1, 0, 1, 2, -1, -1, -1] ∧
    processCell unlistedTransition stepField ⟨0, 0, 0⟩ 1 1 0 0 ⟨emptyMesh, [], []⟩ = none ∧
    mcTransvoxel_transitionMeshFromField unlistedTransition stepField 2 2 ⟨0, 0, 0⟩ ⟨1, 1, 0⟩
      emptyMesh = none := by
  refine ⟨by decide!, by decide!, by decide!, by decide!, by decide!, by decide!, by decide!,
    by decide!⟩

/-- C18, amended: for every non-trivial transition cell whose edge-table row is
a strictly ascending list of edge ids followed only by sentinels, and whose
triangles that precede the first sentinel in the triangle-table row reference
listed edges only, the linear scan in `mcTransvoxel_transitionMeshFromField`
appends exactly one mesh vertex for each listed edge (in ascending edge order)
and none for any unlisted edge, and then appends exactly one face for each
triangle that precedes the first sentinel in the triangle-table row; no
assertion stops the cell. -/
theorem nontrivial_cell_vertices_and_faces (T : TransitionTables) (sf : ScalarField)
    (min : mcVec3) (delta_x delta_y : ℚ) (x y : Nat) (ext : Extraction)
    (hcell : ¬ ((cellConfiguration T sf min delta_x delta_y x y).1 = 0x000 ∨
      (cellConfiguration T sf min delta_x delta_y x y).1 = 0x1FF))
    (hrow : RowAscending T.MC_TRANSVOXEL_NUM_TRANSITION_CELL_EDGES
      (T.mcTransvoxel_transitionCellEdgeIntersectionTable
        (cellConfiguration T sf min delta_x delta_y x y).1))
    (htri : TrianglesListed
      (T.mcTransvoxel_transitionCellEdgeIntersectionTable
        (cellConfiguration T sf min delta_x delta_y x y).1)
      (scanTransitionTriangles T.MC_TRANSVOXEL_MAX_TRANSITION_CELL_TRIANGLES
        (T.mcTransvoxel_transitionCellTriangulationTable
          (cellConfiguration T sf min delta_x delta_y x y).1))) :
    ∃ ext1, processCell T sf min delta_x delta_y x y ext = some ext1 ∧
      ext1.mesh.vertices = ext.mesh.vertices ++
        (listedEdges (T.mcTransvoxel_transitionCellEdgeIntersectionTable
          (cellConfiguration T sf min delta_x delta_y x y).1)).map
          (cellEdgeVertex T sf min delta_x delta_y x y) ∧
      ext1.mesh.vertices.length = ext.mesh.vertices.length +
        (listedEdges (T.mcTransvoxel_transitionCellEdgeIntersectionTable
          (cellConfiguration T sf min delta_x delta_y x y).1)).length ∧
      ext1.mesh.faces = ext.mesh.faces ++
        (scanTransitionTriangles T.MC_TRANSVOXEL_MAX_TRANSITION_CELL_TRIANGLES
          (T.mcTransvoxel_transitionCellTriangulationTable
            (cellConfiguration T sf min delta_x delta_y x y).1)).map
          (fun t => (⟨[
            listedVertexIndex ext.mesh.vertices.length
              (listedEdges (T.mcTransvoxel_transitionCellEdgeIntersectionTable
                (cellConfiguration T sf min delta_x delta_y x y).1)) t.edgeIntersections0,
            listedVertexIndex ext.mesh.vertices.length
              (listedEdges (T.mcTransvoxel_transitionCellEdgeIntersectionTable
                (cellConfiguration T sf min delta_x delta_y x y).1)) t.edgeIntersections1,
            listedVertexIndex ext.mesh.vertices.length
              (listedEdges (T.mcTransvoxel_transitionCellEdgeIntersectionTable
                (cellConfiguration T sf min delta_x delta_y x y).1)) t.edgeIntersections2]⟩
            : mcFace)) ∧
      ext1.mesh.faces.length = ext.mesh.faces.length +
        (scanTransitionTriangles T.MC_TRANSVOXEL_MAX_TRANSITION_CELL_TRIANGLES
          (T.mcTransvoxel_transitionCellTriangulationTable
            (cellConfiguration T sf min delta_x delta_y x y).1)).length := by
  obtain ⟨ext1, h1, hv, hf⟩ :=
    processCell_listed T sf min delta_x delta_y x y ext hcell hrow htri
  refine ⟨ext1, h1, hv, ?_, hf, ?_⟩
  · rw [hv]; simp
  · rw [hf]; simp

set_option maxRecDepth 100000 in
/-- The statement of the amended C18 at the only cell of the 2x2 lattice of the
unit square, for the field that is `-1` below `y = 1/4` and `1` from it on and
the tables modelled from the specification: the configuration is 7, the row
lists the edges 6, 7 and 8, and the cell appends three vertices and one face. -/
theorem nontrivial_cell_vertices_and_faces_witness :
    (¬ ((cellConfiguration specTransition stepField ⟨0, 0, 0⟩ 1 1 0 0).1 = 0x000 ∨
        (cellConfiguration specTransition stepField ⟨0, 0, 0⟩ 1 1 0 0).1 = 0x1FF)) ∧
    RowAscending specTransition.MC_TRANSVOXEL_NUM_TRANSITION_CELL_EDGES
      (specTransition.mcTransvoxel_transitionCellEdgeIntersectionTable
        (cellConfiguration specTransition stepField ⟨0, 0, 0⟩ 1 1 0 0).1) ∧
    TrianglesListed
      (specTransition.mcTransvoxel_transitionCellEdgeIntersectionTable
        (cellConfiguration specTransition stepField ⟨0, 0, 0⟩ 1 1 0 0).1)
      (scanTransitionTriangles specTransition.MC_TRANSVOXEL_MAX_TRANSITION_CELL_TRIANGLES
        (specTransition.mcTransvoxel_transitionCellTriangulationTable
          (cellConfiguration specTransition stepField ⟨0, 0, 0⟩ 1 1 0 0).1)) ∧
    listedEdges (specTransition.mcTransvoxel_transitionCellEdgeIntersectionTable
        (cellConfiguration specTransition stepField ⟨0, 0, 0⟩ 1 1 0 0).1) = [6, 7, 8] ∧
    (processCell specTransition stepField ⟨0, 0, 0⟩ 1 1 0 0 ⟨emptyMesh, [], []⟩).map
        (fun ext1 => ext1.mesh) =
      some ⟨[⟨⟨0, 1 / 4, 0⟩⟩, ⟨⟨1 / 2, 1 / 4, 0⟩⟩, ⟨⟨1, 1 / 4, 0⟩⟩], [⟨[0, 1, 2]⟩]⟩ ∧
    ∃ ext1, processCell specTransition stepField ⟨0, 0, 0⟩ 1 1 0 0 ⟨emptyMesh, [], []⟩
        = some ext1 ∧
      ext1.mesh.vertices.length = (⟨emptyMesh, [], []⟩ : Extraction).mesh.vertices.length +
        (listedEdges (specTransition.mcTransvoxel_transitionCellEdgeIntersectionTable
          (cellConfiguration specTransition stepField ⟨0, 0, 0⟩ 1 1 0 0).1)).length :=
  ⟨by decide!, by decide!, by decide!, by decide!, by decide!,
    (nontrivial_cell_vertices_and_faces specTransition stepField ⟨0, 0, 0⟩ 1 1 0 0
      ⟨emptyMesh, [], []⟩ (by decide!) (by decide!) (by decide!)).imp
      (fun _ h => ⟨h.1, h.2.2.1⟩)⟩

/-! ## The assertions of the loop over the triangles -/

/-- With consistent tables, no assertion fails in a cell, and every face the
cell appends references vertices the same cell appended. -/
theorem processCell_consistent (T : TransitionTables) (hT : T.Consistent)
    (sf : ScalarField) (min : mcVec3) (delta_x delta_y : ℚ) (x y : Nat) (ext : Extraction) :
    ∃ ext1 newVertices newFaces,
      processCell T sf min delta_x delta_y x y ext = some ext1 ∧
      ext1.mesh.vertices = ext.mesh.vertices ++ newVertices ∧
      ext1.mesh.faces = ext.mesh.faces ++ newFaces ∧
      ∀ f ∈ newFaces, f.indices.length = 3 ∧ ∀ i ∈ f.indices,
        (ext.mesh.vertices.length : Int) ≤ i ∧
          i < ((ext.mesh.vertices.length + newVertices.length : Nat) : Int) := by
  by_cases hcell : (cellConfiguration T sf min delta_x delta_y x y).1 = 0 ∨
      (cellConfiguration T sf min delta_x delta_y x y).1 = 0x1ff
  · obtain ⟨ext1, h1, hm, _⟩ := processCell_trivial T sf min delta_x delta_y x y ext hcell
    refine ⟨ext1, [], [], h1, by rw [hm]; simp, by rw [hm]; simp, ?_⟩
    intro f hf
    exact absurd hf (List.not_mem_nil _)
  · have hlt := (cellConfiguration_eq T sf min delta_x delta_y x y).2.1
    obtain ⟨hrow, htri⟩ := hT ⟨(cellConfiguration T sf min delta_x delta_y x y).1, hlt⟩
    obtain ⟨ext1, h1, hv, hf⟩ :=
      processCell_listed T sf min delta_x delta_y x y ext hcell hrow htri
    refine ⟨ext1, _, _, h1, hv, hf, ?_⟩
    intro f hfmem
    obtain ⟨t, ht, rfl⟩ := List.mem_map.1 hfmem
    obtain ⟨t0, t1, t2⟩ := htri t ht
    refine ⟨rfl, ?_⟩
    intro i hi
    simp only [List.length_map]
    have b0 := vertexIndexOf_listed T sf min delta_x delta_y x y _ ext hrow _ t0
    have b1 := vertexIndexOf_listed T sf min delta_x delta_y x y _ ext hrow _ t1
    have b2 := vertexIndexOf_listed T sf min delta_x delta_y x y _ ext hrow _ t2
    simp only [List.mem_cons, List.mem_singleton, List.not_mem_nil, or_false] at hi
    rcases hi with rfl | rfl | rfl
    · exact ⟨b0.2.1, b0.2.2⟩
    · exact ⟨b1.2.1, b1.2.2⟩
    · exact ⟨b2.2.1, b2.2.2⟩

/-- With consistent tables, no assertion fails in a run of the loops over the
cells. -/
theorem foldl_processCell_consistent (T : TransitionTables) (hT : T.Consistent)
    (sf : ScalarField) (min : mcVec3) (delta_x delta_y : ℚ) (cells : List (Nat × Nat))
    (ext : Extraction) :
    ∃ ext1, cells.foldl
        (fun acc cell => acc.bind (processCell T sf min delta_x delta_y cell.1 cell.2))
        (some ext) = some ext1 := by
  induction cells generalizing ext with
  | nil => exact ⟨ext, rfl⟩
  | cons c cells ih =>
    obtain ⟨e1, _, _, h1, _⟩ := processCell_consistent T hT sf min delta_x delta_y c.1 c.2 ext
    obtain ⟨e2, h2⟩ := ih e1
    exact ⟨e2, by rw [List.foldl_cons, Option.some_bind, h1]; exact h2⟩

set_option maxRecDepth 1000000 in
/-- The transition tables modelled from the specification are consistent. -/
theorem specTransition_consistent : specTransition.Consistent := by
  decide!

/-- C19: if the transition tables are consistent (each edge-table row strictly
ascending, and every edge id referenced by a triangle of configuration `c`
listed in the edge row of `c`), then in `mcTransvoxel_transitionMeshFromField`
the three assertions `triangle.indices[j] != -1` never fail (every cell, and the
whole call, returns), and every face appended for a cell references only vertex
indices returned by `mcMesh_addVertex` while processing that same cell: each
index is at least the number of vertices before the cell and below the number
of vertices after it. -/
theorem transition_assertions_hold (T : TransitionTables) (hT : T.Consistent) :
    (∀ (sf : ScalarField) (min : mcVec3) (delta_x delta_y : ℚ) (x y : Nat) (ext : Extraction),
      ∃ ext1 newVertices newFaces,
        processCell T sf min delta_x delta_y x y ext = some ext1 ∧
        ext1.mesh.vertices = ext.mesh.vertices ++ newVertices ∧
        ext1.mesh.faces = ext.mesh.faces ++ newFaces ∧
        ∀ f ∈ newFaces, f.indices.length = 3 ∧ ∀ i ∈ f.indices,
          (ext.mesh.vertices.length : Int) ≤ i ∧
            i < ((ext.mesh.vertices.length + newVertices.length : Nat) : Int)) ∧
    (∀ (sf : ScalarField) (x_res y_res : Nat) (min max : mcVec3) (mesh : mcMesh),
      ∃ result, mcTransvoxel_transitionMeshFromField T sf x_res y_res min max mesh
        = some result) := by
  refine ⟨processCell_consistent T hT, ?_⟩
  intro sf x_res y_res min max mesh
  unfold mcTransvoxel_transitionMeshFromField transitionExtraction
  obtain ⟨ext1, h1⟩ := foldl_processCell_consistent T hT sf min
    (latticeDelta min.x max.x x_res) (latticeDelta min.y max.y y_res)
    (cellOrder x_res y_res) { mesh := mesh, fieldCalls := [], quotients := [] }
  exact ⟨ext1.mesh, by simp only [h1, Option.map_some']⟩

set_option maxRecDepth 100000 in
/-- The statement of C19 for the tables modelled from the specification, at the
2x2 lattice of the unit square and the field that is `-1` below `y = 1/4` and
`1` from it on: the call returns a mesh of three vertices and the face
`(0, 1, 2)`. -/
theorem transition_assertions_hold_witness :
    specTransition.Consistent ∧
    (∃ result, mcTransvoxel_transitionMeshFromField specTransition stepField 2 2
        ⟨0, 0, 0⟩ ⟨1, 1, 0⟩ emptyMesh = some result) ∧
    mcTransvoxel_transitionMeshFromField specTransition stepField 2 2
        ⟨0, 0, 0⟩ ⟨1, 1, 0⟩ emptyMesh =
      some ⟨[⟨⟨0, 1 / 4, 0⟩⟩, ⟨⟨1 / 2, 1 / 4, 0⟩⟩, ⟨⟨1, 1 / 4, 0⟩⟩], [⟨[0, 1, 2]⟩]⟩ :=
  ⟨specTransition_consistent,
    (transition_assertions_hold specTransition specTransition_consistent).2 stepField 2 2
      ⟨0, 0, 0⟩ ⟨1, 1, 0⟩ emptyMesh,
    by decide!⟩

/-! ## The interpolation weight on an intersected edge -/

/-- The weight `|v0 / (v0 - v1)|` of two values on opposite sides of the
isosurface: the denominator is not zero and the weight lies between 0 and 1. -/
theorem interpolationWeight_bounds (v0 v1 : ℚ) (h : OppositeSides v0 v1) :
    v0 - v1 ≠ 0 ∧ 0 ≤ interpolationWeight v0 v1 ∧ interpolationWeight v0 v1 ≤ 1 := by
  unfold interpolationWeight
  refine ⟨?_, abs_nonneg _, ?_⟩
  · rcases h with ⟨h0, h1⟩ | ⟨h1, h0⟩
    · exact ne_of_lt (by linarith)
    · exact ne_of_gt (by linarith)
  · rw [abs_div]
    rcases h with ⟨h0, h1⟩ | ⟨h1, h0⟩
    · have hd : v0 - v1 < 0 := by linarith
      rw [abs_of_neg h0, abs_of_neg hd, div_le_one (by linarith)]
      linarith
    · have hd : 0 < v0 - v1 := by linarith
      rw [abs_of_nonneg h0, abs_of_pos hd, div_le_one hd]
      linarith

/-- The interpolation `a + t (b - a)` is the point `(1 - t) a + t b` of the
segment from `a` to `b`. -/
theorem mcVec3_lerp_eq_segmentPoint (a b : mcVec3) (t : ℚ) :
    mcVec3_lerp a b t = segmentPoint a b t := by
  simp only [mcVec3_lerp, segmentPoint, mcVec3.mk.injEq]
  refine ⟨?_, ?_, ?_⟩ <;> ring

/-- On two different finite values the weight on `float` values is the weight
over rational values. -/
theorem interpolationWeightFloat_finite (a b : ℚ) (h : a ≠ b) :
    interpolationWeightFloat (.finite a) (.finite b) = .finite (interpolationWeight a b) := by
  simp [interpolationWeightFloat, CFloat.sub, CFloat.div, CFloat.fabs, interpolationWeight,
    sub_eq_zero, h]

/-- Two finite values are on opposite sides by the comparisons of C exactly
when they are as rational numbers. -/
theorem oppositeSidesFloat_finite (a b : ℚ) :
    OppositeSidesFloat (.finite a) (.finite b) ↔ OppositeSides a b := by
  simp [OppositeSidesFloat, OppositeSides, CFloat.lt, CFloat.ge]

/-- C21, as the claim states it, fails: the values `-inf` and `1` are classified
on opposite sides of the isosurface (`-inf < 0` and `1 >= 0`), yet the
denominator `-inf - 1` is `-inf`, the quotient `-inf / -inf` is a NaN and so is
the weight: it does not lie in `[0, 1]`, and the vertex interpolated with it
between `(0, 0, 0)` and `(0, 1/2, 0)` is no point of the segment. -/
theorem interpolationWeight_infinite_value :
    OppositeSidesFloat .negInf (.finite 1) ∧
    CFloat.sub .negInf (.finite 1) = .negInf ∧
    CFloat.div .negInf .negInf = .nan ∧
    interpolationWeightFloat .negInf (.finite 1) = .nan ∧
    (¬ ∃ w : ℚ, interpolationWeightFloat .negInf (.finite 1) = .finite w ∧ 0 ≤ w ∧ w ≤ 1) ∧
    edgeVertexFloat ⟨0, 0, 0⟩ ⟨0, 1 / 2, 0⟩ .negInf (.finite 1) = none := by
  refine ⟨by decide, by decide, by decide, by decide, ?_, by decide⟩
  rintro ⟨w, hw, _⟩
  have hnan : interpolationWeightFloat .negInf (.finite 1) = .nan := by decide
  rw [hnan] at hw
  exact CFloat.noConfusion hw

/-- C21, amended: for every pair of endpoint values `v0`, `v1` classified on
opposite sides of the isosurface (one `< 0` and the other `>= 0`) of which `v0`
is finite, the interpolation weight `|v0 / (v0 - v1)|` is well defined (its
denominator is neither zero nor a NaN) and is a finite value `w` in `[0, 1]`, so
the vertex the code computes from two lattice positions `p0` and `p1` is the
point `(1 - w) p0 + w p1` of the segment between them. When `v1` is finite too,
`w` is the weight of the extraction over rational values, and that vertex is
the one the loop over the edges appends to the mesh for every listed edge of
every cell whose two sampled values are `v0` and `v1`. -/
theorem weight_in_unit_interval (p0 p1 : mcVec3) (v0 : ℚ) (v1 : CFloat)
    (h : OppositeSidesFloat (.finite v0) v1) :
    CFloat.sub (.finite v0) v1 ≠ .finite 0 ∧ CFloat.sub (.finite v0) v1 ≠ .nan ∧
    ∃ w : ℚ, interpolationWeightFloat (.finite v0) v1 = .finite w ∧ 0 ≤ w ∧ w ≤ 1 ∧
      edgeVertexFloat p0 p1 (.finite v0) v1 = some ⟨segmentPoint p0 p1 w⟩ ∧
      ∀ b : ℚ, v1 = .finite b →
        w = interpolationWeight v0 b ∧
        (edgeVertex p0 p1 v0 b).pos = segmentPoint p0 p1 w ∧
        ∀ (T : TransitionTables) (sf : ScalarField) (min : mcVec3) (delta_x delta_y : ℚ)
          (x y : Nat) (edgeIntersections : List Int) (st : EdgeLoopState) (edge : Nat),
          (edge : Int) = edgeIntersections.getD st.edgeIntersectionsIndex (-1) →
          edgeValues T sf min delta_x delta_y x y edge = (v0, b) →
            (edgeLoopStep T sf min delta_x delta_y x y edgeIntersections st
                edge).ext.mesh.vertices =
              st.ext.mesh.vertices ++
                [⟨segmentPoint
                  (latticePosition T delta_x delta_y x y edge
                    (T.mcTransvoxel_transitionCellEdgeSamples edge).1)
                  (latticePosition T delta_x delta_y x y edge
                    (T.mcTransvoxel_transitionCellEdgeSamples edge).2) w⟩] := by
  cases v1 with
  | finite b =>
    have hsides : OppositeSides v0 b := (oppositeSidesFloat_finite v0 b).1 h
    obtain ⟨hne, hlo, hhi⟩ := interpolationWeight_bounds v0 b hsides
    have hab : v0 ≠ b := fun hab => hne (sub_eq_zero.2 hab)
    have hw := interpolationWeightFloat_finite v0 b hab
    refine ⟨?_, ?_, interpolationWeight v0 b, hw, hlo, hhi, ?_, ?_⟩
    · simp only [CFloat.sub, ne_eq, CFloat.finite.injEq]
      exact hne
    · simp [CFloat.sub]
    · simp only [edgeVertexFloat, hw, mcVec3_lerp_eq_segmentPoint]
    · intro b1 hb1
      obtain rfl : b = b1 := by simpa using hb1
      refine ⟨rfl, ?_, ?_⟩
      · simp only [edgeVertex, mcVec3_lerp_eq_segmentPoint]
      · intro T sf min delta_x delta_y x y edgeIntersections st edge hlisted hvalues
        rw [(edgeLoopStep_listed T sf min delta_x delta_y x y edgeIntersections st edge
          hlisted).1]
        simp only [cellEdgeVertex, edgeVertex, hvalues, mcVec3_lerp_eq_segmentPoint]
  | posInf =>
    have hw : interpolationWeightFloat (.finite v0) .posInf = .finite 0 := by
      simp [interpolationWeightFloat, CFloat.sub, CFloat.div, CFloat.fabs]
    refine ⟨by simp [CFloat.sub], by simp [CFloat.sub], 0, hw, le_refl 0, zero_le_one, ?_, ?_⟩
    · simp only [edgeVertexFloat, hw, mcVec3_lerp_eq_segmentPoint]
    · intro b hb
      exact CFloat.noConfusion hb
  | negInf =>
    have hw : interpolationWeightFloat (.finite v0) .negInf = .finite 0 := by
      simp [interpolationWeightFloat, CFloat.sub, CFloat.div, CFloat.fabs]
    refine ⟨by simp [CFloat.sub], by simp [CFloat.sub], 0, hw, le_refl 0, zero_le_one, ?_, ?_⟩
    · simp only [edgeVertexFloat, hw, mcVec3_lerp_eq_segmentPoint]
    · intro b hb
      exact CFloat.noConfusion hb
  | nan =>
    exfalso
    simp [OppositeSidesFloat, CFloat.lt, CFloat.ge] at h

set_option maxRecDepth 100000 in
/-- The statement of the amended C21 at the values `-1` and `1`, the values the
field that is `-1` below `y = 1/4` and `1` from it on takes at the two samples
of edge 6 of the only cell of the 2x2 lattice of the unit square: the weight is
`1/2` and the vertex appended for that edge is the midpoint `(0, 1/4, 0)` of the
segment from `(0, 0, 0)` to `(0, 1/2, 0)`. -/
theorem weight_in_unit_interval_witness :
    OppositeSidesFloat (.finite (-1)) (.finite 1) ∧
    edgeValues specTransition stepField ⟨0, 0, 0⟩ 1 1 0 0 6 = (-1, 1) ∧
    interpolationWeightFloat (.finite (-1)) (.finite 1) = .finite (1 / 2) ∧
    edgeVertexFloat ⟨0, 0, 0⟩ ⟨0, 1 / 2, 0⟩ (.finite (-1)) (.finite 1) =
      some ⟨⟨0, 1 / 4, 0⟩⟩ ∧
    (edgeLoopStep specTransition stepField ⟨0, 0, 0⟩ 1 1 0 0 (Spec.transitionEdgeRow 7)
        initialEdgeLoopState 6).ext.mesh.vertices = [⟨⟨0, 1 / 4, 0⟩⟩] ∧
    (CFloat.sub (.finite (-1)) (.finite 1) ≠ .finite 0 ∧
    CFloat.sub (.finite (-1)) (.finite 1) ≠ .nan ∧
    ∃ w : ℚ, interpolationWeightFloat (.finite (-1)) (.finite 1) = .finite w ∧ 0 ≤ w ∧ w ≤ 1 ∧
      edgeVertexFloat ⟨0, 0, 0⟩ ⟨0, 1 / 2, 0⟩ (.finite (-1)) (.finite 1) =
        some ⟨segmentPoint ⟨0, 0, 0⟩ ⟨0, 1 / 2, 0⟩ w⟩ ∧
      (edgeLoopStep specTransition stepField ⟨0, 0, 0⟩ 1 1 0 0 (Spec.transitionEdgeRow 7)
          initialEdgeLoopState 6).ext.mesh.vertices =
        initialEdgeLoopState.ext.mesh.vertices ++
          [⟨segmentPoint
            (latticePosition specTransition 1 1 0 0 6
              (specTransition.mcTransvoxel_transitionCellEdgeSamples 6).1)
            (latticePosition specTransition 1 1 0 0 6
              (specTransition.mcTransvoxel_transitionCellEdgeSamples 6).2) w⟩]) :=
  ⟨by decide!, by decide!, by decide!, by decide!, by decide!,
    (weight_in_unit_interval ⟨0, 0, 0⟩ ⟨0, 1 / 2, 0⟩ (-1) (.finite 1) (by decide!)).1,
    (weight_in_unit_interval ⟨0, 0, 0⟩ ⟨0, 1 / 2, 0⟩ (-1) (.finite 1) (by decide!)).2.1,
    (weight_in_unit_interval ⟨0, 0, 0⟩ ⟨0, 1 / 2, 0⟩ (-1) (.finite 1)
      (by decide!)).2.2.imp (fun _ hw =>
        ⟨hw.1, hw.2.1, hw.2.2.1, hw.2.2.2.1,
          (hw.2.2.2.2 1 rfl).2.2 specTransition stepField ⟨0, 0, 0⟩ 1 1 0 0
            (Spec.transitionEdgeRow 7) initialEdgeLoopState 6 (by decide!) (by decide!)⟩)⟩

/-! ## The edge list of an inverted cube -/

/-- The bit of a vertex in a configuration, as a truth value. -/
theorem shiftRight_and_one (cube vertex : Nat) :
    (cube >>> vertex) &&& 1 = (cube.testBit vertex).toNat := by
  rw [Nat.toNat_testBit, Nat.and_one_is_mod, Nat.shiftRight_eq_div_pow]

/-- Inverting a cube flips the bit of each of its eight vertices. -/
theorem testBit_inverted (cube vertex : Nat) (h : vertex < 8) :
    (cube ^^^ 0xFF).testBit vertex = !cube.testBit vertex := by
  rw [Nat.testBit_xor]
  have hff : (0xFF : Nat).testBit vertex = true := by
    interval_cases vertex <;> decide
  rw [hff]
  cases cube.testBit vertex <;> rfl

/-- The test of `computeEdgeList` on an edge has the same outcome on a cube and
on its inverse, when the vertex value is the bit of the vertex. -/
theorem edgeIntersected_inverted (E : CubeEngine) (hE : E.VertexValueIsBit)
    (cube edge : Nat) (hedge : edge < 12) :
    edgeIntersected E (cube ^^^ 0xFF) edge ↔ edgeIntersected E cube edge := by
  obtain ⟨hbit, hvert⟩ := hE
  obtain ⟨h1, h2⟩ := hvert ⟨edge, hedge⟩
  simp only at h1 h2
  unfold edgeIntersected
  rw [hbit, hbit, hbit, hbit, shiftRight_and_one, shiftRight_and_one, shiftRight_and_one,
    shiftRight_and_one, testBit_inverted _ _ h1, testBit_inverted _ _ h2]
  cases cube.testBit (E.mcCube_edgeVertices edge).1 <;>
    cases cube.testBit (E.mcCube_edgeVertices edge).2 <;> simp

/-- One iteration of the loop of `computeEdgeList` does the same on a cube and
on its inverse. -/
theorem computeEdgeList_step_inverted (E : CubeEngine) (hE : E.VertexValueIsBit)
    (cube edge : Nat) (hedge : edge < 12) (st : EdgeListState) :
    computeEdgeList_step E (cube ^^^ 0xFF) st edge = computeEdgeList_step E cube st edge := by
  have h := edgeIntersected_inverted E hE cube edge hedge
  unfold edgeIntersected at h
  unfold computeEdgeList_step
  simp only
  by_cases hc : E.mcCube_vertexValue (E.mcCube_edgeVertices edge).1 cube
      ≠ E.mcCube_vertexValue (E.mcCube_edgeVertices edge).2 cube
  · rw [if_pos hc, if_pos (h.2 hc)]
  · rw [if_neg hc, if_neg (fun hi => hc (h.1 hi))]

/-- C22: the edge list is invariant under cube inversion: for every cube
configuration `c` (in particular every `c` in `[0, 255]`, whose inverse
`c XOR 0xFF` is in `[0, 255]` again), `computeEdgeList(c)` and
`computeEdgeList(c XOR 0xFF)` write identical edge lists: started on the same
row they leave the same row and the same `listIndex`, and the rows
`edgeTable[c]` and `edgeTable[c XOR 0xFF]` of `main` are equal. The vertex
value of the cube engine is taken to be the bit of the vertex in the
configuration. -/
theorem computeEdgeList_inverse_cube (E : CubeEngine) (hE : E.VertexValueIsBit)
    (cube : Nat) (hcube : cube < 256) :
    cube ^^^ 0xFF < 256 ∧
    (∀ edgeList : List Int,
      computeEdgeList_loop E (cube ^^^ 0xFF) edgeList = computeEdgeList_loop E cube edgeList ∧
      computeEdgeList E (cube ^^^ 0xFF) edgeList = computeEdgeList E cube edgeList) ∧
    edgeTableRow E (cube ^^^ 0xFF) = edgeTableRow E cube := by
  have hloop : ∀ edgeList : List Int,
      computeEdgeList_loop E (cube ^^^ 0xFF) edgeList = computeEdgeList_loop E cube edgeList := by
    intro edgeList
    unfold computeEdgeList_loop
    apply List.foldl_ext
    intro st edge hmem
    exact computeEdgeList_step_inverted E hE cube edge (List.mem_range.1 hmem) st
  refine ⟨?_, fun edgeList => ⟨hloop edgeList, ?_⟩, ?_⟩
  · exact @Nat.xor_lt_two_pow cube 0xFF 8 hcube (by decide)
  · unfold computeEdgeList
    rw [hloop]
  · unfold edgeTableRow computeEdgeList
    rw [hloop]

/-- The statement of C22 at the configuration `0x32` of the cube engine
modelled from the specification, whose vertex value is the bit of the vertex:
the configurations `0x32` and `0xCD` have the same row of the edge table, the
edges 0, 1, 5, 7 and 8. -/
theorem computeEdgeList_inverse_cube_witness :
    specEngine.VertexValueIsBit ∧ (0x32 : Nat) < 256 ∧ (0x32 : Nat) ^^^ 0xFF = 0xCD ∧
    edgeTableRow specEngine 0x32 = [0, 1, 5, 7, 8, -1, -1, -1, -1, -1, -1, -1] ∧
    edgeTableRow specEngine 0xCD = [0, 1, 5, 7, 8, -1, -1, -1, -1, -1, -1, -1] ∧
    ((0x32 : Nat) ^^^ 0xFF < 256 ∧
    (∀ edgeList : List Int,
      computeEdgeList_loop specEngine (0x32 ^^^ 0xFF) edgeList =
        computeEdgeList_loop specEngine 0x32 edgeList ∧
      computeEdgeList specEngine (0x32 ^^^ 0xFF) edgeList =
        computeEdgeList specEngine 0x32 edgeList) ∧
    edgeTableRow specEngine (0x32 ^^^ 0xFF) = edgeTableRow specEngine 0x32) :=
  ⟨⟨fun _ _ => rfl, by decide⟩, by decide, by decide, by decide, by decide,
    computeEdgeList_inverse_cube specEngine ⟨fun _ _ => rfl, by decide⟩ 0x32 (by decide)⟩

/-! ## Degenerate triangles -/

/-- The hand-authored triangles of every case of the `switch`, and of the
default (no case, index 15), are not degenerate. -/
theorem canonicalTriangles_nondegenerate (k : Nat) (hk : k < 16) :
    ∀ t ∈ canonicalTriangles k, t.Nondegenerate := by
  interval_cases k <;> decide

/-- A map that permutes the edge ids sends different edge ids to different
edge ids however often it is applied. -/
theorem iterate_injective_on_edgeIds (f : Int → Int)
    (hf : ∀ e, IsEdgeId e → IsEdgeId (f e))
    (hinj : ∀ a b, IsEdgeId a → IsEdgeId b → f a = f b → a = b)
    (n : Nat) (a b : Int) (ha : IsEdgeId a) (hb : IsEdgeId b)
    (h : f^[n] a = f^[n] b) : a = b := by
  induction n generalizing a b with
  | zero => simpa using h
  | succ n ih =>
    rw [Function.iterate_succ_apply, Function.iterate_succ_apply] at h
    exact hinj a b ha hb (ih (f a) (f b) (hf a ha) (hf b hb) h)

/-- Rotating back sends different edge ids to different edge ids when the
reverse remaps permute the edge ids. -/
theorem rotateEdgeBack_injective (E : CubeEngine) (hE : E.ReversePermutesEdgeIds)
    (rotation : Nat) (a b : Int) (ha : IsEdgeId a) (hb : IsEdgeId b)
    (h : rotateEdgeBack E rotation a = rotateEdgeBack E rotation b) : a = b := by
  obtain ⟨hmaps, hperm⟩ := hE
  have hx : ∀ e, IsEdgeId e → IsEdgeId (E.mcCube_rotateEdgeReverseX e) := by
    intro e he
    obtain ⟨i, rfl⟩ := he.exists_fin
    exact (hmaps i).1
  have hy : ∀ e, IsEdgeId e → IsEdgeId (E.mcCube_rotateEdgeReverseY e) := by
    intro e he
    obtain ⟨i, rfl⟩ := he.exists_fin
    exact (hmaps i).2.1
  have hz : ∀ e, IsEdgeId e → IsEdgeId (E.mcCube_rotateEdgeReverseZ e) := by
    intro e he
    obtain ⟨i, rfl⟩ := he.exists_fin
    exact (hmaps i).2.2
  have ix : ∀ a b, IsEdgeId a → IsEdgeId b →
      E.mcCube_rotateEdgeReverseX a = E.mcCube_rotateEdgeReverseX b → a = b := by
    intro a b ha hb hab
    obtain ⟨i, rfl⟩ := ha.exists_fin
    obtain ⟨j, rfl⟩ := hb.exists_fin
    rw [(hperm i j).1 hab]
  have iy : ∀ a b, IsEdgeId a → IsEdgeId b →
      E.mcCube_rotateEdgeReverseY a = E.mcCube_rotateEdgeReverseY b → a = b := by
    intro a b ha hb hab
    obtain ⟨i, rfl⟩ := ha.exists_fin
    obtain ⟨j, rfl⟩ := hb.exists_fin
    rw [(hperm i j).2.1 hab]
  have iz : ∀ a b, IsEdgeId a → IsEdgeId b →
      E.mcCube_rotateEdgeReverseZ a = E.mcCube_rotateEdgeReverseZ b → a = b := by
    intro a b ha hb hab
    obtain ⟨i, rfl⟩ := ha.exists_fin
    obtain ⟨j, rfl⟩ := hb.exists_fin
    rw [(hperm i j).2.2 hab]
  unfold rotateEdgeBack at h
  have hya := isEdgeId_iterate _ hy (get_byte rotation 2) a ha
  have hyb := isEdgeId_iterate _ hy (get_byte rotation 2) b hb
  have hxa := isEdgeId_iterate _ hx (get_byte rotation 1) _ hya
  have hxb := isEdgeId_iterate _ hx (get_byte rotation 1) _ hyb
  have h1 := iterate_injective_on_edgeIds _ hz iz _ _ _ hxa hxb h
  have h2 := iterate_injective_on_edgeIds _ hx ix _ _ _ hya hyb h1
  exact iterate_injective_on_edgeIds _ hy iy _ a b ha hb h2

/-- A triangle that is not degenerate is not degenerate after it is rotated
back, when the reverse remaps permute the edge ids. -/
theorem rotateTriangleBack_nondegenerate (E : CubeEngine) (hE : E.ReversePermutesEdgeIds)
    (rotation : Nat) (t : mcSimpleTriangle) (ht : t.Nondegenerate) :
    (rotateTriangleBack E rotation t).Nondegenerate := by
  obtain ⟨h0, h1, h2, h01, h02, h12⟩ := ht
  refine ⟨isEdgeId_rotateEdgeBack E hE.1 _ _ h0, isEdgeId_rotateEdgeBack E hE.1 _ _ h1,
    isEdgeId_rotateEdgeBack E hE.1 _ _ h2, ?_, ?_, ?_⟩
  · exact fun h => h01 (rotateEdgeBack_injective E hE rotation _ _ h0 h1 h)
  · exact fun h => h02 (rotateEdgeBack_injective E hE rotation _ _ h0 h2 h)
  · exact fun h => h12 (rotateEdgeBack_injective E hE rotation _ _ h1 h2 h)

/-- C23: no generated triangle is degenerate: each triangle of each of the 15
hand-authored canonical sets names three pairwise distinct edge ids in
`[0, 11]`, and, provided each reverse edge remap is a permutation of the edge
ids `0` to `11`, so does every triangle of `computeTriangleList(c)` for every
configuration `c`: every triangle the sentinel-terminated scan of the row sees,
which are all the slots of the row that are not the sentinel triangle. -/
theorem no_degenerate_triangle :
    (∀ k, k < 15 → ∀ t ∈ canonicalTriangles k, t.Nondegenerate) ∧
    ∀ (E : CubeEngine), E.ReversePermutesEdgeIds → ∀ cube : Nat,
      (∀ t ∈ scanTriangles (computeTriangleList E cube), t.Nondegenerate) ∧
      (∀ t ∈ computeTriangleList E cube, t = sentinelTriangle ∨ t.Nondegenerate) := by
  refine ⟨fun k hk => canonicalTriangles_nondegenerate k (by omega), ?_⟩
  intro E hE cube
  obtain ⟨k, hk, _, hres⟩ := computeTriangleList_eq E cube
  have hprod : ∀ t ∈ (canonicalTriangles k).map
      (rotateTriangleBack E (E.mcCube_canonicalRotation cube)), t.Nondegenerate := by
    intro t ht
    obtain ⟨u, hu, rfl⟩ := List.mem_map.1 ht
    exact rotateTriangleBack_nondegenerate E hE _ u (canonicalTriangles_nondegenerate k hk u hu)
  constructor
  · rw [hres, scanTriangles_append]
    · exact hprod
    · intro t ht
      have := (hprod t ht).1.1
      omega
  · intro t ht
    rw [hres, List.mem_append] at ht
    rcases ht with ht | ht
    · exact Or.inr (hprod t ht)
    · exact Or.inl (List.mem_replicate.1 ht).2

/-- The statement of C23 at the canonical set of case 14 and at the
configuration `0x32` of the cube engine modelled from the specification, whose
reverse remaps permute the edge ids. -/
theorem no_degenerate_triangle_witness :
    (14 : Nat) < 15 ∧ canonicalTriangles 14 = [⟨0, 1, 9⟩, ⟨2, 3, 10⟩, ⟨4, 7, 8⟩, ⟨5, 11, 6⟩] ∧
    (∀ t ∈ canonicalTriangles 14, t.Nondegenerate) ∧
    specEngine.ReversePermutesEdgeIds ∧
    (∀ t ∈ scanTriangles (computeTriangleList specEngine 0x32), t.Nondegenerate) ∧
    (∀ t ∈ computeTriangleList specEngine 0x32, t = sentinelTriangle ∨ t.Nondegenerate) :=
  ⟨by decide, by decide, no_degenerate_triangle.1 14 (by decide), by decide!,
    (no_degenerate_triangle.2 specEngine (by decide!) 0x32).1,
    (no_degenerate_triangle.2 specEngine (by decide!) 0x32).2⟩

end MC
